import Mathlib

/-! # zrockford32: a shallow embedding of the codec and its streaming adapters

Bytes are natural numbers below 256, Go slices and strings are lists of bytes,
Go `int` values are `Int` where the code relies on their sign and `Nat`
otherwise.  A run of a function either returns (`Except.ok`) or stops with a
`Fault`: a Go run-time panic, or the recursion budget of a loop running out.
-/

namespace Zrockford32

/-! ## The codec: data model and whole-buffer functions -/

deriving instance DecidableEq for Except

/-- Abnormal ends of a run: a Go index-out-of-range panic, or a loop of the
model using up its recursion budget. -/
inductive Fault where
  | indexOutOfRange
  | outOfFuel
  deriving DecidableEq, Repr

/-- Values of Go type `error` that the package creates or passes on. -/
inductive Error where
  /-- `CorruptInputError(offset)`. -/
  | corruptInput (offset : Int)
  /-- `errors.New("cannot decode a negative bit count")`. -/
  | negativeBitCount
  /-- `io.EOF`. -/
  | eof
  /-- Any other error value, produced by a collaborator. -/
  | other (tag : Nat)
  deriving DecidableEq, Repr

/-- Left shift on the Go type `byte`: the result is truncated to 8 bits. -/
def shl8 (x k : Nat) : Nat := (x <<< k) % 256

/-- Slice or array store `a[i] = v`; an index outside the slice panics. -/
def store (a : List Nat) (i v : Nat) : Except Fault (List Nat) :=
  if i < a.length then .ok (a.set i v) else .error .indexOutOfRange

/-- Slice or string read `a[i]`; an index outside the slice panics. -/
def load (a : List Nat) (i : Nat) : Except Fault Nat :=
  match a[i]? with
  | some v => .ok v
  | none => .error .indexOutOfRange

/-- Bytes of `const encodeStd = "YBNDRFG8EJKMCPQX0T1VW2SZA345H769"`. -/
def encodeStd : List Nat := "YBNDRFG8EJKMCPQX0T1VW2SZA345H769".toList.map Char.toNat

/-- Bytes of `const encodeLwr = "ybndrfg8ejkmcpqx0t1vw2sza345h769"`. -/
def encodeLwr : List Nat := "ybndrfg8ejkmcpqx0t1vw2sza345h769".toList.map Char.toNat

/-- The `Encoding` struct: the alphabet string and the 256-entry decode table. -/
structure Encoding where
  encoder : List Nat
  decodeMap : List Nat
  deriving DecidableEq, Repr

/-- `NewEncoding`: fill the zero-initialised table with 0xFF, then store
`byte(i)` at the position of every alphabet byte, in order. -/
def NewEncoding (encoder : List Nat) : Encoding :=
  let filled := (List.range 256).foldl (fun m i => m.set i 0xFF) (List.replicate 256 0)
  let decodeMap :=
    (List.range encoder.length).foldl (fun m i => m.set (encoder.getD i 0) (i % 256)) filled
  { encoder := encoder, decodeMap := decodeMap }

def StdEncoding : Encoding := NewEncoding encodeStd

def LwrEncoding : Encoding := NewEncoding encodeLwr

/-- The value `char` computed by one pass of the loop of `encode`, from the
two bytes `b0`, `b1` it reads, the bit cursor `i` and the bit count `bits`. -/
def encodeChar (b0 b1 i : Nat) (bits : Int) : Nat :=
  let offset := i % 8
  let char :=
    if offset < 4 then
      (b0 &&& shl8 31 (3 - offset)) >>> (3 - offset)
    else
      shl8 (b0 &&& (31 >>> (offset - 3))) (offset - 3) |||
        ((b1 &&& shl8 255 (11 - offset)) >>> (11 - offset))
  if 0 ≤ bits ∧ bits < (i : Int) + 5 then
    char &&& shl8 255 ((i : Int) + 5 - bits).toNat
  else char

/-- The loop of `encode`, started at cursor `i` and output position `off`.
Returns the destination after the writes and the final `off`. -/
def encodeLoop (e : Encoding) (bits : Int) :
    Nat → List Nat → List Nat → Nat → Nat → Except Fault (List Nat × Nat)
  | 0, dst, src, i, off =>
    if (i : Int) < bits ∨ (bits < 0 ∧ 0 < src.length) then .error .outOfFuel
    else .ok (dst, off)
  | fuel + 1, dst, src, i, off =>
    if (i : Int) < bits ∨ (bits < 0 ∧ 0 < src.length) then
      match src with
      | [] => .error .indexOutOfRange
      | b0 :: rest =>
        let b1 := match rest with
          | [] => 0
          | b :: _ => b
        match load e.encoder (encodeChar b0 b1 i bits) with
        | .error f => .error f
        | .ok c =>
          match store dst off c with
          | .error f => .error f
          | .ok dst1 =>
            encodeLoop e bits fuel dst1 (if 2 < i % 8 then rest else b0 :: rest) (i + 5) (off + 1)
    else .ok (dst, off)

/-- `Encoding.encode`.  The cursor grows by 5 on every pass and stays below
`bits`, or below `8 * len(src)` when `bits` is negative, so the budget given
here is never used up. -/
def encode (e : Encoding) (dst src : List Nat) (bits : Int) : Except Fault (List Nat × Nat) :=
  encodeLoop e bits (bits.toNat + 8 * src.length) dst src 0 0

/-- `Encoding.EncodeBits`. -/
def EncodeBits (e : Encoding) (dst src : List Nat) (bits : Int) : Except Fault (List Nat × Nat) :=
  if bits < 0 then .ok (dst, 0) else encode e dst src bits

/-- `Encoding.Encode`. -/
def Encode (e : Encoding) (dst src : List Nat) : Except Fault (List Nat × Nat) :=
  encode e dst src (-1)

/-- `Encoding.EncodedLen`. -/
def EncodedLen (n : Nat) : Nat := (n + 4) / 5 * 8

/-- `Encoding.DecodedLen`. -/
def DecodedLen (n : Nat) : Nat := (n + 7) / 8 * 5

/-- `Encoding.EncodeToString`. -/
def EncodeToString (e : Encoding) (src : List Nat) : Except Fault (List Nat) :=
  match Encode e (List.replicate (EncodedLen src.length) 0) src with
  | .error f => .error f
  | .ok (buffer, n) => .ok (buffer.take n)

/-- `Encoding.EncodeBitsToString`. -/
def EncodeBitsToString (e : Encoding) (src : List Nat) (bits : Int) : Except Fault (List Nat) :=
  match EncodeBits e (List.replicate (EncodedLen src.length) 0) src bits with
  | .error f => .error f
  | .ok (dst, n) => .ok (dst.take n)

/-- How the inner loop of `decode` ends: with a corrupt-input return, or with
`j` symbols of the group read, the rest of the input and the group buffer. -/
inductive Scan where
  | corrupt (offset : Int)
  | group (j : Nat) (rest : List Nat) (dbuffer : List Nat)
  deriving DecidableEq, Repr

/-- The inner loop of `decode` (`for ; j < 8; j++`), from counter `j`. -/
def decodeScan (e : Encoding) (offlen : Nat) : List Nat → Nat → List Nat → Except Fault Scan
  | [], j, dbuffer => .ok (.group j [] dbuffer)
  | c :: rest, j, dbuffer =>
    if j < 8 then
      match load e.decodeMap c with
      | .error f => .error f
      | .ok v =>
        if v = 0xFF then .ok (.corrupt ((offlen : Int) - (rest.length : Int) - 1))
        else decodeScan e offlen rest (j + 1) (dbuffer.set j v)
    else .ok (.group j (c :: rest) dbuffer)

/-- The table `lookup` of `decode`. -/
def lookup : List Nat := [0, 1, 1, 2, 2, 3, 4, 4, 5]

/-- The five stores `dst[off+0..off+4]` that `decode` makes for one group. -/
def decodeStore (dst : List Nat) (off : Nat) (d : List Nat) : Except Fault (List Nat) := do
  let dst ← store dst (off + 0) (shl8 (d.getD 0 0) 3 ||| (d.getD 1 0 >>> 2))
  let dst ← store dst (off + 1) (shl8 (d.getD 1 0) 6 ||| shl8 (d.getD 2 0) 1 ||| (d.getD 3 0 >>> 4))
  let dst ← store dst (off + 2) (shl8 (d.getD 3 0) 4 ||| (d.getD 4 0 >>> 1))
  let dst ← store dst (off + 3) (shl8 (d.getD 4 0) 7 ||| shl8 (d.getD 5 0) 2 ||| (d.getD 6 0 >>> 3))
  store dst (off + 4) (shl8 (d.getD 6 0) 5 ||| d.getD 7 0)

/-- The outer loop of `decode` (`for len(src) > 0`).  Returns the destination
after the writes, the byte count `off` and the error. -/
def decodeLoop (e : Encoding) (offlen : Nat) :
    Nat → List Nat → List Nat → Int → Nat → Except Fault (List Nat × Nat × Option Error)
  | _, dst, [], _, off => .ok (dst, off, none)
  | 0, _, _ :: _, _, _ => .error .outOfFuel
  | fuel + 1, dst, c :: cs, bits, off =>
    match decodeScan e offlen (c :: cs) 0 (List.replicate 8 0) with
    | .error f => .error f
    | .ok (.corrupt k) => .ok (dst, off, some (.corruptInput k))
    | .ok (.group j rest dbuffer) =>
      match decodeStore dst off dbuffer with
      | .error f => .error f
      | .ok dst1 =>
        if bits < 0 then
          match load lookup j with
          | .error f => .error f
          | .ok l => decodeLoop e offlen fuel dst1 rest bits (off + l)
        else
          let bitsInBlock := if bits > 40 then 40 else bits
          decodeLoop e offlen fuel dst1 rest (bits - 40) (off + ((bitsInBlock + 7) / 8).toNat)

/-- `Encoding.decode`.  Every pass of the outer loop consumes at least one
input byte, so `len(src)` passes are enough. -/
def decode (e : Encoding) (dst src : List Nat) (bits : Int) :
    Except Fault (List Nat × Nat × Option Error) :=
  decodeLoop e src.length src.length dst src bits 0

/-- `Encoding.DecodeBits`. -/
def DecodeBits (e : Encoding) (dst src : List Nat) (bits : Int) :
    Except Fault (List Nat × Nat × Option Error) :=
  if bits < 0 then .ok (dst, 0, some .negativeBitCount) else decode e dst src bits

/-- `Encoding.Decode`. -/
def Decode (e : Encoding) (dst src : List Nat) : Except Fault (List Nat × Nat × Option Error) :=
  decode e dst src (-1)

/-- `Encoding.decodeString`; a nil slice is the empty list. -/
def decodeString (e : Encoding) (s : List Nat) (bits : Int) :
    Except Fault (List Nat × Option Error) :=
  match decode e (List.replicate (DecodedLen s.length) 0) s bits with
  | .error f => .error f
  | .ok (_, _, some err) => .ok ([], some err)
  | .ok (dst, n, none) => .ok (dst.take n, none)

/-- `Encoding.DecodeBitsString`. -/
def DecodeBitsString (e : Encoding) (s : List Nat) (bits : Int) :
    Except Fault (List Nat × Option Error) :=
  if bits < 0 then .ok ([], some .negativeBitCount) else decodeString e s bits

/-- `Encoding.DecodeString`. -/
def DecodeString (e : Encoding) (s : List Nat) : Except Fault (List Nat × Option Error) :=
  decodeString e s (-1)

/-! ## Vocabulary of the statements and proofs -/

/-- Bytes of an ASCII string literal. -/
def ascii (s : String) : List Nat := s.toList.map Char.toNat

/-- Bit `p` of `src` read as one most-significant-bit-first bit stream; a
position past the last byte reads as zero. -/
def bitAt (src : List Nat) (p : Nat) : Nat := src.getD (p / 8) 0 / 2 ^ (7 - p % 8) % 2

/-- Bit `p` of the stream cut off after `bits` bits. -/
def bitBelow (src : List Nat) (bits p : Nat) : Nat := if p < bits then bitAt src p else 0

/-- The 5-bit number formed by bits `5k .. 5k+4` of the stream. -/
def refSymbol (src : List Nat) (k : Nat) : Nat :=
  16 * bitAt src (5 * k) + 8 * bitAt src (5 * k + 1) + 4 * bitAt src (5 * k + 2) +
    2 * bitAt src (5 * k + 3) + bitAt src (5 * k + 4)

/-- The 5-bit number formed by bits `5k .. 5k+4` of the stream cut off after
`bits` bits. -/
def refSymbolBits (src : List Nat) (bits k : Nat) : Nat :=
  16 * bitBelow src bits (5 * k) + 8 * bitBelow src bits (5 * k + 1) +
    4 * bitBelow src bits (5 * k + 2) + 2 * bitBelow src bits (5 * k + 3) +
    bitBelow src bits (5 * k + 4)

/-- The value `char` of pass `k` of `encode` over the whole source `src`: the
pass reads `src[5k/8]` and, when present, `src[5k/8+1]`. -/
def charAt (src : List Nat) (bits : Int) (k : Nat) : Nat :=
  encodeChar (src.getD (5 * k / 8) 0) (src.getD (5 * k / 8 + 1) 0) (5 * k) bits

/-- The destination after `syms` has been written at positions `off ..`. -/
def splice (dst : List Nat) (off : Nat) (syms : List Nat) : List Nat :=
  dst.take off ++ syms ++ dst.drop (off + syms.length)

/-- The unmasked value of `char`, for any operands. -/
def rawChar (b0 b1 o : Nat) : Nat :=
  if o < 4 then (b0 &&& shl8 31 (3 - o)) >>> (3 - o)
  else shl8 (b0 &&& (31 >>> (o - 3))) (o - 3) ||| ((b1 &&& shl8 255 (11 - o)) >>> (11 - o))

/-- The 5-bit window of the 16-bit word `b0 b1` that starts at bit `o`. -/
def window (b0 b1 o : Nat) : Nat := (b0 * 256 + b1) / 2 ^ (11 - o) % 32

/-- The symbols of the passes `0 .. m-1` of `encode` over `src`. -/
def symbols (e : Encoding) (src : List Nat) (bits : Int) (m : Nat) : List Nat :=
  (List.range m).map (fun j => e.encoder.getD (charAt src bits j) 0)

/-- A well-formed alphabet: 32 distinct bytes. -/
def Alphabet (a : List Nat) : Prop := a.length = 32 ∧ a.Nodup ∧ ∀ c ∈ a, c < 256

instance (a : List Nat) : Decidable (Alphabet a) := by
  unfold Alphabet; infer_instance

/-- The second loop of `NewEncoding`, run for the first `n` alphabet bytes. -/
def tableAfter (a : List Nat) (n : Nat) (m0 : List Nat) : List Nat :=
  (List.range n).foldl (fun m i => m.set (a.getD i 0) (i % 256)) m0

/-- The table entry of an input byte. -/
def dval (e : Encoding) (c : Nat) : Nat := e.decodeMap.getD c 0

/-- An input byte that the inner loop of `decode` accepts. -/
def Valid (e : Encoding) (c : Nat) : Prop := c < e.decodeMap.length ∧ dval e c ≠ 0xFF

instance (e : Encoding) (c : Nat) : Decidable (Valid e c) := by
  unfold Valid; infer_instance

/-- The group buffer after the values `vs` were stored from position `j` on. -/
def fill : List Nat → Nat → List Nat → List Nat
  | db, _, [] => db
  | db, j, v :: vs => fill (db.set j v) (j + 1) vs

/-- The five bytes that `decode` computes from a group buffer. -/
def bytes5 (d : List Nat) : List Nat :=
  [shl8 (d.getD 0 0) 3 ||| (d.getD 1 0 >>> 2),
   shl8 (d.getD 1 0) 6 ||| shl8 (d.getD 2 0) 1 ||| (d.getD 3 0 >>> 4),
   shl8 (d.getD 3 0) 4 ||| (d.getD 4 0 >>> 1),
   shl8 (d.getD 4 0) 7 ||| shl8 (d.getD 5 0) 2 ||| (d.getD 6 0 >>> 3),
   shl8 (d.getD 6 0) 5 ||| d.getD 7 0]

/-- The group buffer of a group of accepted bytes `g`. -/
def groupBuffer (e : Encoding) (g : List Nat) : List Nat :=
  g.map (dval e) ++ List.replicate (8 - g.length) 0

/-- The number of bytes `decode` counts for a group of `j` symbols. -/
def groupCount (bits : Int) (j : Nat) : Nat :=
  if bits < 0 then lookup.getD j 0 else (((if bits > 40 then 40 else bits) + 7) / 8).toNat

/-- The bit count `decode` carries to the next group. -/
def nextBits (bits : Int) : Int := if bits < 0 then bits else bits - 40

/-- The byte count of byte-aligned decoding of `n` accepted symbols. -/
def decodedCount (n : Nat) : Nat := 5 * (n / 8) + [0, 1, 1, 2, 2, 3, 4, 4].getD (n % 8) 0

/-! ## The streaming encoder -/

/-- Slice expression `a[lo:hi]`; bounds outside the slice panic. -/
def slice (a : List Nat) (lo hi : Nat) : Except Fault (List Nat) :=
  if lo ≤ hi ∧ hi ≤ a.length then .ok ((a.take hi).drop lo) else .error .indexOutOfRange

/-- An `io.Writer` with states of type `σ`: `Write(p)` gives the next state
and the error; the code ignores the count. -/
structure Writer (σ : Type) where
  write : σ → List Nat → σ × Option Error

/-- The `encoder` struct; `writer` holds the state of the sink. -/
structure encoder (σ : Type) where
  encoding : Encoding
  writer : σ
  buffer : List Nat
  nbuffer : Nat
  output : List Nat
  err : Option Error

/-- `NewEncoder`: the arrays start zeroed. -/
def NewEncoder {σ : Type} (encoding : Encoding) (writer : σ) : encoder σ :=
  { encoding := encoding, writer := writer, buffer := List.replicate 5 0, nbuffer := 0,
    output := List.replicate 1024 0, err := none }

/-- The leading-fringe loop of `Write`
(`for i = 0; i < len(p) && e.nbuffer < 5; i++`), from counter `i` with `p[i:]`
still to read.  Returns the buffer, `nbuffer`, the unread input and `i`. -/
def fringeLoop : List Nat → Nat → List Nat → Nat → Except Fault (List Nat × Nat × List Nat × Nat)
  | buffer, nbuffer, [], i => .ok (buffer, nbuffer, [], i)
  | buffer, nbuffer, b :: p, i =>
    if nbuffer < 5 then
      match store buffer nbuffer b with
      | .error f => .error f
      | .ok buffer1 => fringeLoop buffer1 (nbuffer + 1) p (i + 1)
    else .ok (buffer, nbuffer, b :: p, i)

/-- Encode `src` into `e.output` and hand the symbols to the sink:
`m := e.encoding.Encode(e.output[0:], src); _, e.err = e.writer.Write(e.output[0:m])`. -/
def flush {σ : Type} (w : Writer σ) (e : encoder σ) (src : List Nat) : Except Fault (encoder σ) :=
  match Encode e.encoding e.output src with
  | .error f => .error f
  | .ok (output, m) =>
    match slice output 0 m with
    | .error f => .error f
    | .ok syms =>
      .ok { e with output := output, writer := (w.write e.writer syms).1,
                   err := (w.write e.writer syms).2 }

/-- The interior loop of `Write` (`for len(p) >= 5`).  Returns the encoder,
the count `n`, the unread input, and the error when the loop returned from
`Write`. -/
def interiorLoop {σ : Type} (w : Writer σ) :
    Nat → encoder σ → List Nat → Nat → Except Fault (encoder σ × Nat × List Nat × Option Error)
  | 0, e, p, n => if 5 ≤ p.length then .error .outOfFuel else .ok (e, n, p, none)
  | fuel + 1, e, p, n =>
    if 5 ≤ p.length then
      let nn0 := e.output.length / 8 * 5
      let nn := if nn0 > p.length then p.length - p.length % 5 else nn0
      match slice p 0 nn with
      | .error f => .error f
      | .ok chunk =>
        match flush w e chunk with
        | .error f => .error f
        | .ok e1 =>
          match e1.err with
          | some err => .ok (e1, n, p, some err)
          | none =>
            match slice p nn p.length with
            | .error f => .error f
            | .ok rest => interiorLoop w fuel e1 rest (n + nn)
    else .ok (e, n, p, none)

/-- The trailing-fringe loop of `Write` (`for i := 0; i < len(p); i++`). -/
def trailLoop : List Nat → List Nat → Nat → Except Fault (List Nat)
  | buffer, [], _ => .ok buffer
  | buffer, b :: p, i =>
    match store buffer i b with
    | .error f => .error f
    | .ok buffer1 => trailLoop buffer1 p (i + 1)

/-- The part of `Write` after the leading fringe, entered with count `n`. -/
def writeTail {σ : Type} (w : Writer σ) (e : encoder σ) (p : List Nat) (n : Nat) :
    Except Fault (encoder σ × Nat × Option Error) :=
  match interiorLoop w p.length e p n with
  | .error f => .error f
  | .ok (e1, n1, _, some err) => .ok (e1, n1, some err)
  | .ok (e1, n1, p1, none) =>
    match trailLoop e1.buffer p1 0 with
    | .error f => .error f
    | .ok buffer => .ok ({ e1 with buffer := buffer, nbuffer := p1.length }, n1 + p1.length, none)

/-- `encoder.Write`.  Returns the encoder and the results `(n, err)`. -/
def encoder.Write {σ : Type} (w : Writer σ) (e : encoder σ) (p : List Nat) :
    Except Fault (encoder σ × Nat × Option Error) :=
  match e.err with
  | some err => .ok (e, 0, some err)
  | none =>
    if 0 < e.nbuffer then
      match fringeLoop e.buffer e.nbuffer p 0 with
      | .error f => .error f
      | .ok (buffer, nbuffer, p1, i) =>
        let e1 := { e with buffer := buffer, nbuffer := nbuffer }
        if nbuffer < 5 then .ok (e1, i, none)
        else
          match flush w e1 e1.buffer with
          | .error f => .error f
          | .ok e2 =>
            match e2.err with
            | some err => .ok (e2, i, some err)
            | none => writeTail w { e2 with nbuffer := 0 } p1 i
    else writeTail w e p 0

/-- `encoder.Close`.  Returns the encoder and the error. -/
def encoder.Close {σ : Type} (w : Writer σ) (e : encoder σ) : Except Fault (encoder σ × Option Error) :=
  if e.err = none ∧ 0 < e.nbuffer then
    match slice e.buffer 0 e.nbuffer with
    | .error f => .error f
    | .ok fringe =>
      match flush w e fringe with
      | .error f => .error f
      | .ok e1 => .ok ({ e1 with nbuffer := 0 }, e1.err)
  else .ok (e, e.err)

/-- A caller that writes the chunks in order; it gives the encoder after
the last `Write` and the results of all the calls. -/
def writeChunks {σ : Type} (w : Writer σ) :
    encoder σ → List (List Nat) → Except Fault (encoder σ × List (Nat × Option Error))
  | e, [] => .ok (e, [])
  | e, p :: ps =>
    match encoder.Write w e p with
    | .error f => .error f
    | .ok (e1, n, err) =>
      match writeChunks w e1 ps with
      | .error f => .error f
      | .ok (e2, results) => .ok (e2, (n, err) :: results)

/-- A sink that never fails: its state is everything written so far. -/
def bufferSink : Writer (List Nat) := { write := fun s p => (s ++ p, none) }

/-- The text that byte-aligned `encode` writes for `x`. -/
def encoded (e : Encoding) (x : List Nat) : List Nat :=
  symbols e x (-1) ((8 * x.length + 4) / 5)

/-- The state of a streaming encoder over the sink that never fails, after
the bytes `d ++ f` were written to it: no error is stored, the fringe `f` of
fewer than five bytes is held in the buffer, `d` is whole groups, and the
sink holds the text of `d`. -/
def EncInv (enc : Encoding) (e : encoder (List Nat)) (d f : List Nat) : Prop :=
  e.encoding = enc ∧ e.err = none ∧ e.buffer.length = 5 ∧ e.output.length = 1024 ∧
    e.nbuffer = f.length ∧ f.length < 5 ∧ e.buffer.take f.length = f ∧ d.length % 5 = 0 ∧
    e.writer = encoded enc d

/-! ## The streaming decoder -/

/-- An `io.Reader` with states of type `σ`: `Read(buffer)` with
`len(buffer) = k` gives the next state, the bytes it placed at the front of
`buffer` (their number is the count `l`) and the error. -/
structure Reader (σ : Type) where
  read : σ → Nat → σ × List Nat × Option Error

/-- The `decoder` struct; `reader` holds the state of the source. -/
structure decoder (σ : Type) where
  encoding : Encoding
  reader : σ
  buffer : List Nat
  nbuffer : Nat
  eof : Bool
  err : Option Error

/-- `NewDecoder`: the array starts zeroed. -/
def NewDecoder {σ : Type} (encoding : Encoding) (reader : σ) : decoder σ :=
  { encoding := encoding, reader := reader, buffer := List.replicate 1024 0, nbuffer := 0,
    eof := false, err := none }

/-- The Go function `min` of the package. -/
def goMin (a b : Nat) : Nat := if a ≤ b then a else b

/-- The block of `Read` that pulls one chunk from the source and decodes it
(the body of `if d.nbuffer < 1 && !d.eof`).  Returns the decoder and the
error with which `Read` returns from inside the block, if it does. -/
def decoder.fill {σ : Type} (r : Reader σ) (d : decoder σ) : Except Fault (decoder σ × Option Error) :=
  let res := r.read d.reader 640
  let d1 := { d with reader := res.1 }
  let data := res.2.1
  let decodeInto := fun (d2 : decoder σ) =>
    if data.length ≤ 640 then
      match Decode d2.encoding d2.buffer data with
      | .error f => .error f
      | .ok (buffer, count, err) => .ok ({ d2 with buffer := buffer, nbuffer := count }, err)
    else .error .indexOutOfRange
  match res.2.2 with
  | some .eof => decodeInto { d1 with eof := true }
  | some err => .ok (d1, some err)
  | none => decodeInto d1

/-- The loop `for i := 0; i < d.nbuffer; i++ { d.buffer[i] = d.buffer[m+i] }`
with `k` passes left, from counter `i`. -/
def compactLoop (m : Nat) : Nat → Nat → List Nat → Except Fault (List Nat)
  | 0, _, buffer => .ok buffer
  | k + 1, i, buffer =>
    match load buffer (m + i) with
    | .error f => .error f
    | .ok v =>
      match store buffer i v with
      | .error f => .error f
      | .ok buffer1 => compactLoop m k (i + 1) buffer1

/-- The loop `for n < len(p) && d.nbuffer > 0` of `Read`.  Returns the
decoder, the caller's slice `p` and the count `n`. -/
def drainLoop {σ : Type} :
    Nat → decoder σ → List Nat → Nat → Except Fault (decoder σ × List Nat × Nat)
  | 0, d, p, n =>
    if n < p.length ∧ 0 < d.nbuffer then .error .outOfFuel else .ok (d, p, n)
  | fuel + 1, d, p, n =>
    if n < p.length ∧ 0 < d.nbuffer then
      match slice d.buffer 0 (goMin d.nbuffer p.length) with
      | .error f => .error f
      | .ok src =>
        let m := min (p.length - n) src.length
        let p1 := splice p n (src.take m)
        let nbuffer := d.nbuffer - m
        match compactLoop m nbuffer 0 d.buffer with
        | .error f => .error f
        | .ok buffer => drainLoop fuel { d with buffer := buffer, nbuffer := nbuffer } p1 (n + m)
    else .ok (d, p, n)

/-- `decoder.Read`.  Returns the decoder, the caller's slice `p` after the
call and the results `(n, err)`.  Every pass of the copy loop lowers
`d.nbuffer`, so `d.nbuffer` passes are enough. -/
def decoder.Read {σ : Type} (r : Reader σ) (d : decoder σ) (p : List Nat) :
    Except Fault (decoder σ × List Nat × Nat × Option Error) :=
  match (if d.nbuffer < 1 ∧ d.eof = false then decoder.fill r d else .ok (d, none)) with
  | .error f => .error f
  | .ok (d1, some err) => .ok (d1, p, 0, some err)
  | .ok (d1, none) =>
    match drainLoop d1.nbuffer d1 p 0 with
    | .error f => .error f
    | .ok (d2, p1, n) =>
      if d2.eof = true ∧ d2.nbuffer = 0 then .ok (d2, p1, n, some .eof)
      else .ok (d2, p1, n, none)

/-- A caller that reads with requests of `size` bytes until `Read` returns
an error (end-of-stream included), making at most the given number of calls;
it gives the bytes delivered, in order, and that last error. -/
def readAll {σ : Type} (r : Reader σ) (size : Nat) :
    Nat → decoder σ → Except Fault (List Nat × Option Error)
  | 0, _ => .error .outOfFuel
  | calls + 1, d =>
    match decoder.Read r d (List.replicate size 0) with
    | .error f => .error f
    | .ok (_, p, n, some err) => .ok (p.take n, some err)
    | .ok (d1, p, n, none) =>
      match readAll r size calls d1 with
      | .error f => .error f
      | .ok (rest, err) => .ok (p.take n ++ rest, err)

/-- A source that holds a text: while text is left, a read hands over as
many bytes as asked for (or all that is left) and no error; once the text is
exhausted a read hands over nothing and `io.EOF`. -/
def textSource : Reader (List Nat) :=
  { read := fun s k => if s = [] then (s, [], some .eof) else (s.drop k, s.take k, none) }

/-- The state of a streaming decoder over `textSource`: the end of the
source has not been seen, the decoded bytes `P` are pending at the front of
the buffer, and the source still holds the text of the bytes `R`. -/
def DecInv (a : List Nat) (d : decoder (List Nat)) (R P : List Nat) : Prop :=
  d.encoding = NewEncoding a ∧ d.eof = false ∧ d.buffer.length = 1024 ∧
    d.nbuffer = P.length ∧ P.length ≤ 1024 ∧ d.buffer.take P.length = P ∧
    d.reader = encoded (NewEncoding a) R ∧ ∀ b ∈ R, b < 256

/-- ASCII lower-casing of a byte. -/
def asciiLower (c : Nat) : Nat := if 65 ≤ c ∧ c ≤ 90 then c + 32 else c

/-- Swap of the case of an ASCII letter; other bytes are kept. -/
def asciiSwapCase (c : Nat) : Nat :=
  if 65 ≤ c ∧ c ≤ 90 then c + 32 else if 97 ≤ c ∧ c ≤ 122 then c - 32 else c

/-- The end of the inner loop of `decode` over an input whose bytes were
mapped by `f`. -/
def scanMap (f : Nat → Nat) : Scan → Scan
  | .corrupt k => .corrupt k
  | .group j rest dbuffer => .group j (rest.map f) dbuffer

/-- A sink that fails every write with the same error; its state counts the
writes made to it. -/
def failingSink : Writer Nat := { write := fun s _ => (s + 1, some (.other 1)) }

/-- A source that holds a text and hands over at most `c` bytes per read:
while text is left, a read gives the next `min(c, k)` bytes and no error;
once the text is exhausted it gives nothing and `io.EOF`. -/
def chunkedSource (c : Nat) : Reader (List Nat) :=
  { read := fun s k =>
      if s = [] then (s, [], some .eof) else (s.drop (min c k), s.take (min c k), none) }

/-- An encoder that holds the fringe `01 02 03` over the failing sink. -/
def fringeEncoder : encoder Nat :=
  { encoding := StdEncoding, writer := 0, buffer := [1, 2, 3, 0, 0], nbuffer := 3,
    output := List.replicate 1024 0, err := none }

/-- A source that answers every read with zero bytes and no error. -/
def idleSource : Reader Nat := { read := fun s _ => (s + 1, [], none) }

/-- Finalizing in the words of the specification: if a fringe remains and no
prior error occurred, encode it in bit-count mode with bit count
fringe-length × 8 and flush.  To be compared with `encoder.Close`. -/
def closeBitCount {σ : Type} (w : Writer σ) (e : encoder σ) :
    Except Fault (encoder σ × Option Error) :=
  if e.err = none ∧ 0 < e.nbuffer then
    match slice e.buffer 0 e.nbuffer with
    | .error f => .error f
    | .ok fringe =>
      match EncodeBits e.encoding e.output fringe ((8 * fringe.length : Nat) : Int) with
      | .error f => .error f
      | .ok (output, m) =>
        match slice output 0 m with
        | .error f => .error f
        | .ok syms =>
          .ok ({ e with output := output, writer := (w.write e.writer syms).1,
                        err := (w.write e.writer syms).2, nbuffer := 0 },
            (w.write e.writer syms).2)
  else .ok (e, e.err)

/-- The states of a streaming encoder that its caller can reach: the encoder
that `NewEncoder` returns, and the state that a returning `Write` or `Close`
leaves. -/
inductive Reachable {σ : Type} (w : Writer σ) (enc : Encoding) (s0 : σ) : encoder σ → Prop where
  | fresh : Reachable w enc s0 (NewEncoder enc s0)
  | write (e e1 : encoder σ) (p : List Nat) (n : Nat) (err : Option Error) :
      Reachable w enc s0 e → encoder.Write w e p = .ok (e1, n, err) → Reachable w enc s0 e1
  | close (e e1 : encoder σ) (err : Option Error) :
      Reachable w enc s0 e → encoder.Close w e = .ok (e1, err) → Reachable w enc s0 e1

/-- The fringe invariant of the streaming encoder: the arrays keep their
sizes, at most five bytes are held, at most four while no error is stored,
and a stored error is one the sink returned. -/
def FringeInv {σ : Type} (w : Writer σ) (enc : Encoding) (e : encoder σ) : Prop :=
  e.encoding = enc ∧ e.buffer.length = 5 ∧ e.output.length = 1024 ∧ e.nbuffer ≤ 5 ∧
    (e.err = none → e.nbuffer ≤ 4) ∧ (e.err = none ∨ ∃ s syms, e.err = (w.write s syms).2)

/-- An encoder that holds the fringe `01 02 03` over the sink that never fails. -/
def heldEncoder : encoder (List Nat) :=
  { encoding := StdEncoding, writer := [], buffer := [1, 2, 3, 0, 0], nbuffer := 3,
    output := List.replicate 1024 0, err := none }

/-- The sink `w` made to keep, next to its own state, the answers it has
given to the writes made to it, in order. -/
def recordingSink {σ : Type} (w : Writer σ) : Writer (σ × List (Option Error)) :=
  { write := fun s syms =>
      (((w.write s.1 syms).1, s.2 ++ [(w.write s.1 syms).2]), (w.write s.1 syms).2) }

/-- A fresh encoder after `01 02 03 04 05` was written to it over the
recording sink that fails every write. -/
def failedRecorder : encoder (Nat × List (Option Error)) :=
  { encoding := StdEncoding, writer := (1, [some (.other 1)]), buffer := List.replicate 5 0,
    nbuffer := 0, output := encoded StdEncoding [1, 2, 3, 4, 5] ++ List.replicate 1016 0,
    err := some (.other 1) }

/-! # Theorems -/

/-! ## Byte arithmetic -/

set_option maxRecDepth 1000000 in
theorem and_mask_lo : ∀ o < 4, ∀ b < 256,
    (b &&& shl8 31 (3 - o)) >>> (3 - o) = b / 2 ^ (3 - o) % 32 := by decide

set_option maxRecDepth 1000000 in
theorem and_mask_hi0 : ∀ o < 8, 4 ≤ o → ∀ b < 256,
    shl8 (b &&& (31 >>> (o - 3))) (o - 3) = 2 ^ (o - 3) * (b % 2 ^ (8 - o)) := by decide

set_option maxRecDepth 1000000 in
theorem and_mask_hi1 : ∀ o < 8, 4 ≤ o → ∀ b < 256,
    (b &&& shl8 255 (11 - o)) >>> (11 - o) = b / 2 ^ (11 - o) := by decide

set_option maxRecDepth 1000000 in
theorem and_mask_tail : ∀ t < 5, ∀ c < 32,
    c &&& shl8 255 t = c / 2 ^ t * 2 ^ t := by decide

theorem encodeChar_eq (b0 b1 i : Nat) (bits : Int) :
    encodeChar b0 b1 i bits =
      if 0 ≤ bits ∧ bits < (i : Int) + 5 then
        rawChar b0 b1 (i % 8) &&& shl8 255 ((i : Int) + 5 - bits).toNat
      else rawChar b0 b1 (i % 8) := rfl

theorem rawChar_lt (b0 b1 o : Nat) (ho : o < 8) : rawChar b0 b1 o < 32 := by
  unfold rawChar
  split
  · have h1 : (b0 &&& shl8 31 (3 - o)) ≤ shl8 31 (3 - o) := Nat.and_le_right
    have h2 : shl8 31 (3 - o) = 31 * 2 ^ (3 - o) := by
      have : o = 0 ∨ o = 1 ∨ o = 2 ∨ o = 3 := by omega
      rcases this with h | h | h | h <;> subst h <;> rfl
    rw [Nat.shiftRight_eq_div_pow]
    have hp : 0 < 2 ^ (3 - o) := Nat.pow_pos (by decide)
    have : (b0 &&& shl8 31 (3 - o)) / 2 ^ (3 - o) ≤ 31 := by
      rw [Nat.div_le_iff_le_mul_add_pred hp]
      omega
    omega
  · have ho4 : o = 4 ∨ o = 5 ∨ o = 6 ∨ o = 7 := by omega
    have hA : b0 &&& (31 >>> (o - 3)) ≤ 31 >>> (o - 3) := Nat.and_le_right
    have hB : b1 &&& shl8 255 (11 - o) ≤ shl8 255 (11 - o) := Nat.and_le_right
    have hlt : ∀ x y : Nat, x < 2 ^ 5 → y < 2 ^ 5 → x ||| y < 2 ^ 5 :=
      fun x y hx hy => Nat.or_lt_two_pow hx hy
    apply hlt
    · rcases ho4 with h | h | h | h <;> subst h <;>
        simp only [shl8, Nat.shiftLeft_eq, Nat.shiftRight_eq_div_pow] at hA ⊢ <;> omega
    · rcases ho4 with h | h | h | h <;> subst h <;>
        simp only [shl8, Nat.shiftLeft_eq, Nat.shiftRight_eq_div_pow] at hB ⊢ <;> omega

theorem encodeChar_lt (b0 b1 i : Nat) (bits : Int) : encodeChar b0 b1 i bits < 32 := by
  rw [encodeChar_eq]
  have h := rawChar_lt b0 b1 (i % 8) (Nat.mod_lt _ (by decide))
  split
  · exact Nat.lt_of_le_of_lt Nat.and_le_left h
  · exact h

theorem rawChar_window (b0 b1 o : Nat) (ho : o < 8) (h0 : b0 < 256) (h1 : b1 < 256) :
    rawChar b0 b1 o = window b0 b1 o := by
  unfold rawChar window
  split
  · rename_i h
    rw [and_mask_lo o h b0 h0]
    have : o = 0 ∨ o = 1 ∨ o = 2 ∨ o = 3 := by omega
    rcases this with h | h | h | h <;> subst h <;> norm_num <;> omega
  · rename_i h
    have h4 : 4 ≤ o := by omega
    rw [and_mask_hi0 o ho h4 b0 h0, and_mask_hi1 o ho h4 b1 h1]
    have hlt : b1 / 2 ^ (11 - o) < 2 ^ (o - 3) := by
      have : o = 4 ∨ o = 5 ∨ o = 6 ∨ o = 7 := by omega
      rcases this with h | h | h | h <;> subst h <;> norm_num <;> omega
    rw [← Nat.mul_add_lt_is_or hlt]
    have : o = 4 ∨ o = 5 ∨ o = 6 ∨ o = 7 := by omega
    rcases this with h | h | h | h <;> subst h <;> norm_num <;> omega

/-! ## The loop of `encode` in closed form -/

theorem splice_nil (dst : List Nat) (off : Nat) : splice dst off [] = dst := by
  simp [splice]

theorem splice_set (dst : List Nat) (off c : Nat) (syms : List Nat) (h : off < dst.length) :
    splice (dst.set off c) (off + 1) syms = splice dst off (c :: syms) := by
  unfold splice
  have h1 : (dst.set off c).take (off + 1) = dst.take off ++ [c] := by
    rw [List.set_eq_take_append_cons_drop, if_pos h, List.take_append_eq_append_take]
    simp [List.take_take, Nat.min_eq_left (Nat.le_of_lt h)]
  have h2 : (dst.set off c).drop (off + 1 + syms.length) = dst.drop (off + (c :: syms).length) := by
    rw [List.drop_set_of_lt _ _ (by omega)]
    congr 1
    simp only [List.length_cons]
    omega
  rw [h1, h2]
  simp

theorem load_of_lt (a : List Nat) (i : Nat) (h : i < a.length) : load a i = .ok (a.getD i 0) := by
  unfold load
  rw [List.getElem?_eq_getElem h]
  simp [List.getD, List.getElem?_eq_getElem h]

theorem store_of_lt (a : List Nat) (i v : Nat) (h : i < a.length) :
    store a i v = .ok (a.set i v) := by
  simp [store, h]

theorem drop_eq_getD_cons (l : List Nat) (n : Nat) (h : n < l.length) :
    l.drop n = l.getD n 0 :: l.drop (n + 1) := by
  rw [List.drop_eq_getElem_cons h]
  simp [List.getD, List.getElem?_eq_getElem h]

theorem head_drop_getD (l : List Nat) (n : Nat) :
    (match l.drop n with
      | [] => 0
      | b :: _ => b) = l.getD n 0 := by
  by_cases h : n < l.length
  · rw [drop_eq_getD_cons l n h]
  · have h1 : l.drop n = [] := List.drop_eq_nil_of_le (by omega)
    rw [h1]
    simp [List.getD, List.getElem?_eq_none (Nat.le_of_not_lt h)]

/-- The passes `k .. k+m-1` of the loop of `encode`: when the loop condition
holds exactly for the passes below `total`, every pass finds its first byte
and the destination has room, the loop returns after writing the symbols of
these passes. -/
theorem encodeLoop_run (e : Encoding) (bits : Int) (full : List Nat) (total : Nat)
    (henc : 32 ≤ e.encoder.length)
    (hcond : ∀ k, (((5 * k : Nat) : Int) < bits ∨ (bits < 0 ∧ 0 < (full.drop (5 * k / 8)).length))
      ↔ k < total)
    (hin : ∀ k, k < total → 5 * k / 8 < full.length) :
    ∀ (m fuel k : Nat) (dst : List Nat) (off : Nat), k + m = total → m ≤ fuel →
      off + m ≤ dst.length →
      encodeLoop e bits fuel dst (full.drop (5 * k / 8)) (5 * k) off =
        .ok (splice dst off ((List.range' k m).map (fun j => e.encoder.getD (charAt full bits j) 0)),
          off + m) := by
  intro m
  induction m with
  | zero =>
    intro fuel k dst off hk _ _
    have hc : ¬ (((5 * k : Nat) : Int) < bits ∨ (bits < 0 ∧ 0 < (full.drop (5 * k / 8)).length)) := by
      rw [hcond k]; omega
    cases fuel <;> simp only [encodeLoop, if_neg hc] <;> simp [splice_nil]
  | succ m ih =>
    intro fuel k dst off hk hfuel hroom
    obtain ⟨fuel, rfl⟩ : ∃ f, fuel = f + 1 := ⟨fuel - 1, by omega⟩
    have hklt : k < total := by omega
    have hc : (((5 * k : Nat) : Int) < bits ∨ (bits < 0 ∧ 0 < (full.drop (5 * k / 8)).length)) :=
      (hcond k).2 hklt
    have hlen := hin k hklt
    have hnext : (if 2 < 5 * k % 8 then full.drop (5 * k / 8 + 1)
        else full.getD (5 * k / 8) 0 :: full.drop (5 * k / 8 + 1)) = full.drop (5 * (k + 1) / 8) := by
      split
      · congr 1; omega
      · rw [← drop_eq_getD_cons full _ hlen]; congr 1; omega
    rw [drop_eq_getD_cons full _ hlen]
    simp only [encodeLoop]
    rw [← drop_eq_getD_cons full _ hlen, if_pos hc, drop_eq_getD_cons full _ hlen]
    simp only [head_drop_getD]
    have hchar : encodeChar (full.getD (5 * k / 8) 0) (full.getD (5 * k / 8 + 1) 0) (5 * k) bits
        < e.encoder.length :=
      Nat.lt_of_lt_of_le (encodeChar_lt _ _ _ _) henc
    rw [load_of_lt _ _ hchar]
    simp only []
    rw [store_of_lt _ _ _ (show off < dst.length by omega)]
    simp only []
    rw [hnext, show 5 * k + 5 = 5 * (k + 1) by ring,
      ih fuel (k + 1) _ (off + 1) (by omega) (by omega) (by simp; omega)]
    rw [splice_set _ _ _ _ (by omega)]
    simp [List.range', charAt]
    omega

theorem symbols_length (e : Encoding) (src : List Nat) (bits : Int) (m : Nat) :
    (symbols e src bits m).length = m := by
  simp [symbols]

theorem take_splice_zero (dst syms : List Nat) : (splice dst 0 syms).take syms.length = syms := by
  simp [splice]

/-- Byte-aligned `encode` in closed form. -/
theorem encode_bytes (e : Encoding) (dst src : List Nat) (henc : 32 ≤ e.encoder.length)
    (hroom : (8 * src.length + 4) / 5 ≤ dst.length) :
    encode e dst src (-1) =
      .ok (splice dst 0 (symbols e src (-1) ((8 * src.length + 4) / 5)),
        (8 * src.length + 4) / 5) := by
  have h := encodeLoop_run e (-1) src ((8 * src.length + 4) / 5) henc
    (by intro k; simp only [List.length_drop]; omega) (by intro k hk; omega)
    ((8 * src.length + 4) / 5) (8 * src.length) 0 dst 0 (by omega) (by omega) (by omega)
  simp only [Nat.mul_zero, Nat.zero_div, List.drop_zero, Nat.zero_add] at h
  unfold encode symbols
  rw [List.range_eq_range']
  simpa using h

/-- Bit-count `encode` in closed form, for a source that holds all `bits` bits. -/
theorem encode_bits (e : Encoding) (dst src : List Nat) (bits : Nat) (henc : 32 ≤ e.encoder.length)
    (hsrc : (bits + 7) / 8 ≤ src.length) (hroom : (bits + 4) / 5 ≤ dst.length) :
    encode e dst src (bits : Int) =
      .ok (splice dst 0 (symbols e src (bits : Int) ((bits + 4) / 5)), (bits + 4) / 5) := by
  have h := encodeLoop_run e (bits : Int) src ((bits + 4) / 5) henc
    (by intro k; simp only [List.length_drop]; omega) (by intro k hk; omega)
    ((bits + 4) / 5) (bits + 8 * src.length) 0 dst 0 (by omega) (by omega) (by omega)
  simp only [Nat.mul_zero, Nat.zero_div, List.drop_zero, Nat.zero_add] at h
  unfold encode symbols
  rw [List.range_eq_range']
  simpa using h

theorem EncodeToString_eq (e : Encoding) (src : List Nat) (henc : 32 ≤ e.encoder.length) :
    EncodeToString e src = .ok (symbols e src (-1) ((8 * src.length + 4) / 5)) := by
  unfold EncodeToString Encode
  rw [encode_bytes e _ src henc (by simp [EncodedLen]; omega)]
  simp only []
  have h := take_splice_zero (List.replicate (EncodedLen src.length) 0)
    (symbols e src (-1) ((8 * src.length + 4) / 5))
  rw [symbols_length] at h
  rw [h]

theorem EncodeBitsToString_eq (e : Encoding) (src : List Nat) (bits : Nat)
    (henc : 32 ≤ e.encoder.length) (hsrc : (bits + 7) / 8 ≤ src.length) :
    EncodeBitsToString e src (bits : Int) = .ok (symbols e src (bits : Int) ((bits + 4) / 5)) := by
  unfold EncodeBitsToString EncodeBits
  rw [if_neg (by omega), encode_bits e _ src bits henc hsrc (by simp [EncodedLen]; omega)]
  simp only []
  have h := take_splice_zero (List.replicate (EncodedLen src.length) 0)
    (symbols e src (bits : Int) ((bits + 4) / 5))
  rw [symbols_length] at h
  rw [h]

/-! ## `char` as five bits of the stream -/

theorem getD_lt (src : List Nat) (hb : ∀ b ∈ src, b < 256) (i : Nat) : src.getD i 0 < 256 := by
  by_cases h : i < src.length
  · have : src.getD i 0 = src[i] := by simp [List.getD, List.getElem?_eq_getElem h]
    rw [this]
    exact hb _ (List.getElem_mem h)
  · simp [List.getD, List.getElem?_eq_none (Nat.le_of_not_lt h)]

theorem word_bit_hi (b0 b1 o j : Nat) (h1 : b1 < 256) (ho : o < 8) (hj : j < 5)
    (hc : o + j < 8) :
    b0 / 2 ^ (7 - (o + j)) % 2 = (b0 * 256 + b1) / 2 ^ (15 - (o + j)) % 2 := by
  interval_cases o <;> interval_cases j <;> simp at hc ⊢ <;> omega

theorem word_bit_lo (b0 b1 o j : Nat) (ho : o < 8) (hj : j < 5)
    (hc : ¬ o + j < 8) :
    b1 / 2 ^ (7 - (o + j - 8)) % 2 = (b0 * 256 + b1) / 2 ^ (15 - (o + j)) % 2 := by
  interval_cases o <;> interval_cases j <;> simp at hc ⊢ <;> omega

/-- A bit of the stream inside the two bytes that pass `k` reads. -/
theorem bitAt_word (src : List Nat) (hb : ∀ b ∈ src, b < 256) (k j : Nat) (hj : j < 5) :
    bitAt src (5 * k + j) =
      (src.getD (5 * k / 8) 0 * 256 + src.getD (5 * k / 8 + 1) 0) /
        2 ^ (15 - (5 * k % 8 + j)) % 2 := by
  have h1 := getD_lt src hb (5 * k / 8 + 1)
  have ho : 5 * k % 8 < 8 := Nat.mod_lt _ (by decide)
  unfold bitAt
  by_cases hc : 5 * k % 8 + j < 8
  · have e1 : (5 * k + j) / 8 = 5 * k / 8 := by omega
    have e2 : (5 * k + j) % 8 = 5 * k % 8 + j := by omega
    rw [e1, e2]
    exact word_bit_hi _ _ _ _ h1 ho hj hc
  · have e1 : (5 * k + j) / 8 = 5 * k / 8 + 1 := by omega
    have e2 : (5 * k + j) % 8 = 5 * k % 8 + j - 8 := by omega
    rw [e1, e2]
    exact word_bit_lo _ _ _ _ ho hj hc

theorem window_bits0 (w o : Nat) (ho : o < 8) :
    w / 2 ^ (11 - o) % 32 =
      16 * (w / 2 ^ (15 - (o + 0)) % 2) + 8 * (w / 2 ^ (15 - (o + 1)) % 2) +
      4 * (w / 2 ^ (15 - (o + 2)) % 2) + 2 * (w / 2 ^ (15 - (o + 3)) % 2) +
      w / 2 ^ (15 - (o + 4)) % 2 := by
  interval_cases o <;> simp <;> omega

/-- The window of pass `k`, with its lowest `t` bits cleared, as a sum of bits. -/
theorem window_bits (w o t : Nat) (ho : o < 8) (ht : t < 5) :
    w / 2 ^ (11 - o) % 32 / 2 ^ t * 2 ^ t =
      16 * (if 0 < 5 - t then w / 2 ^ (15 - (o + 0)) % 2 else 0) +
      8 * (if 1 < 5 - t then w / 2 ^ (15 - (o + 1)) % 2 else 0) +
      4 * (if 2 < 5 - t then w / 2 ^ (15 - (o + 2)) % 2 else 0) +
      2 * (if 3 < 5 - t then w / 2 ^ (15 - (o + 3)) % 2 else 0) +
      (if 4 < 5 - t then w / 2 ^ (15 - (o + 4)) % 2 else 0) := by
  rw [window_bits0 w o ho]
  have h0 : w / 2 ^ (15 - (o + 0)) % 2 < 2 := Nat.mod_lt _ (by decide)
  have h1 : w / 2 ^ (15 - (o + 1)) % 2 < 2 := Nat.mod_lt _ (by decide)
  have h2 : w / 2 ^ (15 - (o + 2)) % 2 < 2 := Nat.mod_lt _ (by decide)
  have h3 : w / 2 ^ (15 - (o + 3)) % 2 < 2 := Nat.mod_lt _ (by decide)
  have h4 : w / 2 ^ (15 - (o + 4)) % 2 < 2 := Nat.mod_lt _ (by decide)
  generalize w / 2 ^ (15 - (o + 0)) % 2 = c0 at *
  generalize w / 2 ^ (15 - (o + 1)) % 2 = c1 at *
  generalize w / 2 ^ (15 - (o + 2)) % 2 = c2 at *
  generalize w / 2 ^ (15 - (o + 3)) % 2 = c3 at *
  generalize w / 2 ^ (15 - (o + 4)) % 2 = c4 at *
  interval_cases t <;> simp <;> omega

/-- Byte-aligned mode: the value of pass `k` is the 5-bit number at bits
`5k .. 5k+4` of the stream. -/
theorem charAt_refSymbol (src : List Nat) (hb : ∀ b ∈ src, b < 256) (k : Nat) :
    charAt src (-1) k = refSymbol src k := by
  have h0 := getD_lt src hb (5 * k / 8)
  have h1 := getD_lt src hb (5 * k / 8 + 1)
  have ho : 5 * k % 8 < 8 := Nat.mod_lt _ (by decide)
  unfold charAt
  rw [encodeChar_eq, if_neg (by omega), rawChar_window _ _ _ ho h0 h1]
  unfold window refSymbol
  have e0 := bitAt_word src hb k 0 (by decide)
  rw [Nat.add_zero] at e0
  rw [e0, bitAt_word src hb k 1 (by decide), bitAt_word src hb k 2 (by decide),
    bitAt_word src hb k 3 (by decide), bitAt_word src hb k 4 (by decide)]
  exact window_bits0 _ _ ho

/-- Bit-count mode: the value of a pass `k` that the loop makes is the 5-bit
number at bits `5k .. 5k+4` of the stream cut off after `bits` bits. -/
theorem charAt_refSymbolBits (src : List Nat) (hb : ∀ b ∈ src, b < 256) (bits k : Nat)
    (hk : 5 * k < bits) : charAt src (bits : Int) k = refSymbolBits src bits k := by
  have h0 := getD_lt src hb (5 * k / 8)
  have h1 := getD_lt src hb (5 * k / 8 + 1)
  have ho : 5 * k % 8 < 8 := Nat.mod_lt _ (by decide)
  have hval : charAt src (bits : Int) k =
      window (src.getD (5 * k / 8) 0) (src.getD (5 * k / 8 + 1) 0) (5 * k % 8) /
        2 ^ (5 * k + 5 - bits) * 2 ^ (5 * k + 5 - bits) := by
    unfold charAt
    rw [encodeChar_eq, rawChar_window _ _ _ ho h0 h1]
    have hw : window (src.getD (5 * k / 8) 0) (src.getD (5 * k / 8 + 1) 0) (5 * k % 8) < 32 :=
      Nat.mod_lt _ (by decide)
    split
    · rename_i hc
      have ht : (((5 * k : Nat) : Int) + 5 - (bits : Int)).toNat = 5 * k + 5 - bits := by omega
      rw [ht]
      exact and_mask_tail _ (by omega) _ hw
    · rename_i hc
      have ht : 5 * k + 5 - bits = 0 := by omega
      rw [ht]
      simp
  rw [hval]
  unfold window refSymbolBits bitBelow
  have e0 := bitAt_word src hb k 0 (by decide)
  rw [Nat.add_zero] at e0
  rw [e0, bitAt_word src hb k 1 (by decide), bitAt_word src hb k 2 (by decide),
    bitAt_word src hb k 3 (by decide), bitAt_word src hb k 4 (by decide)]
  have hw := window_bits (src.getD (5 * k / 8) 0 * 256 + src.getD (5 * k / 8 + 1) 0) (5 * k % 8)
    (5 * k + 5 - bits) ho (by omega)
  rw [hw]
  have c0 : (0 < 5 - (5 * k + 5 - bits)) ↔ (5 * k < bits) := by omega
  have c1 : (1 < 5 - (5 * k + 5 - bits)) ↔ (5 * k + 1 < bits) := by omega
  have c2 : (2 < 5 - (5 * k + 5 - bits)) ↔ (5 * k + 2 < bits) := by omega
  have c3 : (3 < 5 - (5 * k + 5 - bits)) ↔ (5 * k + 3 < bits) := by omega
  have c4 : (4 < 5 - (5 * k + 5 - bits)) ↔ (5 * k + 4 < bits) := by omega
  simp only [c0, c1, c2, c3, c4]

theorem tableAfter_succ (a : List Nat) (n : Nat) (m0 : List Nat) :
    tableAfter a (n + 1) m0 = (tableAfter a n m0).set (a.getD n 0) (n % 256) := by
  simp [tableAfter, List.range_succ, List.foldl_append]

theorem tableAfter_length (a : List Nat) (n : Nat) (m0 : List Nat) :
    (tableAfter a n m0).length = m0.length := by
  induction n with
  | zero => simp [tableAfter]
  | succ n ih => rw [tableAfter_succ, List.length_set, ih]

theorem tableAfter_other (a : List Nat) (n : Nat) (m0 : List Nat) (c : Nat)
    (hc : ∀ i, i < n → a.getD i 0 ≠ c) : (tableAfter a n m0)[c]? = m0[c]? := by
  induction n with
  | zero => simp [tableAfter]
  | succ n ih =>
    rw [tableAfter_succ, List.getElem?_set_ne (hc n (by omega))]
    exact ih (fun i hi => hc i (by omega))

theorem tableAfter_sym (a : List Nat) (n : Nat) (m0 : List Nat) (i : Nat) (hi : i < n)
    (hlt : a.getD i 0 < m0.length)
    (hnd : ∀ j, j < n → j ≠ i → a.getD j 0 ≠ a.getD i 0) :
    (tableAfter a n m0)[a.getD i 0]? = some (i % 256) := by
  induction n with
  | zero => omega
  | succ n ih =>
    rw [tableAfter_succ]
    by_cases h : i = n
    · subst h
      rw [List.getElem?_set_self (by rw [tableAfter_length]; exact hlt)]
    · rw [List.getElem?_set_ne (hnd n (by omega) (fun h2 => h h2.symm))]
      exact ih (by omega) (fun j hj hji => hnd j (by omega) hji)

set_option maxRecDepth 1000000 in
theorem filled_eq :
    (List.range 256).foldl (fun m i => m.set i 0xFF) (List.replicate 256 0) =
      List.replicate 256 0xFF := by
  decide

theorem NewEncoding_decodeMap (a : List Nat) :
    (NewEncoding a).decodeMap = tableAfter a a.length (List.replicate 256 0xFF) := by
  simp only [NewEncoding, filled_eq, tableAfter]

theorem NewEncoding_length (a : List Nat) : (NewEncoding a).decodeMap.length = 256 := by
  rw [NewEncoding_decodeMap, tableAfter_length, List.length_replicate]

theorem getD_inj_of_nodup (a : List Nat) (hnd : a.Nodup) (i j : Nat) (hi : i < a.length)
    (hj : j < a.length) (h : a.getD j 0 = a.getD i 0) : j = i := by
  have e1 : a.getD i 0 = a[i] := by simp [List.getD, List.getElem?_eq_getElem hi]
  have e2 : a.getD j 0 = a[j] := by simp [List.getD, List.getElem?_eq_getElem hj]
  rw [e1, e2] at h
  exact (List.Nodup.getElem_inj_iff hnd).1 h

/-- The table maps the `i`-th alphabet byte to `i`. -/
theorem load_sym (a : List Nat) (ha : Alphabet a) (i : Nat) (hi : i < 32) :
    load (NewEncoding a).decodeMap (a.getD i 0) = .ok i := by
  obtain ⟨hlen, hnd, hby⟩ := ha
  have hmem : a.getD i 0 ∈ a := by
    have : a.getD i 0 = a[i] := by simp [List.getD, List.getElem?_eq_getElem (hlen ▸ hi)]
    rw [this]; exact List.getElem_mem _
  have h := tableAfter_sym a a.length (List.replicate 256 0xFF) i (by omega)
    (by rw [List.length_replicate]; exact hby _ hmem)
    (fun j hj hji hEq => hji (getD_inj_of_nodup a hnd i j (by omega) hj hEq))
  unfold load
  rw [NewEncoding_decodeMap, h]
  simp only []
  congr 1
  omega

/-- The table maps every byte outside the alphabet to 0xFF. -/
theorem load_other (a : List Nat) (c : Nat) (hc : c < 256) (hn : c ∉ a) :
    load (NewEncoding a).decodeMap c = .ok 0xFF := by
  have h := tableAfter_other a a.length (List.replicate 256 0xFF) c (by
    intro i hi hEq
    apply hn
    have : a.getD i 0 = a[i] := by simp [List.getD, List.getElem?_eq_getElem hi]
    rw [← hEq, this]; exact List.getElem_mem _)
  unfold load
  rw [NewEncoding_decodeMap, h, List.getElem?_replicate]
  simp [hc]

theorem splice_length (dst : List Nat) (off : Nat) (syms : List Nat)
    (h : off + syms.length ≤ dst.length) : (splice dst off syms).length = dst.length := by
  simp [splice]; omega

theorem splice_set_end (dst : List Nat) (off v : Nat) (syms : List Nat)
    (h : off + syms.length < dst.length) :
    (splice dst off syms).set (off + syms.length) v = splice dst off (syms ++ [v]) := by
  unfold splice
  have h1 : (dst.take off ++ syms).length = off + syms.length := by
    simp; omega
  rw [List.set_append_right _ _ (by rw [h1]), h1, Nat.sub_self]
  rw [List.drop_eq_getElem_cons h, List.set_cons_zero]
  simp [Nat.add_assoc]

theorem decodeStore_eq (dst : List Nat) (off : Nat) (d : List Nat) (h : off + 5 ≤ dst.length) :
    decodeStore dst off d = .ok (splice dst off (bytes5 d)) := by
  have s0 := splice_set_end dst off (shl8 (d.getD 0 0) 3 ||| (d.getD 1 0 >>> 2)) []
    (by simp; omega)
  rw [splice_nil] at s0
  have s1 := splice_set_end dst off
    (shl8 (d.getD 1 0) 6 ||| shl8 (d.getD 2 0) 1 ||| (d.getD 3 0 >>> 4)) _
    (by rw [List.length_append]; simp; omega : off + ([] ++ [shl8 (d.getD 0 0) 3 ||| (d.getD 1 0 >>> 2)]).length < dst.length)
  have s2 := splice_set_end dst off (shl8 (d.getD 3 0) 4 ||| (d.getD 4 0 >>> 1)) _
    (by simp; omega : off + (([] ++ [shl8 (d.getD 0 0) 3 ||| (d.getD 1 0 >>> 2)]) ++
      [shl8 (d.getD 1 0) 6 ||| shl8 (d.getD 2 0) 1 ||| (d.getD 3 0 >>> 4)]).length < dst.length)
  have s3 := splice_set_end dst off
    (shl8 (d.getD 4 0) 7 ||| shl8 (d.getD 5 0) 2 ||| (d.getD 6 0 >>> 3)) _
    (by simp; omega : off + ((([] ++ [shl8 (d.getD 0 0) 3 ||| (d.getD 1 0 >>> 2)]) ++
      [shl8 (d.getD 1 0) 6 ||| shl8 (d.getD 2 0) 1 ||| (d.getD 3 0 >>> 4)]) ++
      [shl8 (d.getD 3 0) 4 ||| (d.getD 4 0 >>> 1)]).length < dst.length)
  have s4 := splice_set_end dst off (shl8 (d.getD 6 0) 5 ||| d.getD 7 0) _
    (by simp; omega : off + (((([] ++ [shl8 (d.getD 0 0) 3 ||| (d.getD 1 0 >>> 2)]) ++
      [shl8 (d.getD 1 0) 6 ||| shl8 (d.getD 2 0) 1 ||| (d.getD 3 0 >>> 4)]) ++
      [shl8 (d.getD 3 0) 4 ||| (d.getD 4 0 >>> 1)]) ++
      [shl8 (d.getD 4 0) 7 ||| shl8 (d.getD 5 0) 2 ||| (d.getD 6 0 >>> 3)]).length < dst.length)
  simp only [List.nil_append, List.length_nil, List.length_cons, List.length_append,
    List.singleton_append, List.cons_append, Nat.add_zero, Nat.zero_add] at s0 s1 s2 s3 s4
  unfold decodeStore
  simp only [bind, Except.bind]
  rw [store_of_lt _ _ _ (by omega)]
  simp only [Nat.add_zero]
  rw [s0, store_of_lt _ _ _ (by rw [splice_length _ _ _ (by simp; omega)]; omega)]
  simp only []
  rw [s1, store_of_lt _ _ _ (by rw [splice_length _ _ _ (by simp; omega)]; omega)]
  simp only []
  rw [s2, store_of_lt _ _ _ (by rw [splice_length _ _ _ (by simp; omega)]; omega)]
  simp only []
  rw [s3, store_of_lt _ _ _ (by rw [splice_length _ _ _ (by simp; omega)]; omega)]
  rw [s4]
  rfl

theorem load_valid (e : Encoding) (c : Nat) (h : c < e.decodeMap.length) :
    load e.decodeMap c = .ok (dval e c) := load_of_lt _ _ h

/-- The inner loop over a run `g` of accepted bytes that ends the group. -/
theorem decodeScan_valid (e : Encoding) (offlen : Nat) :
    ∀ (g rest : List Nat) (j : Nat) (db : List Nat), (∀ c ∈ g, Valid e c) →
      (j + g.length = 8 ∨ (j + g.length < 8 ∧ rest = [])) →
      decodeScan e offlen (g ++ rest) j db =
        .ok (.group (j + g.length) rest (fill db j (g.map (dval e)))) := by
  intro g
  induction g with
  | nil =>
    intro rest j db _ h
    rcases h with h | ⟨_, h⟩
    · cases rest with
      | nil => simp [decodeScan, fill]
      | cons c cs =>
        simp only [List.length_nil, Nat.add_zero] at h
        simp [decodeScan, fill, h]
    · subst h; simp [decodeScan, fill]
  | cons c g ih =>
    intro rest j db hv h
    have hc := hv c (List.mem_cons_self _ _)
    have hj : j < 8 := by simp only [List.length_cons] at h; omega
    have h2 : j + 1 + g.length = 8 ∨ (j + 1 + g.length < 8 ∧ rest = []) := by
      simp only [List.length_cons] at h
      rcases h with h | ⟨h, hr⟩
      · left; omega
      · right; exact ⟨by omega, hr⟩
    simp only [List.cons_append, decodeScan, if_pos hj, load_valid e c hc.1, if_neg hc.2,
      List.append_eq]
    rw [ih rest (j + 1) _ (fun x hx => hv x (List.mem_cons_of_mem _ hx)) h2]
    simp [fill, Nat.add_assoc, Nat.add_comm 1]

/-- The inner loop over a run of accepted bytes followed by a rejected one. -/
theorem decodeScan_corrupt (e : Encoding) (offlen : Nat) :
    ∀ (good : List Nat) (bad : Nat) (rest : List Nat) (j : Nat) (db : List Nat),
      (∀ c ∈ good, Valid e c) → j + good.length < 8 → bad < e.decodeMap.length →
      dval e bad = 0xFF →
      decodeScan e offlen (good ++ bad :: rest) j db =
        .ok (.corrupt ((offlen : Int) - (rest.length : Int) - 1)) := by
  intro good
  induction good with
  | nil =>
    intro bad rest j db _ hj hb hbad
    simp only [List.length_nil, Nat.add_zero] at hj
    simp [decodeScan, hj, load_valid e bad hb, hbad]
  | cons c g ih =>
    intro bad rest j db hv hj hb hbad
    have hc := hv c (List.mem_cons_self _ _)
    simp only [List.length_cons] at hj
    have hj8 : j < 8 := by omega
    simp only [List.cons_append, decodeScan, if_pos hj8, load_valid e c hc.1, if_neg hc.2,
      List.append_eq]
    exact ih bad rest (j + 1) _ (fun x hx => hv x (List.mem_cons_of_mem _ hx)) (by omega) hb hbad

/-- A list of bytes is all accepted, or splits at its first rejected byte. -/
theorem split_first_invalid (e : Encoding) (l : List Nat) :
    (∀ c ∈ l, Valid e c) ∨
      ∃ good bad rest, l = good ++ bad :: rest ∧ (∀ c ∈ good, Valid e c) ∧ ¬ Valid e bad := by
  induction l with
  | nil => left; simp
  | cons c l ih =>
    by_cases hc : Valid e c
    · rcases ih with h | ⟨good, bad, rest, h1, h2, h3⟩
      · left
        intro x hx
        rcases List.mem_cons.1 hx with h' | h'
        · rw [h']; exact hc
        · exact h x h'
      · right
        refine ⟨c :: good, bad, rest, by simp [h1], ?_, h3⟩
        intro x hx
        rcases List.mem_cons.1 hx with h' | h'
        · rw [h']; exact hc
        · exact h2 x h'
    · right
      exact ⟨[], c, l, by simp, by simp, hc⟩

/-- The group buffer after a group of `vs` values: the values, then zeros. -/
theorem fill_replicate (vs : List Nat) (h : vs.length ≤ 8) :
    fill (List.replicate 8 0) 0 vs = vs ++ List.replicate (8 - vs.length) 0 := by
  match vs, h with
  | [], _ => rfl
  | [_], _ => rfl
  | [_, _], _ => rfl
  | [_, _, _], _ => rfl
  | [_, _, _, _], _ => rfl
  | [_, _, _, _, _], _ => rfl
  | [_, _, _, _, _, _], _ => rfl
  | [_, _, _, _, _, _, _], _ => rfl
  | [_, _, _, _, _, _, _, _], _ => rfl
  | _ :: _ :: _ :: _ :: _ :: _ :: _ :: _ :: _ :: _, h => simp at h

theorem groupCount_le (bits : Int) (j : Nat) (hj : j ≤ 8) : groupCount bits j ≤ 5 := by
  unfold groupCount
  split
  · have : j = 0 ∨ j = 1 ∨ j = 2 ∨ j = 3 ∨ j = 4 ∨ j = 5 ∨ j = 6 ∨ j = 7 ∨ j = 8 := by omega
    rcases this with h | h | h | h | h | h | h | h | h <;> subst h <;> decide
  · split <;> omega

/-- One pass of the outer loop of `decode` over a group of accepted bytes. -/
theorem decodeLoop_step (e : Encoding) (offlen fuel : Nat) (dst g rest : List Nat) (bits : Int)
    (off : Nat) (hne : g ≠ []) (hv : ∀ c ∈ g, Valid e c)
    (hg : g.length = 8 ∨ (g.length < 8 ∧ rest = [])) (hroom : off + 5 ≤ dst.length) :
    decodeLoop e offlen (fuel + 1) dst (g ++ rest) bits off =
      decodeLoop e offlen fuel (splice dst off (bytes5 (groupBuffer e g))) rest (nextBits bits)
        (off + groupCount bits g.length) := by
  obtain ⟨c, g', rfl⟩ : ∃ c g', g = c :: g' := by
    cases g with
    | nil => exact absurd rfl hne
    | cons c g' => exact ⟨c, g', rfl⟩
  have hlen8 : (c :: g').length ≤ 8 := by omega
  have hscan := decodeScan_valid e offlen (c :: g') rest 0 (List.replicate 8 0) hv
    (by simpa using hg)
  rw [fill_replicate _ (by simpa using hlen8)] at hscan
  simp only [Nat.zero_add, List.length_map] at hscan
  rw [List.cons_append] at hscan ⊢
  simp only [decodeLoop]
  rw [hscan]
  simp only []
  rw [decodeStore_eq _ _ _ hroom]
  simp only []
  unfold groupCount nextBits groupBuffer
  split
  · rename_i hb
    have hl : load lookup (c :: g').length = .ok (lookup.getD (c :: g').length 0) :=
      load_of_lt _ _ (by simp only [lookup, List.length_cons, List.length_nil] at hlen8 ⊢; omega)
    rw [hl]
  · rfl

/-- One pass of the outer loop of `decode` that meets a rejected byte. -/
theorem decodeLoop_corrupt (e : Encoding) (offlen fuel : Nat) (dst good : List Nat) (bad : Nat)
    (rest : List Nat) (bits : Int) (off : Nat) (hv : ∀ c ∈ good, Valid e c)
    (hg : good.length < 8) (hb : bad < e.decodeMap.length) (hbad : dval e bad = 0xFF) :
    decodeLoop e offlen (fuel + 1) dst (good ++ bad :: rest) bits off =
      .ok (dst, off, some (.corruptInput ((offlen : Int) - (rest.length : Int) - 1))) := by
  have hscan := decodeScan_corrupt e offlen good bad rest 0 (List.replicate 8 0) hv
    (by omega) hb hbad
  cases good with
  | nil =>
    rw [List.nil_append] at hscan ⊢
    simp only [decodeLoop]
    rw [hscan]
  | cons c g =>
    rw [List.cons_append] at hscan ⊢
    simp only [decodeLoop]
    rw [hscan]

/-- Induction over the passes of the outer loop of `decode`: a property of
the runs that holds for the empty input, for a pass that meets a rejected
byte, and is carried through a pass over a group of accepted bytes, holds for
every run over bytes with a 256-entry table and a destination of at least
`DecodedLen` more bytes. -/
theorem decodeLoop_induct (e : Encoding) (offlen : Nat) (htab : e.decodeMap.length = 256)
    (P : List Nat → List Nat → Int → Nat → Except Fault (List Nat × Nat × Option Error) → Prop)
    (hnil : ∀ dst bits off, P dst [] bits off (.ok (dst, off, none)))
    (hbad : ∀ dst good bad rest bits off, (∀ c ∈ good, Valid e c) → good.length < 8 →
      bad < 256 → dval e bad = 0xFF →
      P dst (good ++ bad :: rest) bits off
        (.ok (dst, off, some (.corruptInput ((offlen : Int) - (rest.length : Int) - 1)))))
    (hstep : ∀ dst g rest bits off r, g ≠ [] → (∀ c ∈ g, Valid e c) →
      (g.length = 8 ∨ (g.length < 8 ∧ rest = [])) → off + 5 ≤ dst.length →
      P (splice dst off (bytes5 (groupBuffer e g))) rest (nextBits bits)
        (off + groupCount bits g.length) r →
      P dst (g ++ rest) bits off r) :
    ∀ (fuel : Nat) (dst src : List Nat) (bits : Int) (off : Nat), src.length ≤ fuel →
      (∀ c ∈ src, c < 256) → off + DecodedLen src.length ≤ dst.length →
      P dst src bits off (decodeLoop e offlen fuel dst src bits off) := by
  intro fuel
  induction fuel with
  | zero =>
    intro dst src bits off hf _ _
    have : src = [] := List.eq_nil_of_length_eq_zero (by omega)
    subst this
    simp only [decodeLoop]
    exact hnil dst bits off
  | succ fuel ih =>
    intro dst src bits off hf hb hroom
    cases hsrc : src with
    | nil =>
      simp only [decodeLoop]
      exact hnil dst bits off
    | cons c0 cs0 =>
      rw [← hsrc]
      have hpos : 0 < src.length := by rw [hsrc]; simp
      have hsplit : src = src.take 8 ++ src.drop 8 := (List.take_append_drop 8 src).symm
      have htl : (src.take 8).length = min 8 src.length := List.length_take _ _
      have hdl : (src.drop 8).length = src.length - 8 := List.length_drop _ _
      unfold DecodedLen at hroom
      rcases split_first_invalid e (src.take 8) with hv | ⟨good, bad, rest, h1, h2, h3⟩
      · have hne : src.take 8 ≠ [] := by
          intro h; rw [h] at htl; simp at htl; omega
        have hg : (src.take 8).length = 8 ∨ ((src.take 8).length < 8 ∧ src.drop 8 = []) := by
          by_cases h8 : 8 ≤ src.length
          · left; omega
          · right; exact ⟨by omega, List.drop_eq_nil_of_le (by omega)⟩
        have hroom5 : off + 5 ≤ dst.length := by omega
        have hcnt := groupCount_le bits (src.take 8).length (by omega)
        have key := hstep dst (src.take 8) (src.drop 8) bits off
          (decodeLoop e offlen fuel (splice dst off (bytes5 (groupBuffer e (src.take 8))))
            (src.drop 8) (nextBits bits) (off + groupCount bits (src.take 8).length))
          hne hv hg hroom5
          (ih _ _ _ _ (by omega) (fun c hc => hb c (List.mem_of_mem_drop hc))
            (by
              rw [splice_length _ _ _ (by simp [bytes5]; omega)]
              unfold DecodedLen
              omega))
        rw [← decodeLoop_step e offlen fuel dst _ _ bits off hne hv hg hroom5, ← hsplit] at key
        exact key
      · have hsrc2 : src = good ++ bad :: (rest ++ src.drop 8) := by
          conv_lhs => rw [hsplit, h1]
          simp
        have hgl : good.length < 8 := by
          have : (good ++ bad :: rest).length ≤ 8 := by rw [← h1, htl]; omega
          simp at this; omega
        have hbb : bad < 256 := hb bad (by rw [hsrc2]; simp)
        have hbv : dval e bad = 0xFF := by
          by_contra hcon
          exact h3 ⟨by omega, hcon⟩
        have key := hbad dst good bad (rest ++ src.drop 8) bits off h2 hgl hbb hbv
        rw [← decodeLoop_corrupt e offlen fuel dst good bad _ bits off h2 hgl (by omega) hbv,
          ← hsrc2] at key
        exact key

theorem DecodedLen_group (g rest : List Nat) (hne : g ≠ [])
    (hg : g.length = 8 ∨ (g.length < 8 ∧ rest = [])) :
    DecodedLen (g ++ rest).length = 5 + DecodedLen rest.length := by
  have hpos : 0 < g.length := List.length_pos.2 hne
  unfold DecodedLen
  rw [List.length_append]
  rcases hg with h | ⟨h, hr⟩
  · omega
  · subst hr; simp; omega

theorem take_splice (dst : List Nat) (off : Nat) (syms : List Nat) (h : off ≤ dst.length) :
    (splice dst off syms).take off = dst.take off := by
  unfold splice
  rw [List.append_assoc]
  exact List.take_left' (by rw [List.length_take]; omega)

/-- Every run of the outer loop of `decode` returns, keeps the length of the
destination and its first `off` bytes, and counts at most five bytes per
group of up to eight input bytes. -/
theorem decodeLoop_basic (e : Encoding) (offlen : Nat) (htab : e.decodeMap.length = 256)
    (fuel : Nat) (dst src : List Nat) (bits : Int) (off : Nat) (hf : src.length ≤ fuel)
    (hb : ∀ c ∈ src, c < 256) (hroom : off + DecodedLen src.length ≤ dst.length) :
    ∃ dst1 n err, decodeLoop e offlen fuel dst src bits off = .ok (dst1, n, err) ∧
      dst1.length = dst.length ∧ off ≤ n ∧ n ≤ off + DecodedLen src.length ∧
      dst1.take off = dst.take off := by
  refine decodeLoop_induct e offlen htab
    (fun dst src _ off r => ∃ dst1 n err, r = .ok (dst1, n, err) ∧
      dst1.length = dst.length ∧ off ≤ n ∧ n ≤ off + DecodedLen src.length ∧
      dst1.take off = dst.take off) ?_ ?_ ?_ fuel dst src bits off hf hb hroom
  · intro dst bits off
    exact ⟨dst, off, none, rfl, rfl, Nat.le_refl _, by omega, rfl⟩
  · intro dst good bad rest bits off _ _ _ _
    exact ⟨dst, off, _, rfl, rfl, Nat.le_refl _, by omega, rfl⟩
  · intro dst g rest bits off r hne _ hg hroom5 ⟨dst1, n, err, hr, hl, h1, h2, h3⟩
    have hcnt := groupCount_le bits g.length (by omega)
    have hsl : (splice dst off (bytes5 (groupBuffer e g))).length = dst.length :=
      splice_length _ _ _ (by simp [bytes5]; omega)
    refine ⟨dst1, n, err, hr, by rw [hl, hsl], by omega, ?_, ?_⟩
    · rw [DecodedLen_group g rest hne hg]; omega
    · have h4 : (dst1.take (off + groupCount bits g.length)).take off =
          ((splice dst off (bytes5 (groupBuffer e g))).take
            (off + groupCount bits g.length)).take off := by rw [h3]
      rw [List.take_take, List.take_take, Nat.min_eq_left (by omega)] at h4
      rw [h4]
      exact take_splice _ _ _ (by omega)

theorem decodedCount_group (g rest : List Nat) (hne : g ≠ [])
    (hg : g.length = 8 ∨ (g.length < 8 ∧ rest = [])) :
    decodedCount (g ++ rest).length = lookup.getD g.length 0 + decodedCount rest.length := by
  have hpos : 0 < g.length := List.length_pos.2 hne
  unfold decodedCount
  rw [List.length_append]
  rcases hg with h | ⟨h, hr⟩
  · rw [h, show (8 + rest.length) / 8 = 1 + rest.length / 8 by omega,
      show (8 + rest.length) % 8 = rest.length % 8 by omega]
    simp [lookup]; omega
  · subst hr
    have : g.length = 1 ∨ g.length = 2 ∨ g.length = 3 ∨ g.length = 4 ∨ g.length = 5 ∨
        g.length = 6 ∨ g.length = 7 := by omega
    rcases this with h | h | h | h | h | h | h <;> rw [h] <;> rfl

/-- Byte-aligned decoding of accepted symbols returns no error and the count
of the fixed table. -/
theorem decodeLoop_count (e : Encoding) (offlen : Nat) (htab : e.decodeMap.length = 256)
    (fuel : Nat) (dst src : List Nat) (bits : Int) (off : Nat) (hf : src.length ≤ fuel)
    (hv : ∀ c ∈ src, Valid e c) (hbits : bits < 0)
    (hroom : off + DecodedLen src.length ≤ dst.length) :
    ∃ dst1, decodeLoop e offlen fuel dst src bits off =
      .ok (dst1, off + decodedCount src.length, none) := by
  have hb : ∀ c ∈ src, c < 256 := fun c hc => by have := (hv c hc).1; omega
  refine decodeLoop_induct e offlen htab
    (fun _ src bits off r => bits < 0 → (∀ c ∈ src, Valid e c) →
      ∃ dst1, r = .ok (dst1, off + decodedCount src.length, none))
    ?_ ?_ ?_ fuel dst src bits off hf hb hroom hbits hv
  · intro dst bits off _ _
    exact ⟨dst, rfl⟩
  · intro dst good bad rest bits off _ _ _ hbad _ hv
    exact absurd hbad (hv bad (by simp)).2
  · intro dst g rest bits off r hne _ hg _ ih hbits hv
    have hnb : nextBits bits = bits := by simp [nextBits, hbits]
    have hgc : groupCount bits g.length = lookup.getD g.length 0 := by simp [groupCount, hbits]
    rw [hnb, hgc] at ih
    obtain ⟨dst1, hr⟩ := ih hbits (fun c hc => hv c (List.mem_append_right _ hc))
    refine ⟨dst1, ?_⟩
    rw [hr, decodedCount_group g rest hne hg, Nat.add_assoc]

/-- A run of accepted bytes at the head of a list is a head of every way of
cutting the list at its first rejected byte. -/
theorem valid_head_split (e : Encoding) :
    ∀ (g rest0 good : List Nat) (bad : Nat) (rest : List Nat),
      g ++ rest0 = good ++ bad :: rest → (∀ c ∈ g, Valid e c) → ¬ Valid e bad →
      ∃ good1, good = g ++ good1 ∧ rest0 = good1 ++ bad :: rest := by
  intro g
  induction g with
  | nil =>
    intro rest0 good bad rest h _ _
    exact ⟨good, rfl, by simpa using h⟩
  | cons c g ih =>
    intro rest0 good bad rest h hv hbad
    cases good with
    | nil =>
      simp only [List.cons_append, List.nil_append, List.cons.injEq] at h
      exact absurd (h.1 ▸ hv c (List.mem_cons_self _ _)) hbad
    | cons c1 good =>
      simp only [List.cons_append, List.cons.injEq] at h
      obtain ⟨good1, h1, h2⟩ := ih rest0 good bad rest h.2
        (fun x hx => hv x (List.mem_cons_of_mem _ hx)) hbad
      exact ⟨good1, by rw [h.1, h1]; rfl, h2⟩

/-- The error of every run of the outer loop of `decode`: none when all bytes
are accepted, and otherwise the corrupt-input error of the first rejected
byte. -/
theorem decodeLoop_error (e : Encoding) (offlen : Nat) (htab : e.decodeMap.length = 256)
    (fuel : Nat) (dst src : List Nat) (bits : Int) (off : Nat) (hf : src.length ≤ fuel)
    (hb : ∀ c ∈ src, c < 256) (hroom : off + DecodedLen src.length ≤ dst.length) :
    ∃ dst1 n err, decodeLoop e offlen fuel dst src bits off = .ok (dst1, n, err) ∧
      ((∀ c ∈ src, Valid e c) → err = none) ∧
      (∀ good bad rest, src = good ++ bad :: rest → (∀ c ∈ good, Valid e c) → ¬ Valid e bad →
        err = some (.corruptInput ((offlen : Int) - (rest.length : Int) - 1))) := by
  refine decodeLoop_induct e offlen htab
    (fun _ src _ _ r => ∃ dst1 n err, r = .ok (dst1, n, err) ∧
      ((∀ c ∈ src, Valid e c) → err = none) ∧
      (∀ good bad rest, src = good ++ bad :: rest → (∀ c ∈ good, Valid e c) → ¬ Valid e bad →
        err = some (.corruptInput ((offlen : Int) - (rest.length : Int) - 1))))
    ?_ ?_ ?_ fuel dst src bits off hf hb hroom
  · intro dst bits off
    refine ⟨dst, off, none, rfl, fun _ => rfl, ?_⟩
    intro good bad rest h
    simp at h
  · intro dst good bad rest bits off hv _ _ hbad
    refine ⟨dst, off, _, rfl, ?_, ?_⟩
    · intro hall
      exact absurd hbad (hall bad (by simp)).2
    · intro good1 bad1 rest1 h hv1 hbad1
      obtain ⟨g2, h1, h2⟩ := valid_head_split e good (bad :: rest) good1 bad1 rest1 h hv hbad1
      cases g2 with
      | nil =>
        simp only [List.nil_append, List.cons.injEq] at h2
        rw [h2.2]
      | cons c g2 =>
        simp only [List.cons_append, List.cons.injEq] at h2
        have : Valid e bad := h2.1 ▸ hv1 c (by rw [h1]; simp)
        exact absurd hbad this.2
  · intro dst g rest bits off r _ hv _ _ ⟨dst1, n, err, hr, h1, h2⟩
    refine ⟨dst1, n, err, hr, ?_, ?_⟩
    · intro hall
      exact h1 (fun c hc => hall c (List.mem_append_right _ hc))
    · intro good bad rest1 h hv1 hbad1
      obtain ⟨g2, _, h4⟩ := valid_head_split e g rest good bad rest1 h hv hbad1
      exact h2 g2 bad rest1 h4 (fun c hc => hv1 c (by
        rename_i h3; rw [h3]; exact List.mem_append_right _ hc)) hbad1

/-- With the table of a well-formed alphabet, the accepted bytes are the
alphabet symbols. -/
theorem valid_iff_mem (a : List Nat) (ha : Alphabet a) (c : Nat) (hc : c < 256) :
    Valid (NewEncoding a) c ↔ c ∈ a := by
  have htab := NewEncoding_length a
  have hl : load (NewEncoding a).decodeMap c = .ok (dval (NewEncoding a) c) :=
    load_valid _ _ (by omega)
  constructor
  · intro hv
    by_contra hn
    rw [load_other a c hc hn] at hl
    injection hl with hl
    exact hv.2 hl.symm
  · intro hm
    obtain ⟨i, hi, hEq⟩ := List.getElem_of_mem hm
    have hi32 : i < 32 := by rw [← ha.1]; exact hi
    have : a.getD i 0 = c := by simp [List.getD, List.getElem?_eq_getElem hi, hEq]
    have h2 := load_sym a ha i hi32
    rw [this, hl] at h2
    injection h2 with h2
    exact ⟨by omega, by omega⟩

/-- The table value of the `i`-th symbol of a well-formed alphabet. -/
theorem dval_sym (a : List Nat) (ha : Alphabet a) (i : Nat) (hi : i < 32) :
    dval (NewEncoding a) (a.getD i 0) = i := by
  have hi1 : i < a.length := ha.1 ▸ hi
  have hmem : a.getD i 0 ∈ a := by
    have : a.getD i 0 = a[i] := by
      simp [List.getD, List.getElem?_eq_getElem hi1]
    rw [this]; exact List.getElem_mem _
  have hl : load (NewEncoding a).decodeMap (a.getD i 0) = .ok (dval (NewEncoding a) (a.getD i 0)) :=
    load_valid _ _ (by rw [NewEncoding_length]; exact ha.2.2 _ hmem)
  rw [load_sym a ha i hi] at hl
  injection hl with hl
  exact hl.symm

/-! ## One group: the five bytes computed from eight windows -/

theorem shl8_small (d k : Nat) (h : d * 2 ^ k < 256) : shl8 d k = 2 ^ k * d := by
  unfold shl8
  rw [Nat.shiftLeft_eq, Nat.mod_eq_of_lt h, Nat.mul_comm]

/-- The five bytes of a group buffer of 5-bit values, in arithmetic form. -/
theorem bytes5_arith (d0 d1 d2 d3 d4 d5 d6 d7 : Nat) (h0 : d0 < 32) (h1 : d1 < 32)
    (h2 : d2 < 32) (h3 : d3 < 32) (h4 : d4 < 32) (h5 : d5 < 32) (h6 : d6 < 32) (h7 : d7 < 32) :
    bytes5 [d0, d1, d2, d3, d4, d5, d6, d7] =
      [8 * d0 + d1 / 4, 64 * (d1 % 4) + 2 * d2 + d3 / 16, 16 * (d3 % 16) + d4 / 2,
        128 * (d4 % 2) + 4 * d5 + d6 / 8, 32 * (d6 % 8) + d7] := by
  have e13 : shl8 d0 3 = 2 ^ 3 * d0 := shl8_small d0 3 (by omega)
  have e16 : shl8 d1 6 = 2 ^ 6 * (d1 % 4) := by
    unfold shl8; rw [Nat.shiftLeft_eq]; omega
  have e21 : shl8 d2 1 = 2 ^ 1 * d2 := shl8_small d2 1 (by omega)
  have e34 : shl8 d3 4 = 2 ^ 4 * (d3 % 16) := by
    unfold shl8; rw [Nat.shiftLeft_eq]; omega
  have e47 : shl8 d4 7 = 2 ^ 7 * (d4 % 2) := by
    unfold shl8; rw [Nat.shiftLeft_eq]; omega
  have e52 : shl8 d5 2 = 2 ^ 2 * d5 := shl8_small d5 2 (by omega)
  have e65 : shl8 d6 5 = 2 ^ 5 * (d6 % 8) := by
    unfold shl8; rw [Nat.shiftLeft_eq]; omega
  have b0 : shl8 d0 3 ||| (d1 >>> 2) = 8 * d0 + d1 / 4 := by
    rw [e13, Nat.shiftRight_eq_div_pow, ← Nat.mul_add_lt_is_or (by omega)]
  have b1 : shl8 d1 6 ||| shl8 d2 1 ||| (d3 >>> 4) = 64 * (d1 % 4) + 2 * d2 + d3 / 16 := by
    rw [e16, e21, Nat.shiftRight_eq_div_pow, ← Nat.mul_add_lt_is_or (by omega),
      show 2 ^ 6 * (d1 % 4) + 2 ^ 1 * d2 = 2 ^ 1 * (32 * (d1 % 4) + d2) by omega,
      ← Nat.mul_add_lt_is_or (by omega)]
    omega
  have b2 : shl8 d3 4 ||| (d4 >>> 1) = 16 * (d3 % 16) + d4 / 2 := by
    rw [e34, Nat.shiftRight_eq_div_pow, ← Nat.mul_add_lt_is_or (by omega)]
  have b3 : shl8 d4 7 ||| shl8 d5 2 ||| (d6 >>> 3) = 128 * (d4 % 2) + 4 * d5 + d6 / 8 := by
    rw [e47, e52, Nat.shiftRight_eq_div_pow, ← Nat.mul_add_lt_is_or (by omega),
      show 2 ^ 7 * (d4 % 2) + 2 ^ 2 * d5 = 2 ^ 2 * (32 * (d4 % 2) + d5) by omega,
      ← Nat.mul_add_lt_is_or (by omega)]
    omega
  have b4 : shl8 d6 5 ||| d7 = 32 * (d6 % 8) + d7 := by
    rw [e65, ← Nat.mul_add_lt_is_or (by omega)]
  simp only [bytes5, List.getD_cons_zero, List.getD_cons_succ, b0, b1, b2, b3, b4]

theorem window_lt (b0 b1 o : Nat) : window b0 b1 o < 32 := Nat.mod_lt _ (by decide)

/-- Unpacking the eight windows of five bytes gives the five bytes back. -/
theorem bytes5_windows (b0 b1 b2 b3 b4 b5 : Nat) (h0 : b0 < 256) (h1 : b1 < 256)
    (h2 : b2 < 256) (h3 : b3 < 256) (h4 : b4 < 256) (h5 : b5 < 256) :
    bytes5 [window b0 b1 0, window b0 b1 5, window b1 b2 2, window b1 b2 7,
      window b2 b3 4, window b3 b4 1, window b3 b4 6, window b4 b5 3] =
      [b0, b1, b2, b3, b4] := by
  rw [bytes5_arith _ _ _ _ _ _ _ _ (window_lt _ _ _) (window_lt _ _ _) (window_lt _ _ _)
    (window_lt _ _ _) (window_lt _ _ _) (window_lt _ _ _) (window_lt _ _ _) (window_lt _ _ _)]
  unfold window
  simp only [List.cons.injEq, and_true]
  refine ⟨?_, ?_, ?_, ?_, ?_⟩ <;> norm_num <;> omega

/-- The value of pass `k` in byte-aligned mode as a window of two bytes. -/
theorem charAt_window (src : List Nat) (hb : ∀ b ∈ src, b < 256) (k : Nat) :
    charAt src (-1) k =
      window (src.getD (5 * k / 8) 0) (src.getD (5 * k / 8 + 1) 0) (5 * k % 8) := by
  unfold charAt
  rw [encodeChar_eq, if_neg (by omega)]
  exact rawChar_window _ _ _ (Nat.mod_lt _ (by decide)) (getD_lt src hb _) (getD_lt src hb _)

/-- Unpacking the values of the first eight passes over `src` gives the first
five bytes of `src` (zeros where `src` is shorter). -/
theorem bytes5_charAt (src : List Nat) (hb : ∀ b ∈ src, b < 256) :
    bytes5 ((List.range 8).map (charAt src (-1))) =
      (List.range 5).map (fun i => src.getD i 0) := by
  have h := bytes5_windows (src.getD 0 0) (src.getD 1 0) (src.getD 2 0) (src.getD 3 0)
    (src.getD 4 0) (src.getD 5 0) (getD_lt src hb _) (getD_lt src hb _) (getD_lt src hb _)
    (getD_lt src hb _) (getD_lt src hb _) (getD_lt src hb _)
  have r8 : List.range 8 = [0, 1, 2, 3, 4, 5, 6, 7] := rfl
  have r5 : List.range 5 = [0, 1, 2, 3, 4] := rfl
  rw [r8, r5]
  simp only [List.map_cons, List.map_nil, charAt_window src hb]
  norm_num at h ⊢
  exact h

/-! ## Decoding the symbols of `encode` -/

theorem getD_mem_of_lt (a : List Nat) (i : Nat) (hi : i < a.length) : a.getD i 0 ∈ a := by
  have : a.getD i 0 = a[i] := by simp [List.getD, List.getElem?_eq_getElem hi]
  rw [this]; exact List.getElem_mem _

theorem charAt_lt (src : List Nat) (bits : Int) (k : Nat) : charAt src bits k < 32 :=
  encodeChar_lt _ _ _ _

/-- Every symbol that `encode` writes with a well-formed alphabet is accepted
by the table of that alphabet. -/
theorem symbols_valid (a : List Nat) (ha : Alphabet a) (src : List Nat) (bits : Int) (m : Nat) :
    ∀ c ∈ symbols (NewEncoding a) src bits m, Valid (NewEncoding a) c := by
  intro c hc
  simp only [symbols, List.mem_map, List.mem_range] at hc
  obtain ⟨k, _, rfl⟩ := hc
  have hmem : a.getD (charAt src bits k) 0 ∈ a :=
    getD_mem_of_lt a _ (by rw [ha.1]; exact charAt_lt src bits k)
  exact (valid_iff_mem a ha _ (ha.2.2 _ hmem)).2 hmem

/-- The table values of the symbols that `encode` writes are the values of
its passes. -/
theorem symbols_dval (a : List Nat) (ha : Alphabet a) (src : List Nat) (bits : Int) (m : Nat) :
    (symbols (NewEncoding a) src bits m).map (dval (NewEncoding a)) =
      (List.range m).map (charAt src bits) := by
  simp only [symbols, List.map_map]
  apply List.map_congr_left
  intro k _
  exact dval_sym a ha _ (charAt_lt src bits k)

theorem getD_drop (src : List Nat) (n i : Nat) : (src.drop n).getD i 0 = src.getD (n + i) 0 := by
  simp [List.getD, List.getElem?_drop]

theorem bitAt_drop5 (src : List Nat) (p : Nat) : bitAt (src.drop 5) p = bitAt src (p + 40) := by
  unfold bitAt
  rw [getD_drop, show (p + 40) / 8 = 5 + p / 8 by omega, show (p + 40) % 8 = p % 8 by omega]

/-- Pass `k + 8` over `src` computes what pass `k` computes over `src` without
its first five bytes. -/
theorem charAt_drop5 (src : List Nat) (k : Nat) :
    charAt src (-1) (k + 8) = charAt (src.drop 5) (-1) k := by
  unfold charAt
  rw [encodeChar_eq, encodeChar_eq, if_neg (by omega), if_neg (by omega), getD_drop, getD_drop,
    show 5 * (k + 8) / 8 = 5 + 5 * k / 8 by omega, show 5 * (k + 8) % 8 = 5 * k % 8 by omega,
    Nat.add_assoc]

theorem symbols_add8 (e : Encoding) (src : List Nat) (m : Nat) :
    symbols e src (-1) (8 + m) = symbols e src (-1) 8 ++ symbols e (src.drop 5) (-1) m := by
  unfold symbols
  rw [List.range_add, List.map_append, List.map_map]
  congr 1
  apply List.map_congr_left
  intro k _
  simp only [Function.comp]
  rw [Nat.add_comm 8 k, charAt_drop5]

/-- A pass that starts at or after the last set bit computes zero. -/
theorem charAt_zero (src : List Nat) (hb : ∀ b ∈ src, b < 256) (B : Nat)
    (hz : ∀ p, B ≤ p → bitAt src p = 0) (k : Nat) (hk : B ≤ 5 * k) :
    charAt src (-1) k = 0 := by
  rw [charAt_refSymbol src hb k]
  unfold refSymbol
  rw [hz _ hk, hz _ (by omega), hz _ (by omega), hz _ (by omega), hz _ (by omega)]

/-- The group buffer of the last group of symbols holds the values of all
eight passes, because the passes that were not made compute zero. -/
theorem groupBuffer_symbols (a : List Nat) (ha : Alphabet a) (src : List Nat) (m : Nat)
    (hm : m ≤ 8) (hz : ∀ k, m ≤ k → charAt src (-1) k = 0) :
    groupBuffer (NewEncoding a) (symbols (NewEncoding a) src (-1) m) =
      (List.range 8).map (charAt src (-1)) := by
  unfold groupBuffer
  rw [symbols_dval a ha, symbols_length]
  have h8 : List.range 8 = List.range (m + (8 - m)) := by congr 1; omega
  rw [h8, List.range_add, List.map_append]
  congr 1
  apply List.ext_getElem
  · simp
  · intro i h1 h2
    simp only [List.getElem_replicate, List.getElem_map, List.getElem_range]
    exact (hz _ (by omega)).symm

/-- In bit-count mode over a source whose bits from `bits` on are zero, the
passes compute what they compute in byte-aligned mode. -/
theorem charAt_bits_eq (src : List Nat) (hb : ∀ b ∈ src, b < 256) (bits : Nat)
    (hz : ∀ p, bits ≤ p → bitAt src p = 0) (k : Nat) (hk : 5 * k < bits) :
    charAt src (bits : Int) k = charAt src (-1) k := by
  rw [charAt_refSymbolBits src hb bits k hk, charAt_refSymbol src hb k]
  unfold refSymbolBits refSymbol bitBelow
  have h : ∀ p, (if p < bits then bitAt src p else 0) = bitAt src p := by
    intro p
    split
    · rfl
    · exact (hz p (by omega)).symm
  simp only [h]

theorem symbols_bits_eq (e : Encoding) (src : List Nat) (hb : ∀ b ∈ src, b < 256) (bits : Nat)
    (hz : ∀ p, bits ≤ p → bitAt src p = 0) :
    symbols e src (bits : Int) ((bits + 4) / 5) = symbols e src (-1) ((bits + 4) / 5) := by
  unfold symbols
  apply List.map_congr_left
  intro k hk
  rw [charAt_bits_eq src hb bits hz k (by have := List.mem_range.1 hk; omega)]

theorem take_getD_range (src : List Nat) (h : src.length ≤ 5) :
    ((List.range 5).map (fun i => src.getD i 0)).take src.length = src := by
  match src, h with
  | [], _ => rfl
  | [_], _ => rfl
  | [_, _], _ => rfl
  | [_, _, _], _ => rfl
  | [_, _, _, _], _ => rfl
  | [_, _, _, _, _], _ => rfl
  | _ :: _ :: _ :: _ :: _ :: _ :: _, h => simp at h

theorem getD_range_take5 (src : List Nat) (h : 5 ≤ src.length) :
    (List.range 5).map (fun i => src.getD i 0) = src.take 5 := by
  match src, h with
  | _ :: _ :: _ :: _ :: _ :: _, _ => rfl
  | [], h => simp at h
  | [_], h => simp at h
  | [_, _], h => simp at h
  | [_, _, _], h => simp at h
  | [_, _, _, _], h => simp at h

theorem decodeLoop_nil (e : Encoding) (offlen fuel : Nat) (dst : List Nat) (bits : Int)
    (off : Nat) : decodeLoop e offlen fuel dst [] bits off = .ok (dst, off, none) := by
  cases fuel <;> simp [decodeLoop]

theorem take_splice_add (dst : List Nat) (off : Nat) (syms : List Nat) (n : Nat)
    (h : off ≤ dst.length) (hn : n ≤ syms.length) :
    (splice dst off syms).take (off + n) = dst.take off ++ syms.take n := by
  unfold splice
  have hl : (dst.take off).length = off := by rw [List.length_take]; omega
  rw [List.append_assoc, List.take_append_eq_append_take, hl, List.take_take,
    Nat.min_eq_right (by omega), Nat.add_sub_cancel_left, List.take_append_of_le_length hn]

/-- Decoding the symbols that byte-aligned `encode` writes for the first `B`
bits of `src`, where `src` has `ceil(B/8)` bytes and no set bit from `B` on:
in byte-aligned mode (when `B` is the whole source) and in bit-count mode
with count `B`, the loop of `decode` returns no error, counts `len(src)`
bytes and leaves `src` in the destination. -/
theorem decodeLoop_symbols (a : List Nat) (ha : Alphabet a) (offlen : Nat) :
    ∀ (fuel B : Nat) (src : List Nat) (bits : Int) (dst : List Nat) (off : Nat),
      (∀ b ∈ src, b < 256) → (B + 7) / 8 = src.length → (∀ p, B ≤ p → bitAt src p = 0) →
      ((bits < 0 ∧ B = 8 * src.length) ∨ bits = (B : Int)) → (B + 4) / 5 ≤ fuel →
      off + DecodedLen ((B + 4) / 5) ≤ dst.length →
      ∃ dst1, decodeLoop (NewEncoding a) offlen fuel dst
          (symbols (NewEncoding a) src (-1) ((B + 4) / 5)) bits off =
          .ok (dst1, off + src.length, none) ∧
        dst1.take (off + src.length) = dst.take off ++ src := by
  intro fuel
  induction fuel with
  | zero =>
    intro B src bits dst off _ hB _ _ hf _
    have hB0 : B = 0 := by omega
    subst hB0
    have hs : src = [] := List.eq_nil_of_length_eq_zero (by omega)
    subst hs
    exact ⟨dst, by simp [symbols, decodeLoop], by simp⟩
  | succ fuel ih =>
    intro B src bits dst off hb hB hz hmode hf hroom
    by_cases hB0 : B = 0
    · subst hB0
      have hs : src = [] := List.eq_nil_of_length_eq_zero (by omega)
      subst hs
      exact ⟨dst, by simp [symbols, decodeLoop], by simp⟩
    have hm1 : 0 < (B + 4) / 5 := by omega
    unfold DecodedLen at hroom
    by_cases hB40 : B ≤ 40
    · -- one last group
      have hm8 : (B + 4) / 5 ≤ 8 := by omega
      have hne : symbols (NewEncoding a) src (-1) ((B + 4) / 5) ≠ [] := by
        intro h
        have := symbols_length (NewEncoding a) src (-1) ((B + 4) / 5)
        rw [h] at this; simp at this; omega
      have hstep := decodeLoop_step (NewEncoding a) offlen fuel dst
        (symbols (NewEncoding a) src (-1) ((B + 4) / 5)) [] bits off hne
        (symbols_valid a ha src (-1) _)
        (by rw [symbols_length]
            by_cases h8 : (B + 4) / 5 = 8
            · left; exact h8
            · right; exact ⟨by omega, rfl⟩)
        (by omega)
      rw [List.append_nil, decodeLoop_nil, symbols_length,
        groupBuffer_symbols a ha src _ hm8
          (fun k hk => charAt_zero src hb B hz k (by omega)),
        bytes5_charAt src hb] at hstep
      have hcnt : groupCount bits ((B + 4) / 5) = src.length := by
        unfold groupCount
        rcases hmode with ⟨hneg, hB8⟩ | hbits
        · rw [if_pos hneg]
          have hn5 : src.length ≤ 5 := by omega
          have : src.length = 1 ∨ src.length = 2 ∨ src.length = 3 ∨ src.length = 4 ∨
              src.length = 5 := by omega
          rcases this with h | h | h | h | h <;> rw [hB8, h] <;> rfl
        · rw [if_neg (by omega), if_neg (by omega), hbits]
          omega
      rw [hcnt] at hstep
      refine ⟨_, hstep, ?_⟩
      rw [take_splice_add _ _ _ _ (by omega) (by simp; omega), take_getD_range src (by omega)]
    · -- a full group, and more to come
      have hlen : 6 ≤ src.length := by omega
      have hm : (B + 4) / 5 = 8 + (B - 40 + 4) / 5 := by omega
      have hne : symbols (NewEncoding a) src (-1) 8 ≠ [] := by
        intro h
        have := symbols_length (NewEncoding a) src (-1) 8
        rw [h] at this; simp at this
      have hstep := decodeLoop_step (NewEncoding a) offlen fuel dst
        (symbols (NewEncoding a) src (-1) 8)
        (symbols (NewEncoding a) (src.drop 5) (-1) ((B - 40 + 4) / 5)) bits off hne
        (symbols_valid a ha src (-1) _) (by left; rw [symbols_length]) (by omega)
      have hgb : groupBuffer (NewEncoding a) (symbols (NewEncoding a) src (-1) 8) =
          (List.range 8).map (charAt src (-1)) := by
        unfold groupBuffer
        rw [symbols_dval a ha, symbols_length]
        simp
      rw [← symbols_add8, ← hm, symbols_length, hgb, bytes5_charAt src hb,
        getD_range_take5 src (by omega)] at hstep
      have hcnt : groupCount bits 8 = 5 := by
        unfold groupCount
        rcases hmode with ⟨hneg, _⟩ | hbits
        · rw [if_pos hneg]; rfl
        · rw [if_neg (by omega), if_pos (by omega)]; rfl
      have hnb : (nextBits bits < 0 ∧ B - 40 = 8 * (src.drop 5).length) ∨
          nextBits bits = ((B - 40 : Nat) : Int) := by
        unfold nextBits
        rcases hmode with ⟨hneg, hB8⟩ | hbits
        · left; rw [if_pos hneg]; exact ⟨hneg, by rw [List.length_drop]; omega⟩
        · right; rw [if_neg (by omega)]; omega
      have hsl : (splice dst off (src.take 5)).length = dst.length :=
        splice_length _ _ _ (by rw [List.length_take]; omega)
      obtain ⟨dst1, h1, h2⟩ := ih (B - 40) (src.drop 5) (nextBits bits)
        (splice dst off (src.take 5)) (off + 5)
        (fun b hb1 => hb b (List.mem_of_mem_drop hb1))
        (by rw [List.length_drop]; omega)
        (fun p hp => by rw [bitAt_drop5]; exact hz _ (by omega))
        hnb (by omega) (by rw [hsl]; unfold DecodedLen; omega)
      have e1 : off + src.length = off + 5 + (src.drop 5).length := by
        rw [List.length_drop]; omega
      rw [hcnt] at hstep
      rw [hstep, h1, e1]
      refine ⟨dst1, rfl, ?_⟩
      rw [h2, take_splice_add _ _ _ _ (by omega) (by rw [List.length_take]; omega),
        List.take_take, List.append_assoc, Nat.min_self, List.take_append_drop]

/-! ## Whole-buffer round trips -/

theorem encodeStd_alphabet : Alphabet encodeStd := by decide

theorem encodeLwr_alphabet : Alphabet encodeLwr := by decide

theorem NewEncoding_encoder_length (a : List Nat) (ha : Alphabet a) :
    32 ≤ (NewEncoding a).encoder.length := by
  have : (NewEncoding a).encoder = a := rfl
  rw [this, ha.1]

/-- Bits past the last byte of a source read as zero. -/
theorem bitAt_past (src : List Nat) (p : Nat) (h : 8 * src.length ≤ p) : bitAt src p = 0 := by
  unfold bitAt
  have : src.getD (p / 8) 0 = 0 := by
    simp [List.getD, List.getElem?_eq_none (show src.length ≤ p / 8 by omega)]
  rw [this]; simp

/-- `decodeString` of the symbols that byte-aligned `encode` writes for the
first `B` bits of `src` gives `src` back (see `decodeLoop_symbols`). -/
theorem decodeString_symbols (a : List Nat) (ha : Alphabet a) (B : Nat) (src : List Nat)
    (bits : Int) (hb : ∀ b ∈ src, b < 256) (hB : (B + 7) / 8 = src.length)
    (hz : ∀ p, B ≤ p → bitAt src p = 0)
    (hmode : (bits < 0 ∧ B = 8 * src.length) ∨ bits = (B : Int)) :
    decodeString (NewEncoding a) (symbols (NewEncoding a) src (-1) ((B + 4) / 5)) bits =
      .ok (src, none) := by
  unfold decodeString decode
  rw [symbols_length]
  obtain ⟨dst1, h1, h2⟩ := decodeLoop_symbols a ha ((B + 4) / 5) ((B + 4) / 5) B src bits
    (List.replicate (DecodedLen ((B + 4) / 5)) 0) 0 hb hB hz hmode (Nat.le_refl _) (by simp)
  rw [h1]
  simp only [Nat.zero_add, List.take_zero, List.nil_append] at h2 ⊢
  rw [h2]

theorem roundtrip_bytes (a : List Nat) (ha : Alphabet a) (src : List Nat)
    (hb : ∀ b ∈ src, b < 256) :
    ∃ s, EncodeToString (NewEncoding a) src = .ok s ∧
      DecodeString (NewEncoding a) s = .ok (src, none) := by
  refine ⟨_, EncodeToString_eq _ src (NewEncoding_encoder_length a ha), ?_⟩
  unfold DecodeString
  exact decodeString_symbols a ha (8 * src.length) src (-1) hb (by omega)
    (fun p hp => bitAt_past src p hp) (Or.inl ⟨by omega, rfl⟩)

theorem roundtrip_bits (a : List Nat) (ha : Alphabet a) (bits : Nat) (src : List Nat)
    (hb : ∀ b ∈ src, b < 256) (hlen : src.length = (bits + 7) / 8)
    (hz : ∀ p, p < 8 * src.length → bits ≤ p → bitAt src p = 0) :
    ∃ s, EncodeBitsToString (NewEncoding a) src (bits : Int) = .ok s ∧
      DecodeBitsString (NewEncoding a) s (bits : Int) = .ok (src, none) := by
  have hz1 : ∀ p, bits ≤ p → bitAt src p = 0 := by
    intro p hp
    by_cases h : p < 8 * src.length
    · exact hz p h hp
    · exact bitAt_past src p (by omega)
  refine ⟨_, EncodeBitsToString_eq _ src bits (NewEncoding_encoder_length a ha) (by omega), ?_⟩
  unfold DecodeBitsString
  rw [if_neg (by omega), symbols_bits_eq _ src hb bits hz1]
  exact decodeString_symbols a ha bits src (bits : Int) hb hlen.symm hz1 (Or.inr rfl)

/-- C1: Byte-aligned round trip.  For every byte sequence `src` (the empty one
included) and for both shipped handles, `EncodeToString` returns a text `s`
and `DecodeString s` returns exactly `src` with no error. -/
theorem C1_byte_round_trip (src : List Nat) (hb : ∀ b ∈ src, b < 256) :
    (∃ s, EncodeToString StdEncoding src = .ok s ∧
      DecodeString StdEncoding s = .ok (src, none)) ∧
    (∃ s, EncodeToString LwrEncoding src = .ok s ∧
      DecodeString LwrEncoding s = .ok (src, none)) :=
  ⟨roundtrip_bytes encodeStd encodeStd_alphabet src hb,
    roundtrip_bytes encodeLwr encodeLwr_alphabet src hb⟩

theorem C1_byte_round_trip_witness :
    (∀ b ∈ [0x34, 0x5A], b < 256) ∧
    ((∃ s, EncodeToString StdEncoding [0x34, 0x5A] = .ok s ∧
      DecodeString StdEncoding s = .ok ([0x34, 0x5A], none)) ∧
    (∃ s, EncodeToString LwrEncoding [0x34, 0x5A] = .ok s ∧
      DecodeString LwrEncoding s = .ok ([0x34, 0x5A], none))) :=
  ⟨by decide, C1_byte_round_trip [0x34, 0x5A] (by decide)⟩

/-- C2: `Encode` equals the reference bit-stream definition.  For every byte
sequence `src` of `n` bytes and every handle with at least 32 alphabet
symbols, `EncodeToString` returns `ceil(8n/5)` symbols, and the `k`-th of them
is `alphabet[v]` where `v` is the 5-bit number formed by bits `5k .. 5k+4` of
`src` read as one most-significant-bit-first stream with zeros past the end. -/
theorem C2_encode_is_bit_stream (e : Encoding) (src : List Nat)
    (henc : 32 ≤ e.encoder.length) (hb : ∀ b ∈ src, b < 256) :
    ∃ out, EncodeToString e src = .ok out ∧ out.length = (8 * src.length + 4) / 5 ∧
      ∀ k, k < out.length → out.getD k 0 = e.encoder.getD (refSymbol src k) 0 := by
  refine ⟨_, EncodeToString_eq e src henc, symbols_length _ _ _ _, ?_⟩
  intro k hk
  rw [symbols_length] at hk
  have h : (symbols e src (-1) ((8 * src.length + 4) / 5))[k]? =
      some (e.encoder.getD (charAt src (-1) k) 0) := by
    simp [symbols, List.getElem?_map, List.getElem?_range hk]
  rw [List.getD_eq_getElem?_getD, h, Option.getD_some, charAt_refSymbol src hb k]

theorem C2_encode_is_bit_stream_witness :
    32 ≤ StdEncoding.encoder.length ∧ (∀ b ∈ [0x34, 0x5A], b < 256) ∧
    ∃ out, EncodeToString StdEncoding [0x34, 0x5A] = .ok out ∧
      out.length = (8 * [0x34, 0x5A].length + 4) / 5 ∧
      ∀ k, k < out.length →
        out.getD k 0 = StdEncoding.encoder.getD (refSymbol [0x34, 0x5A] k) 0 :=
  ⟨by decide, by decide, C2_encode_is_bit_stream StdEncoding [0x34, 0x5A] (by decide) (by decide)⟩

/-- C3: Corrupt input is detected exactly and at the first offending byte.
For every handle built by `NewEncoding` from 32 distinct bytes, every input
`src` and every destination of at least `DecodedLen(len(src))` bytes, `Decode`
returns; its error is non-nil if and only if some byte of `src` is not an
alphabet symbol; and when `k` is the smallest index of such a byte the error
is `CorruptInputError(k)`. -/
theorem C3_corrupt_input_first_offset (a : List Nat) (ha : Alphabet a) (dst src : List Nat)
    (hb : ∀ c ∈ src, c < 256) (hroom : DecodedLen src.length ≤ dst.length) :
    ∃ dst1 n err, Decode (NewEncoding a) dst src = .ok (dst1, n, err) ∧
      (err ≠ none ↔ ∃ c ∈ src, c ∉ a) ∧
      (∀ k, k < src.length → src.getD k 0 ∉ a → (∀ i, i < k → src.getD i 0 ∈ a) →
        err = some (.corruptInput (k : Int))) := by
  have hv : ∀ c ∈ src, (Valid (NewEncoding a) c ↔ c ∈ a) :=
    fun c hc => valid_iff_mem a ha c (hb c hc)
  obtain ⟨dst1, n, err, h1, h2, h3⟩ := decodeLoop_error (NewEncoding a) src.length
    (NewEncoding_length a) src.length dst src (-1) 0 (Nat.le_refl _) hb (by omega)
  refine ⟨dst1, n, err, h1, ⟨?_, ?_⟩, ?_⟩
  · intro hne
    by_contra hcon
    apply hne
    apply h2
    intro c hc
    by_contra hnv
    exact hcon ⟨c, hc, fun hm => hnv ((hv c hc).2 hm)⟩
  · rintro ⟨c, hc, hca⟩
    rcases split_first_invalid (NewEncoding a) src with hall | ⟨good, bad, rest, hs, hg, hbad⟩
    · exact absurd ((hv c hc).1 (hall c hc)) hca
    · rw [h3 good bad rest hs hg hbad]
      simp
  · intro k hk hbadk hgood
    have hs : src = src.take k ++ src.getD k 0 :: src.drop (k + 1) := by
      rw [← drop_eq_getD_cons src k hk, List.take_append_drop]
    have hg : ∀ c ∈ src.take k, Valid (NewEncoding a) c := by
      intro c hc
      obtain ⟨i, hi, rfl⟩ := List.getElem_of_mem hc
      rw [List.length_take] at hi
      have hik : i < k := by omega
      have hil : i < src.length := by omega
      have e1 : (src.take k)[i] = src.getD i 0 := by
        rw [List.getElem_take]
        simp [List.getD, List.getElem?_eq_getElem hil]
      rw [e1]
      exact (hv _ (getD_mem_of_lt src i hil)).2 (hgood i hik)
    have hbd : ¬ Valid (NewEncoding a) (src.getD k 0) :=
      fun h => hbadk ((hv _ (getD_mem_of_lt src k hk)).1 h)
    rw [h3 _ _ _ hs hg hbd, List.length_drop]
    congr 2
    omega

theorem C3_corrupt_input_first_offset_witness :
    Alphabet encodeStd ∧ (∀ c ∈ ascii "F00!BAR", c < 256) ∧
    DecodedLen (ascii "F00!BAR").length ≤ (List.replicate 5 0).length ∧
    ∃ dst1 n err, Decode (NewEncoding encodeStd) (List.replicate 5 0) (ascii "F00!BAR") =
        .ok (dst1, n, err) ∧
      (err ≠ none ↔ ∃ c ∈ ascii "F00!BAR", c ∉ encodeStd) ∧
      (∀ k, k < (ascii "F00!BAR").length → (ascii "F00!BAR").getD k 0 ∉ encodeStd →
        (∀ i, i < k → (ascii "F00!BAR").getD i 0 ∈ encodeStd) →
        err = some (.corruptInput (k : Int))) :=
  ⟨by decide, by decide, by decide,
    C3_corrupt_input_first_offset encodeStd (by decide) (List.replicate 5 0) (ascii "F00!BAR")
      (by decide) (by decide)⟩

/-- C4: Bit-count round trip.  For every bit count `bits`, every byte
sequence `src` of `ceil(bits/8)` bytes whose bits at positions `>= bits` are
zero, and both shipped handles, `EncodeBitsToString src bits` returns a text
`s` and `DecodeBitsString s bits` returns exactly `src` with no error. -/
theorem C4_bit_count_round_trip (bits : Nat) (src : List Nat) (hb : ∀ b ∈ src, b < 256)
    (hlen : src.length = (bits + 7) / 8)
    (hz : ∀ p, p < 8 * src.length → bits ≤ p → bitAt src p = 0) :
    (∃ s, EncodeBitsToString StdEncoding src (bits : Int) = .ok s ∧
      DecodeBitsString StdEncoding s (bits : Int) = .ok (src, none)) ∧
    (∃ s, EncodeBitsToString LwrEncoding src (bits : Int) = .ok s ∧
      DecodeBitsString LwrEncoding s (bits : Int) = .ok (src, none)) :=
  ⟨roundtrip_bits encodeStd encodeStd_alphabet bits src hb hlen hz,
    roundtrip_bits encodeLwr encodeLwr_alphabet bits src hb hlen hz⟩

theorem C4_bit_count_round_trip_witness :
    (∀ b ∈ [0x10, 0x11, 0x10], b < 256) ∧ [0x10, 0x11, 0x10].length = (20 + 7) / 8 ∧
    (∀ p, p < 8 * [0x10, 0x11, 0x10].length → 20 ≤ p → bitAt [0x10, 0x11, 0x10] p = 0) ∧
    ((∃ s, EncodeBitsToString StdEncoding [0x10, 0x11, 0x10] ((20 : Nat) : Int) = .ok s ∧
      DecodeBitsString StdEncoding s ((20 : Nat) : Int) = .ok ([0x10, 0x11, 0x10], none)) ∧
    (∃ s, EncodeBitsToString LwrEncoding [0x10, 0x11, 0x10] ((20 : Nat) : Int) = .ok s ∧
      DecodeBitsString LwrEncoding s ((20 : Nat) : Int) = .ok ([0x10, 0x11, 0x10], none))) :=
  ⟨by decide, by decide, by decide,
    C4_bit_count_round_trip 20 [0x10, 0x11, 0x10] (by decide) (by decide) (by decide)⟩

/-- C5: Bit-count masking leaks nothing beyond the declared length.  For
every bit count `bits`, every handle with at least 32 alphabet symbols, and
any two byte sequences of at least `ceil(bits/8)` bytes that agree on their
first `bits` bits, `EncodeBitsToString` returns the same `ceil(bits/5)`
symbols for both. -/
theorem C5_masking_hides_excess_bits (e : Encoding) (bits : Nat) (s1 s2 : List Nat)
    (henc : 32 ≤ e.encoder.length) (hb1 : ∀ b ∈ s1, b < 256) (hb2 : ∀ b ∈ s2, b < 256)
    (hl1 : (bits + 7) / 8 ≤ s1.length) (hl2 : (bits + 7) / 8 ≤ s2.length)
    (hagree : ∀ p, p < bits → bitAt s1 p = bitAt s2 p) :
    ∃ out, EncodeBitsToString e s1 (bits : Int) = .ok out ∧
      EncodeBitsToString e s2 (bits : Int) = .ok out ∧ out.length = (bits + 4) / 5 := by
  refine ⟨_, EncodeBitsToString_eq e s1 bits henc hl1, ?_, symbols_length _ _ _ _⟩
  rw [EncodeBitsToString_eq e s2 bits henc hl2]
  congr 1
  unfold symbols
  apply List.map_congr_left
  intro k hk
  have hk5 : 5 * k < bits := by have := List.mem_range.1 hk; omega
  rw [charAt_refSymbolBits s1 hb1 bits k hk5, charAt_refSymbolBits s2 hb2 bits k hk5]
  unfold refSymbolBits bitBelow
  have h : ∀ p, (if p < bits then bitAt s2 p else 0) = (if p < bits then bitAt s1 p else 0) := by
    intro p
    split
    · rename_i hp; exact (hagree p hp).symm
    · rfl
  simp only [h]

theorem C5_masking_hides_excess_bits_witness :
    32 ≤ StdEncoding.encoder.length ∧ (∀ b ∈ [0xFF, 0xFF], b < 256) ∧
    (∀ b ∈ [0xFF, 0xE0], b < 256) ∧ (11 + 7) / 8 ≤ [0xFF, 0xFF].length ∧
    (11 + 7) / 8 ≤ [0xFF, 0xE0].length ∧
    (∀ p, p < 11 → bitAt [0xFF, 0xFF] p = bitAt [0xFF, 0xE0] p) ∧
    ∃ out, EncodeBitsToString StdEncoding [0xFF, 0xFF] ((11 : Nat) : Int) = .ok out ∧
      EncodeBitsToString StdEncoding [0xFF, 0xE0] ((11 : Nat) : Int) = .ok out ∧
      out.length = (11 + 4) / 5 :=
  ⟨by decide, by decide, by decide, by decide, by decide, by decide,
    C5_masking_hides_excess_bits StdEncoding 11 [0xFF, 0xFF] [0xFF, 0xE0] (by decide) (by decide)
      (by decide) (by decide) (by decide) (by decide)⟩

/-- C8 fails as stated: `Encode` writes the 4 symbols "GTPY" for the 2 bytes
`34 5A`, while `EncodedLen(2)` is 8. -/
theorem C8_encoded_length_counterexample :
    EncodeToString StdEncoding [0x34, 0x5A] = .ok (ascii "GTPY") ∧
      (ascii "GTPY").length ≠ EncodedLen [0x34, 0x5A].length := by
  decide

/-- C8 (amended): for every byte sequence `src` and every handle with at
least 32 alphabet symbols, `EncodeToString` returns `ceil(8*len(src)/5)`
symbols; that number is at most `EncodedLen(len(src))` and equals it exactly
when `len(src)` is a multiple of 5. -/
theorem C8_encoded_length (e : Encoding) (src : List Nat) (henc : 32 ≤ e.encoder.length) :
    ∃ out, EncodeToString e src = .ok out ∧ out.length = (8 * src.length + 4) / 5 ∧
      out.length ≤ EncodedLen src.length ∧
      (out.length = EncodedLen src.length ↔ src.length % 5 = 0) := by
  refine ⟨_, EncodeToString_eq e src henc, symbols_length _ _ _ _, ?_, ?_⟩
  · rw [symbols_length]; unfold EncodedLen; omega
  · rw [symbols_length]; unfold EncodedLen; omega

theorem C8_encoded_length_witness :
    32 ≤ StdEncoding.encoder.length ∧
    ∃ out, EncodeToString StdEncoding [0x34, 0x5A] = .ok out ∧
      out.length = (8 * [0x34, 0x5A].length + 4) / 5 ∧
      out.length ≤ EncodedLen [0x34, 0x5A].length ∧
      (out.length = EncodedLen [0x34, 0x5A].length ↔ [0x34, 0x5A].length % 5 = 0) :=
  ⟨by decide, C8_encoded_length StdEncoding [0x34, 0x5A] (by decide)⟩

/-- C9: Decoded length bound.  For every handle (any 256-entry table), every
input `src`, valid or not, and every destination of at least
`DecodedLen(len(src))` bytes, `Decode` returns a byte count of at most
`DecodedLen(len(src))`, and so does `DecodeBits` for every `bits >= 0`. -/
theorem C9_decoded_length_bound (e : Encoding) (dst src : List Nat)
    (htab : e.decodeMap.length = 256) (hb : ∀ c ∈ src, c < 256)
    (hroom : DecodedLen src.length ≤ dst.length) :
    (∃ dst1 n err, Decode e dst src = .ok (dst1, n, err) ∧ n ≤ DecodedLen src.length) ∧
    (∀ bits : Int, 0 ≤ bits →
      ∃ dst1 n err, DecodeBits e dst src bits = .ok (dst1, n, err) ∧
        n ≤ DecodedLen src.length) := by
  constructor
  · obtain ⟨dst1, n, err, h, _, _, hn, _⟩ := decodeLoop_basic e src.length htab src.length dst
      src (-1) 0 (Nat.le_refl _) hb (by omega)
    exact ⟨dst1, n, err, h, by omega⟩
  · intro bits hbits
    obtain ⟨dst1, n, err, h, _, _, hn, _⟩ := decodeLoop_basic e src.length htab src.length dst
      src bits 0 (Nat.le_refl _) hb (by omega)
    refine ⟨dst1, n, err, ?_, by omega⟩
    unfold DecodeBits
    rw [if_neg (by omega)]
    exact h

set_option maxRecDepth 1000000 in
theorem C9_decoded_length_bound_witness :
    StdEncoding.decodeMap.length = 256 ∧ (∀ c ∈ ascii "GTPYGTPYF0!", c < 256) ∧
    DecodedLen (ascii "GTPYGTPYF0!").length ≤ (List.replicate 10 0).length ∧
    ((∃ dst1 n err, Decode StdEncoding (List.replicate 10 0) (ascii "GTPYGTPYF0!") =
        .ok (dst1, n, err) ∧ n ≤ DecodedLen (ascii "GTPYGTPYF0!").length) ∧
    (∀ bits : Int, 0 ≤ bits →
      ∃ dst1 n err, DecodeBits StdEncoding (List.replicate 10 0) (ascii "GTPYGTPYF0!") bits =
        .ok (dst1, n, err) ∧ n ≤ DecodedLen (ascii "GTPYGTPYF0!").length)) ∧
    Decode StdEncoding (List.replicate 10 0) (ascii "GTPYGTPYF0!") =
      .ok ([0x34, 0x5A, 0x03, 0x45, 0xA0, 0, 0, 0, 0, 0], 5, some (.corruptInput 10)) ∧
    Decode StdEncoding (List.replicate 4 0) (ascii "GTPYGTPYF0!") = .error .indexOutOfRange :=
  ⟨NewEncoding_length encodeStd, by decide, by decide,
    C9_decoded_length_bound StdEncoding (List.replicate 10 0) (ascii "GTPYGTPYF0!")
      (NewEncoding_length encodeStd) (by decide) (by decide), by decide, by decide⟩

/-- C10: Byte-aligned decode output count follows the fixed table.  For every
handle (any 256-entry table), every input `src` of `n` symbols that the table
accepts and every destination of at least `DecodedLen(n)` bytes, `Decode`
returns no error and the byte count `5*floor(n/8) + T[n mod 8]` with
`T = [0, 1, 1, 2, 2, 3, 4, 4]`. -/
theorem C10_decode_count_table (e : Encoding) (dst src : List Nat)
    (htab : e.decodeMap.length = 256) (hv : ∀ c ∈ src, Valid e c)
    (hroom : DecodedLen src.length ≤ dst.length) :
    ∃ dst1, Decode e dst src =
      .ok (dst1, 5 * (src.length / 8) + [0, 1, 1, 2, 2, 3, 4, 4].getD (src.length % 8) 0,
        none) := by
  obtain ⟨dst1, h⟩ := decodeLoop_count e src.length htab src.length dst src (-1) 0
    (Nat.le_refl _) hv (by omega) (by omega)
  refine ⟨dst1, ?_⟩
  unfold Decode decode
  rw [h, Nat.zero_add]
  rfl

set_option maxRecDepth 100000 in
theorem C10_decode_count_table_witness :
    StdEncoding.decodeMap.length = 256 ∧ (∀ c ∈ ascii "6N9HQ", Valid StdEncoding c) ∧
    DecodedLen (ascii "6N9HQ").length ≤ (List.replicate 5 0).length ∧
    ∃ dst1, Decode StdEncoding (List.replicate 5 0) (ascii "6N9HQ") =
      .ok (dst1, 5 * ((ascii "6N9HQ").length / 8) +
        [0, 1, 1, 2, 2, 3, 4, 4].getD ((ascii "6N9HQ").length % 8) 0, none) :=
  ⟨NewEncoding_length encodeStd, by decide, by decide,
    C10_decode_count_table StdEncoding (List.replicate 5 0) (ascii "6N9HQ")
      (NewEncoding_length encodeStd) (by decide) (by decide)⟩

theorem rawChar_lo (b0 b1 c1 o : Nat) (ho : o < 4) : rawChar b0 b1 o = rawChar b0 c1 o := by
  unfold rawChar
  rw [if_pos ho, if_pos ho]

theorem getD_append_lt (x y : List Nat) (i : Nat) (h : i < x.length) :
    (x ++ y).getD i 0 = x.getD i 0 := by
  simp [List.getD, List.getElem?_append_left h]

/-- The first eight passes read the first five bytes only. -/
theorem symbols8_append (e : Encoding) (x y : List Nat) (h : 5 ≤ x.length) :
    symbols e (x ++ y) (-1) 8 = symbols e x (-1) 8 := by
  unfold symbols
  apply List.map_congr_left
  intro k hk
  have hk8 : k < 8 := List.mem_range.1 hk
  congr 1
  unfold charAt
  rw [encodeChar_eq, encodeChar_eq, if_neg (by omega), if_neg (by omega),
    getD_append_lt x y _ (by omega)]
  by_cases h7 : k = 7
  · subst h7
    exact rawChar_lo _ _ _ _ (by decide)
  · rw [getD_append_lt x y _ (by omega)]

theorem symbols_append (e : Encoding) (m : Nat) :
    ∀ (q : Nat) (x y : List Nat), x.length = 5 * q →
      symbols e (x ++ y) (-1) (8 * q + m) = symbols e x (-1) (8 * q) ++ symbols e y (-1) m := by
  intro q
  induction q with
  | zero =>
    intro x y hx
    have : x = [] := List.eq_nil_of_length_eq_zero (by omega)
    subst this
    simp [symbols]
  | succ q ih =>
    intro x y hx
    rw [show 8 * (q + 1) + m = 8 + (8 * q + m) by omega, show 8 * (q + 1) = 8 + 8 * q by omega,
      symbols_add8, symbols_add8, symbols8_append e x y (by omega),
      List.drop_append_of_le_length (by omega),
      ih (x.drop 5) y (by rw [List.length_drop]; omega), List.append_assoc]

/-- The text of a source whose first part is whole groups is the text of
that part followed by the text of the rest. -/
theorem encoded_append (e : Encoding) (x y : List Nat) (h : x.length % 5 = 0) :
    encoded e (x ++ y) = encoded e x ++ encoded e y := by
  unfold encoded
  have h1 := symbols_append e ((8 * y.length + 4) / 5) (x.length / 5) x y (by omega)
  rw [List.length_append, show (8 * (x.length + y.length) + 4) / 5 =
    8 * (x.length / 5) + (8 * y.length + 4) / 5 by omega, h1,
    show (8 * x.length + 4) / 5 = 8 * (x.length / 5) by omega]

theorem encoded_length (e : Encoding) (x : List Nat) :
    (encoded e x).length = (8 * x.length + 4) / 5 := symbols_length _ _ _ _

theorem encoded_nil (e : Encoding) : encoded e [] = [] := rfl

theorem slice_zero (a : List Nat) (hi : Nat) (h : hi ≤ a.length) : slice a 0 hi = .ok (a.take hi) := by
  simp [slice, h]

theorem slice_to_end (a : List Nat) (lo : Nat) (h : lo ≤ a.length) :
    slice a lo a.length = .ok (a.drop lo) := by
  simp [slice, h]

/-- `flush` against the sink that never fails. -/
theorem flush_bufferSink (e : encoder (List Nat)) (src : List Nat)
    (henc : 32 ≤ e.encoding.encoder.length) (hout : (8 * src.length + 4) / 5 ≤ e.output.length) :
    ∃ output, output.length = e.output.length ∧
      flush bufferSink e src =
        .ok { e with output := output, writer := e.writer ++ encoded e.encoding src,
                     err := none } := by
  refine ⟨splice e.output 0 (encoded e.encoding src),
    splice_length _ _ _ (by rw [encoded_length]; omega), ?_⟩
  unfold flush Encode
  rw [encode_bytes e.encoding e.output src henc hout]
  simp only []
  have hl : (8 * src.length + 4) / 5 ≤ (splice e.output 0 (encoded e.encoding src)).length := by
    rw [splice_length _ _ _ (by rw [encoded_length]; omega)]; exact hout
  have ht := take_splice_zero e.output (encoded e.encoding src)
  rw [encoded_length] at ht
  have hs : symbols e.encoding src (-1) ((8 * src.length + 4) / 5) = encoded e.encoding src := rfl
  rw [hs, slice_zero _ _ hl, ht]
  rfl

theorem fringeLoop_eq : ∀ (p buffer : List Nat) (nb i : Nat), nb ≤ 5 → buffer.length = 5 →
    fringeLoop buffer nb p i =
      .ok (splice buffer nb (p.take (5 - nb)), nb + min p.length (5 - nb), p.drop (5 - nb),
        i + min p.length (5 - nb)) := by
  intro p
  induction p with
  | nil =>
    intro buffer nb i _ _
    simp [fringeLoop, splice_nil]
  | cons b p ih =>
    intro buffer nb i hnb hlen
    by_cases h : nb < 5
    · simp only [fringeLoop, if_pos h]
      rw [store_of_lt _ _ _ (by omega)]
      simp only []
      rw [ih _ (nb + 1) (i + 1) (by omega) (by rw [List.length_set]; exact hlen),
        splice_set _ _ _ _ (by omega)]
      have h5 : 5 - nb = (5 - (nb + 1)) + 1 := by omega
      have h6 : nb + 1 + min p.length (5 - (nb + 1)) = nb + min (p.length + 1) (5 - nb) := by
        omega
      have h7 : i + 1 + min p.length (5 - (nb + 1)) = i + min (p.length + 1) (5 - nb) := by
        omega
      rw [h6, h7, List.length_cons]
      conv_rhs => rw [h5, List.take_succ_cons, List.drop_succ_cons]
      rw [← h5]
    · have h5 : 5 - nb = 0 := by omega
      simp only [fringeLoop, if_neg h, h5, List.take_zero, List.drop_zero, splice_nil,
        Nat.min_zero, Nat.add_zero]

theorem trailLoop_eq : ∀ (p buffer : List Nat) (i : Nat), i + p.length ≤ buffer.length →
    trailLoop buffer p i = .ok (splice buffer i p) := by
  intro p
  induction p with
  | nil =>
    intro buffer i _
    simp [trailLoop, splice_nil]
  | cons b p ih =>
    intro buffer i h
    simp only [List.length_cons] at h
    simp only [trailLoop]
    rw [store_of_lt _ _ _ (by omega)]
    simp only []
    rw [ih _ (i + 1) (by rw [List.length_set]; omega), splice_set _ _ _ _ (by omega)]

/-- The interior loop of `Write` against the sink that never fails: it
encodes and writes the longest head of `p` made of whole groups. -/
theorem interiorLoop_bufferSink (enc : Encoding) (henc : 32 ≤ enc.encoder.length) :
    ∀ (fuel : Nat) (e : encoder (List Nat)) (p : List Nat) (n : Nat) (d : List Nat),
      p.length ≤ fuel → e.encoding = enc → e.err = none → e.output.length = 1024 →
      d.length % 5 = 0 → e.writer = encoded enc d →
      ∃ e1, interiorLoop bufferSink fuel e p n =
          .ok (e1, n + (p.length - p.length % 5), p.drop (p.length - p.length % 5), none) ∧
        e1.encoding = enc ∧ e1.err = none ∧ e1.output.length = 1024 ∧ e1.buffer = e.buffer ∧
        e1.nbuffer = e.nbuffer ∧
        e1.writer = encoded enc (d ++ p.take (p.length - p.length % 5)) := by
  intro fuel
  induction fuel with
  | zero =>
    intro e p n d hf he herr hout hd hw
    have hp : p = [] := List.eq_nil_of_length_eq_zero (by omega)
    subst hp
    exact ⟨e, by simp [interiorLoop], he, herr, hout, rfl, rfl, by simpa using hw⟩
  | succ fuel ih =>
    intro e p n d hf he herr hout hd hw
    by_cases h5 : 5 ≤ p.length
    · simp only [interiorLoop, if_pos h5, hout]
      generalize hnn : (if 1024 / 8 * 5 > p.length then p.length - p.length % 5 else 1024 / 8 * 5)
        = nn
      have hnn1 : nn ≤ p.length ∧ nn % 5 = 0 ∧ 5 ≤ nn ∧ nn ≤ 640 := by
        rw [← hnn]; split <;> omega
      rw [slice_zero p nn hnn1.1]
      simp only []
      obtain ⟨output, hol, hfl⟩ := flush_bufferSink e (p.take nn) (by rw [he]; exact henc)
        (by rw [hout, List.length_take]; omega)
      rw [hfl]
      simp only []
      rw [slice_to_end p nn hnn1.1]
      simp only []
      obtain ⟨e1, h1, h2, h3, h4, h5', h6, h7⟩ := ih
        { e with output := output, writer := e.writer ++ encoded e.encoding (p.take nn),
                 err := none }
        (p.drop nn) (n + nn) (d ++ p.take nn) (by rw [List.length_drop]; omega) he rfl
        (by rw [hol, hout]) (by rw [List.length_append, List.length_take]; omega)
        (by
          show e.writer ++ encoded e.encoding (p.take nn) = encoded enc (d ++ p.take nn)
          rw [hw, he, encoded_append enc d _ hd])
      have hk : p.length - p.length % 5 =
          nn + ((p.drop nn).length - (p.drop nn).length % 5) := by
        rw [List.length_drop]; omega
      refine ⟨e1, ?_, h2, h3, h4, h5', h6, ?_⟩
      · rw [h1, hk, List.drop_drop, Nat.add_assoc]
      · rw [h7, hk, List.append_assoc, List.take_add]
    · have hk : p.length - p.length % 5 = 0 := by
        have := Nat.mod_eq_of_lt (show p.length < 5 by omega)
        omega
      refine ⟨e, ?_, he, herr, hout, rfl, rfl, ?_⟩
      · simp only [interiorLoop, if_neg h5, hk, List.drop_zero, Nat.add_zero]
      · rw [hk, List.take_zero, List.append_nil]; exact hw

theorem writeTail_bufferSink (enc : Encoding) (henc : 32 ≤ enc.encoder.length)
    (e : encoder (List Nat)) (p : List Nat) (n : Nat) (d : List Nat) (he : e.encoding = enc)
    (herr : e.err = none) (hbuf : e.buffer.length = 5) (hout : e.output.length = 1024)
    (hd : d.length % 5 = 0) (hw : e.writer = encoded enc d) :
    ∃ e1, writeTail bufferSink e p n = .ok (e1, n + p.length, none) ∧
      EncInv enc e1 (d ++ p.take (p.length - p.length % 5))
        (p.drop (p.length - p.length % 5)) := by
  obtain ⟨e1, h1, h2, h3, h4, h5, _, h7⟩ := interiorLoop_bufferSink enc henc p.length e p n d
    (Nat.le_refl _) he herr hout hd hw
  have hmod := Nat.mod_le p.length 5
  have hlt : p.length % 5 < 5 := Nat.mod_lt _ (by decide)
  have hl : (p.drop (p.length - p.length % 5)).length = p.length % 5 := by
    rw [List.length_drop]; omega
  have hb1 : e1.buffer.length = 5 := by rw [h5]; exact hbuf
  have hroom : 0 + (p.drop (p.length - p.length % 5)).length ≤ e1.buffer.length := by
    rw [hl, hb1]; omega
  have hcount : n + (p.length - p.length % 5) + (p.drop (p.length - p.length % 5)).length =
      n + p.length := by
    rw [hl]; omega
  refine ⟨{ e1 with buffer := splice e1.buffer 0 (p.drop (p.length - p.length % 5)),
                    nbuffer := (p.drop (p.length - p.length % 5)).length }, ?_, ?_⟩
  · unfold writeTail
    rw [h1]
    simp only []
    rw [trailLoop_eq _ _ _ hroom]
    simp only []
    rw [hcount]
  · refine ⟨h2, h3, ?_, h4, rfl, ?_, ?_, ?_, h7⟩
    · exact (splice_length _ _ _ hroom).trans hb1
    · rw [hl]; exact hlt
    · exact take_splice_zero _ _
    · rw [List.length_append, List.length_take]
      omega

theorem flush_bufferSink_eq (e : encoder (List Nat)) (src : List Nat)
    (henc : 32 ≤ e.encoding.encoder.length) (hout : (8 * src.length + 4) / 5 ≤ e.output.length) :
    flush bufferSink e src =
      .ok { e with output := splice e.output 0 (encoded e.encoding src),
                   writer := e.writer ++ encoded e.encoding src, err := none } := by
  unfold flush Encode
  rw [encode_bytes e.encoding e.output src henc hout]
  simp only []
  have hl : (8 * src.length + 4) / 5 ≤ (splice e.output 0 (encoded e.encoding src)).length := by
    rw [splice_length _ _ _ (by rw [encoded_length]; omega)]; exact hout
  have ht := take_splice_zero e.output (encoded e.encoding src)
  rw [encoded_length] at ht
  have hs : symbols e.encoding src (-1) ((8 * src.length + 4) / 5) = encoded e.encoding src := rfl
  rw [hs, slice_zero _ _ hl, ht]
  rfl

/-- `Write` against the sink that never fails reports the whole chunk and no
error, and keeps the state described by `EncInv`. -/
theorem Write_bufferSink (enc : Encoding) (henc : 32 ≤ enc.encoder.length)
    (e : encoder (List Nat)) (p d f : List Nat) (hinv : EncInv enc e d f) :
    ∃ e1 d1 f1, encoder.Write bufferSink e p = .ok (e1, p.length, none) ∧
      EncInv enc e1 d1 f1 ∧ d1 ++ f1 = d ++ f ++ p := by
  obtain ⟨he, herr, hbuf, hout, hnb, hf5, hbf, hd, hw⟩ := hinv
  obtain ⟨encoding, writer, buffer, nbuffer, output, err⟩ := e
  simp only at he herr hbuf hout hnb hbf hw
  subst he herr hnb
  by_cases h0 : 0 < f.length
  · by_cases hlt : f.length + min p.length (5 - f.length) < 5
    · -- the chunk fits in the fringe
      have hmin : min p.length (5 - f.length) = p.length := by omega
      have htk : p.take (5 - f.length) = p := List.take_of_length_le (by omega)
      have hroom : f.length + p.length ≤ buffer.length := by omega
      refine ⟨{ encoding := encoding, writer := writer, buffer := splice buffer f.length p,
                nbuffer := f.length + p.length, output := output, err := none },
        d, f ++ p, ?_, ?_, by simp⟩
      · unfold encoder.Write
        simp only []
        rw [if_pos h0, fringeLoop_eq p buffer f.length 0 (by omega) hbuf]
        simp only [Nat.zero_add]
        rw [if_pos hlt, hmin, htk]
      · refine ⟨rfl, rfl, ?_, hout, ?_, ?_, ?_, hd, hw⟩
        · exact (splice_length _ _ _ hroom).trans hbuf
        · show f.length + p.length = (f ++ p).length
          rw [List.length_append]
        · rw [List.length_append]; omega
        · show (splice buffer f.length p).take (f ++ p).length = f ++ p
          rw [List.length_append,
            take_splice_add _ _ _ _ (by omega) (Nat.le_refl _), hbf, List.take_length]
    · -- the fringe fills up and is flushed
      have hmin : min p.length (5 - f.length) = 5 - f.length := by omega
      have htl : (p.take (5 - f.length)).length = 5 - f.length := by
        rw [List.length_take]; omega
      have hroom : f.length + (p.take (5 - f.length)).length ≤ buffer.length := by
        rw [htl]; omega
      have hsl : (splice buffer f.length (p.take (5 - f.length))).length = 5 :=
        (splice_length _ _ _ hroom).trans hbuf
      have hfull : splice buffer f.length (p.take (5 - f.length)) =
          f ++ p.take (5 - f.length) := by
        have h1 := take_splice_add buffer f.length (p.take (5 - f.length))
          (p.take (5 - f.length)).length (by omega) (Nat.le_refl _)
        rw [List.take_length, hbf] at h1
        rw [← h1]
        exact (List.take_of_length_le (by rw [hsl, htl]; omega)).symm
      obtain ⟨e1, h1, h2⟩ := writeTail_bufferSink encoding henc
        { encoding := encoding,
          writer := writer ++ encoded encoding (splice buffer f.length (p.take (5 - f.length))),
          buffer := splice buffer f.length (p.take (5 - f.length)),
          nbuffer := 0, output := splice output 0
            (encoded encoding (splice buffer f.length (p.take (5 - f.length)))),
          err := none }
        (p.drop (5 - f.length)) (min p.length (5 - f.length))
        (d ++ (f ++ p.take (5 - f.length))) rfl rfl hsl
        ((splice_length _ _ _ (by rw [encoded_length, hsl, hout]; decide)).trans hout)
        (by rw [List.length_append, List.length_append, htl]; omega)
        (by
          show writer ++ encoded encoding (splice buffer f.length (p.take (5 - f.length))) = _
          rw [hw, hfull, encoded_append encoding d _ hd])
      have hcount : min p.length (5 - f.length) + (p.drop (5 - f.length)).length =
          p.length := by
        rw [List.length_drop]; omega
      rw [hcount] at h1
      refine ⟨e1, _, _, ?_, h2, ?_⟩
      · unfold encoder.Write
        simp only []
        rw [if_pos h0, fringeLoop_eq p buffer f.length 0 (by omega) hbuf]
        simp only [Nat.zero_add]
        rw [if_neg hlt, flush_bufferSink_eq _ _ henc (by
          show _ ≤ output.length
          rw [hout, hsl]; decide)]
        simp only []
        exact h1
      · simp only [List.append_assoc, List.take_append_drop]
  · have hf0 : f = [] := List.eq_nil_of_length_eq_zero (by omega)
    obtain ⟨e1, h1, h2⟩ := writeTail_bufferSink encoding henc
      { encoding := encoding, writer := writer, buffer := buffer, nbuffer := f.length,
        output := output, err := none } p 0 d rfl rfl hbuf hout hd hw
    rw [Nat.zero_add] at h1
    refine ⟨e1, _, _, ?_, h2, ?_⟩
    · unfold encoder.Write
      simp only []
      rw [if_neg h0]
      exact h1
    · rw [hf0, List.append_nil, List.append_assoc, List.take_append_drop]

/-- `Close` against the sink that never fails returns no error and leaves
the text of everything written in the sink. -/
theorem Close_bufferSink (enc : Encoding) (henc : 32 ≤ enc.encoder.length)
    (e : encoder (List Nat)) (d f : List Nat) (hinv : EncInv enc e d f) :
    ∃ e1, encoder.Close bufferSink e = .ok (e1, none) ∧ e1.writer = encoded enc (d ++ f) := by
  obtain ⟨he, herr, hbuf, hout, hnb, hf5, hbf, hd, hw⟩ := hinv
  unfold encoder.Close
  by_cases h0 : 0 < e.nbuffer
  · rw [if_pos ⟨herr, h0⟩, slice_zero _ _ (by omega)]
    simp only []
    obtain ⟨output, _, hfl⟩ := flush_bufferSink e (e.buffer.take e.nbuffer)
      (by rw [he]; exact henc) (by rw [hout, List.length_take]; omega)
    rw [hfl]
    refine ⟨_, rfl, ?_⟩
    show e.writer ++ encoded e.encoding (e.buffer.take e.nbuffer) = _
    rw [hw, he, hnb, hbf, encoded_append enc d f hd]
  · rw [if_neg (by intro h; exact h0 h.2)]
    have hf0 : f = [] := List.eq_nil_of_length_eq_zero (by omega)
    exact ⟨e, by rw [herr], by rw [hf0, List.append_nil]; exact hw⟩

theorem writeChunks_bufferSink (enc : Encoding) (henc : 32 ≤ enc.encoder.length) :
    ∀ (chunks : List (List Nat)) (e : encoder (List Nat)) (d f : List Nat), EncInv enc e d f →
      ∃ e1 d1 f1, writeChunks bufferSink e chunks =
          .ok (e1, chunks.map (fun c => (c.length, none))) ∧
        EncInv enc e1 d1 f1 ∧ d1 ++ f1 = d ++ f ++ chunks.flatten := by
  intro chunks
  induction chunks with
  | nil =>
    intro e d f hinv
    exact ⟨e, d, f, rfl, hinv, by simp⟩
  | cons p ps ih =>
    intro e d f hinv
    obtain ⟨e1, d1, f1, h1, h2, h3⟩ := Write_bufferSink enc henc e p d f hinv
    obtain ⟨e2, d2, f2, h4, h5, h6⟩ := ih e1 d1 f1 h2
    refine ⟨e2, d2, f2, ?_, h5, ?_⟩
    · simp only [writeChunks, h1, h4, List.map_cons]
    · rw [h6, h3, List.flatten_cons]
      simp only [List.append_assoc]

/-- C6: Streaming Encoder equivalence.  For every handle with at least 32
alphabet symbols and every sequence of chunks, writing the chunks in order
to a fresh encoder over a sink that never fails and then calling `Close`
returns without error, every `Write` reports `n = len(chunk)` and no error,
and the sink ends up holding exactly `EncodeToString` of the concatenated
chunks. -/
theorem C6_streaming_encoder_equivalence (enc : Encoding) (chunks : List (List Nat))
    (henc : 32 ≤ enc.encoder.length) :
    ∃ e1 e2, writeChunks bufferSink (NewEncoder enc []) chunks =
        .ok (e1, chunks.map (fun c => (c.length, none))) ∧
      encoder.Close bufferSink e1 = .ok (e2, none) ∧
      EncodeToString enc chunks.flatten = .ok e2.writer := by
  have hinit : EncInv enc (NewEncoder enc ([] : List Nat)) [] [] :=
    ⟨rfl, rfl, List.length_replicate _ _, List.length_replicate _ _, rfl, by decide, rfl, rfl,
      rfl⟩
  obtain ⟨e1, d1, f1, h1, h2, h3⟩ := writeChunks_bufferSink enc henc chunks _ [] [] hinit
  obtain ⟨e2, h4, h5⟩ := Close_bufferSink enc henc e1 d1 f1 h2
  refine ⟨e1, e2, h1, h4, ?_⟩
  rw [EncodeToString_eq enc _ henc, h5, h3]
  rfl

theorem C6_streaming_encoder_equivalence_witness :
    32 ≤ StdEncoding.encoder.length ∧
    ∃ e1 e2, writeChunks bufferSink (NewEncoder StdEncoding []) [[0x34], [0x5A]] =
        .ok (e1, [[0x34], [0x5A]].map (fun c => (c.length, none))) ∧
      encoder.Close bufferSink e1 = .ok (e2, none) ∧
      EncodeToString StdEncoding [[0x34], [0x5A]].flatten = .ok e2.writer :=
  ⟨by decide, C6_streaming_encoder_equivalence StdEncoding [[0x34], [0x5A]] (by decide)⟩

theorem splice_zero_eq (dst syms : List Nat) : splice dst 0 syms = syms ++ dst.drop syms.length := by
  simp [splice]

theorem load_splice_zero_ge (dst syms : List Nat) (j : Nat) (h : syms.length ≤ j) :
    load (splice dst 0 syms) j = load dst j := by
  unfold load
  rw [splice_zero_eq, List.getElem?_append_right h, List.getElem?_drop]
  congr 2
  omega

/-- The compaction loop of `Read` moves the `k` bytes that follow the first
`m` to the front of the buffer. -/
theorem compactLoop_eq (m : Nat) (orig : List Nat) :
    ∀ (k i : Nat), m + i + k ≤ orig.length →
      compactLoop m k i (splice orig 0 ((orig.drop m).take i)) =
        .ok (splice orig 0 ((orig.drop m).take (i + k))) := by
  intro k
  induction k with
  | zero => intro i _; rfl
  | succ k ih =>
    intro i h
    have hli : ((orig.drop m).take i).length = i := by
      rw [List.length_take, List.length_drop]; omega
    have hlt : m + i < orig.length := by omega
    simp only [compactLoop]
    rw [load_splice_zero_ge _ _ _ (by rw [hli]; omega), load_of_lt _ _ hlt]
    simp only []
    rw [store_of_lt _ _ _ (by rw [splice_length _ _ _ (by rw [hli]; omega)]; omega)]
    simp only []
    have hset := splice_set_end orig 0 (orig.getD (m + i) 0) ((orig.drop m).take i)
      (by rw [hli]; omega)
    rw [hli, Nat.zero_add] at hset
    have htk : (orig.drop m).take i ++ [orig.getD (m + i) 0] = (orig.drop m).take (i + 1) := by
      rw [List.take_succ, List.getElem?_drop, List.getElem?_eq_getElem hlt]
      simp [List.getD, List.getElem?_eq_getElem hlt]
    rw [hset, htk, ih (i + 1) (by omega), Nat.add_assoc, Nat.add_comm 1 k]

theorem compactLoop_front (m k : Nat) (orig : List Nat) (h : m + k ≤ orig.length) :
    ∃ buffer, compactLoop m k 0 orig = .ok buffer ∧ buffer.length = orig.length ∧
      buffer.take k = (orig.drop m).take k := by
  have h0 := compactLoop_eq m orig k 0 (by omega)
  rw [List.take_zero, splice_nil, Nat.zero_add] at h0
  have hl : ((orig.drop m).take k).length = k := by
    rw [List.length_take, List.length_drop]; omega
  refine ⟨_, h0, splice_length _ _ _ (by rw [hl]; omega), ?_⟩
  have := take_splice_zero orig ((orig.drop m).take k)
  rw [hl] at this
  exact this

theorem drainLoop_stop {σ : Type} (fuel : Nat) (d : decoder σ) (p : List Nat) (n : Nat)
    (h : ¬ (n < p.length ∧ 0 < d.nbuffer)) : drainLoop fuel d p n = .ok (d, p, n) := by
  cases fuel <;> simp only [drainLoop, if_neg h]

theorem goMin_eq (a b : Nat) : goMin a b = min a b := by
  unfold goMin
  split <;> omega

/-- The copy loop of `Read` over a buffer that holds the pending bytes
`pend`: it hands over the first `min(len(p), len(pend))` of them and keeps
the rest at the front of the buffer. -/
theorem drainLoop_eq {σ : Type} (d : decoder σ) (p pend : List Nat)
    (hnb : d.nbuffer = pend.length) (hbuf : pend.length ≤ d.buffer.length)
    (htk : d.buffer.take pend.length = pend) :
    ∃ d1 p1, drainLoop d.nbuffer d p 0 = .ok (d1, p1, min p.length pend.length) ∧
      p1.take (min p.length pend.length) = pend.take (min p.length pend.length) ∧
      d1.encoding = d.encoding ∧ d1.reader = d.reader ∧ d1.eof = d.eof ∧
      d1.buffer.length = d.buffer.length ∧
      d1.nbuffer = (pend.drop (min p.length pend.length)).length ∧
      d1.buffer.take (pend.drop (min p.length pend.length)).length =
        pend.drop (min p.length pend.length) := by
  by_cases hc : 0 < p.length ∧ 0 < d.nbuffer
  · obtain ⟨fuel, hfuel⟩ : ∃ fuel, d.nbuffer = fuel + 1 := ⟨d.nbuffer - 1, by omega⟩
    have hsrc : d.buffer.take (min pend.length p.length) = pend.take (min pend.length p.length) := by
      have h1 : (d.buffer.take pend.length).take (min pend.length p.length) =
          d.buffer.take (min pend.length p.length) := by
        rw [List.take_take]; congr 1; omega
      rw [htk] at h1
      exact h1.symm
    have hm : min (p.length - 0) (pend.take (min pend.length p.length)).length =
        min p.length pend.length := by
      rw [List.length_take]; omega
    have htt : (pend.take (min pend.length p.length)).take (min p.length pend.length) =
        pend.take (min p.length pend.length) := by
      rw [List.take_take]; congr 1; omega
    have hpl : (pend.take (min p.length pend.length)).length = min p.length pend.length := by
      rw [List.length_take]; omega
    obtain ⟨buffer, hcl, hcl2, hcl3⟩ := compactLoop_front (min p.length pend.length)
      (pend.length - min p.length pend.length) d.buffer (by omega)
    have hdl : (pend.drop (min p.length pend.length)).length =
        pend.length - min p.length pend.length := List.length_drop _ _
    refine ⟨{ d with buffer := buffer, nbuffer := pend.length - min p.length pend.length },
      splice p 0 (pend.take (min p.length pend.length)), ?_, ?_, rfl, rfl, rfl, hcl2, ?_, ?_⟩
    · rw [hfuel]
      simp only [drainLoop]
      rw [if_pos hc, goMin_eq, hnb, slice_zero _ _ (by omega), hsrc]
      simp only []
      rw [hm, htt, hcl]
      simp only []
      rw [drainLoop_stop _ _ _ _ (by
        intro h
        have h1 := h.1
        have h2 : 0 < pend.length - min p.length pend.length := h.2
        rw [splice_length _ _ _ (by rw [hpl]; omega)] at h1
        omega), Nat.zero_add]
    · have := take_splice_zero p (pend.take (min p.length pend.length))
      rw [hpl] at this
      exact this
    · exact hdl.symm
    · show buffer.take (pend.drop (min p.length pend.length)).length = _
      have h1 := congrArg (List.drop (min p.length pend.length)) htk
      rw [List.drop_take] at h1
      rw [hdl, hcl3]
      exact h1
  · have hmin : min p.length pend.length = 0 := by omega
    refine ⟨d, p, ?_, ?_, rfl, rfl, rfl, rfl, ?_, ?_⟩
    · rw [drainLoop_stop _ _ _ _ hc, hmin]
    · rw [hmin]; rfl
    · rw [hmin, List.drop_zero]; exact hnb
    · rw [hmin, List.drop_zero]; exact htk

/-- The first 640 symbols of a text are the text of the first 400 bytes, and
the symbols after them are the text of the other bytes. -/
theorem encoded_take640 (e : Encoding) (R : List Nat) :
    (encoded e R).take 640 = encoded e (R.take 400) ∧
      (encoded e R).drop 640 = encoded e (R.drop 400) := by
  by_cases h : 400 ≤ R.length
  · have hl : (R.take 400).length = 400 := by rw [List.length_take]; omega
    have happ := encoded_append e (R.take 400) (R.drop 400) (by rw [hl])
    rw [List.take_append_drop] at happ
    have hel : (encoded e (R.take 400)).length = 640 := by rw [encoded_length, hl]
    rw [happ]
    exact ⟨List.take_left' hel, List.drop_left' hel⟩
  · have h1 : R.take 400 = R := List.take_of_length_le (by omega)
    have h2 : R.drop 400 = [] := List.drop_eq_nil_of_le (by omega)
    have hel : (encoded e R).length ≤ 640 := by rw [encoded_length]; omega
    rw [h1, h2]
    exact ⟨List.take_of_length_le hel, List.drop_eq_nil_of_le hel⟩

/-- `Decode` of the text of `c` into any large enough destination. -/
theorem Decode_encoded (a : List Nat) (ha : Alphabet a) (c dst : List Nat)
    (hb : ∀ b ∈ c, b < 256)
    (hroom : DecodedLen (encoded (NewEncoding a) c).length ≤ dst.length) :
    ∃ dst1, Decode (NewEncoding a) dst (encoded (NewEncoding a) c) = .ok (dst1, c.length, none) ∧
      dst1.take c.length = c ∧ dst1.length = dst.length := by
  rw [encoded_length] at hroom
  obtain ⟨dst1, h1, h2⟩ := decodeLoop_symbols a ha ((8 * c.length + 4) / 5)
    ((8 * c.length + 4) / 5) (8 * c.length) c (-1) dst 0 hb (by omega)
    (fun p hp => bitAt_past c p hp) (Or.inl ⟨by omega, rfl⟩) (Nat.le_refl _) (by omega)
  have hv : ∀ x ∈ encoded (NewEncoding a) c, x < 256 := by
    intro x hx
    have := (symbols_valid a ha c (-1) _ x hx).1
    rw [NewEncoding_length] at this
    exact this
  obtain ⟨dst2, n, err, h3, h4, _⟩ := decodeLoop_basic (NewEncoding a)
    ((8 * c.length + 4) / 5) (NewEncoding_length a) ((8 * c.length + 4) / 5) dst
    (encoded (NewEncoding a) c) (-1) 0 (by rw [encoded_length]) hv
    (by rw [encoded_length]; omega)
  have heq : symbols (NewEncoding a) c (-1) ((8 * c.length + 4) / 5) =
      encoded (NewEncoding a) c := rfl
  rw [heq] at h1
  rw [h1] at h3
  simp only [Except.ok.injEq, Prod.mk.injEq] at h3
  refine ⟨dst1, ?_, ?_, ?_⟩
  · unfold Decode decode
    rw [encoded_length, h1, Nat.zero_add]
  · simpa using h2
  · rw [h3.1]; exact h4

theorem encoded_ne_nil (e : Encoding) (R : List Nat) (h : R ≠ []) : encoded e R ≠ [] := by
  intro h1
  have h2 := encoded_length e R
  rw [h1] at h2
  have : 0 < R.length := List.length_pos.2 h
  simp at h2
  omega

/-- The refill block of `Read` when nothing is pending and text is left. -/
theorem fill_textSource (a : List Nat) (ha : Alphabet a) (d : decoder (List Nat))
    (R : List Nat) (hR : R ≠ []) (hinv : DecInv a d R []) :
    ∃ d1, decoder.fill textSource d = .ok (d1, none) ∧
      DecInv a d1 (R.drop 400) (R.take 400) := by
  obtain ⟨he, heof, hbuf, hnb, _, _, hrd, hb⟩ := hinv
  obtain ⟨encoding, reader, buffer, nbuffer, eof, err⟩ := d
  simp only at he heof hbuf hnb hrd
  subst he heof hrd
  have hne := encoded_ne_nil (NewEncoding a) R hR
  obtain ⟨h640a, h640b⟩ := encoded_take640 (NewEncoding a) R
  have hbt : ∀ b ∈ R.take 400, b < 256 := fun b hb1 => hb b (List.mem_of_mem_take hb1)
  have hcl : (R.take 400).length ≤ 400 := by rw [List.length_take]; omega
  obtain ⟨dst1, hd1, hd2, hd3⟩ := Decode_encoded a ha (R.take 400) buffer hbt
    (by rw [encoded_length, hbuf]; unfold DecodedLen; omega)
  refine ⟨{ encoding := NewEncoding a, reader := encoded (NewEncoding a) (R.drop 400),
            buffer := dst1, nbuffer := (R.take 400).length, eof := false, err := err },
    ?_, rfl, rfl, by rw [hd3, hbuf], rfl, by omega, hd2, rfl,
    fun b hb1 => hb b (List.mem_of_mem_drop hb1)⟩
  unfold decoder.fill
  simp only [textSource, if_neg hne, h640a, h640b]
  rw [if_pos (by rw [encoded_length]; omega), hd1]

/-- The refill block of `Read` when nothing is pending and the text is
exhausted: the end of the source is recorded. -/
theorem fill_textSource_end (a : List Nat) (d : decoder (List Nat))
    (hinv : DecInv a d [] []) :
    decoder.fill textSource d = .ok ({ d with eof := true }, none) := by
  obtain ⟨he, heof, hbuf, hnb, _, _, hrd, hb⟩ := hinv
  obtain ⟨encoding, reader, buffer, nbuffer, eof, err⟩ := d
  simp only at he heof hbuf hnb hrd
  subst he heof hrd
  simp only [List.length_nil] at hnb
  subst hnb
  unfold decoder.fill
  simp only [textSource, encoded_nil, if_true]
  rfl

/-- `Read` over `textSource` when bytes are pending: it hands over the first
`min(len(p), len(P))` of them and reports no error and no end of stream. -/
theorem Read_pending (a : List Nat) (d : decoder (List Nat)) (R P p : List Nat)
    (hP : P ≠ []) (hp : 0 < p.length) (hinv : DecInv a d R P) :
    ∃ d1 p1, decoder.Read textSource d p = .ok (d1, p1, min p.length P.length, none) ∧
      p1.take (min p.length P.length) = P.take (min p.length P.length) ∧
      DecInv a d1 R (P.drop (min p.length P.length)) := by
  obtain ⟨he, heof, hbuf, hnb, hP1, htk, hrd, hb⟩ := hinv
  have hPl : 0 < P.length := List.length_pos.2 hP
  obtain ⟨d1, p1, h1, h2, h3, h4, h5, h6, h7, h8⟩ := drainLoop_eq d p P hnb (by omega) htk
  refine ⟨d1, p1, ?_, h2, h3.trans he, h5.trans heof, h6.trans hbuf, h7, ?_, h8, h4.trans hrd, hb⟩
  · unfold decoder.Read
    rw [if_neg (by omega)]
    simp only []
    rw [h1]
    simp only []
    rw [if_neg (by rw [h5, heof]; simp)]
  · rw [List.length_drop]; omega

/-- One `Read` over `textSource` with a request of at least one byte: either
nothing is pending and the text is exhausted, and it reports end of stream
with no bytes; or it hands over at least one byte, the next of the stream,
with no error. -/
theorem Read_textSource (a : List Nat) (ha : Alphabet a) (d : decoder (List Nat))
    (R P p : List Nat) (hp : 0 < p.length) (hinv : DecInv a d R P) :
    (P = [] ∧ R = [] ∧ ∃ d1 p1, decoder.Read textSource d p = .ok (d1, p1, 0, some .eof)) ∨
    (∃ d1 p1 n R1 P1, decoder.Read textSource d p = .ok (d1, p1, n, none) ∧
      0 < (p1.take n).length ∧ DecInv a d1 R1 P1 ∧ p1.take n ++ (P1 ++ R1) = P ++ R) := by
  by_cases hP : P = []
  · subst hP
    by_cases hR : R = []
    · subst hR
      left
      refine ⟨rfl, rfl, { d with eof := true }, p, ?_⟩
      have hfill := fill_textSource_end a d hinv
      obtain ⟨_, heof, _, hnb, _, _, _, _⟩ := hinv
      simp only [List.length_nil] at hnb
      unfold decoder.Read
      rw [if_pos ⟨by omega, heof⟩, hfill]
      simp only []
      rw [drainLoop_stop _ _ _ _ (by simp [hnb])]
      simp only []
      rw [if_pos ⟨trivial, hnb⟩]
    · right
      obtain ⟨d1, hfill, hinv1⟩ := fill_textSource a ha d R hR hinv
      have hne : R.take 400 ≠ [] := by
        intro h
        have h1 := congrArg List.length h
        rw [List.length_take, List.length_nil] at h1
        have : 0 < R.length := List.length_pos.2 hR
        omega
      obtain ⟨d2, p1, h1, h2, h3⟩ := Read_pending a d1 (R.drop 400) (R.take 400) p hne hp hinv1
      have hpos : 0 < (p1.take (min p.length (R.take 400).length)).length := by
        have := List.length_pos.2 hne
        rw [h2, List.length_take]
        omega
      refine ⟨d2, p1, _, _, _, ?_, hpos, h3, ?_⟩
      · obtain ⟨_, heof, _, hnb, _, _, _, _⟩ := hinv
        obtain ⟨_, heof1, _, hnb1, _, _, _, _⟩ := hinv1
        simp only [List.length_nil] at hnb
        have hpl : 0 < (R.take 400).length := List.length_pos.2 hne
        unfold decoder.Read at h1 ⊢
        rw [if_neg (by omega)] at h1
        rw [if_pos ⟨by omega, heof⟩, hfill]
        exact h1
      · rw [h2, ← List.append_assoc, List.take_append_drop, List.nil_append,
          List.take_append_drop]
  · right
    obtain ⟨d1, p1, h1, h2, h3⟩ := Read_pending a d R P p hP hp hinv
    have hpos : 0 < (p1.take (min p.length P.length)).length := by
      have := List.length_pos.2 hP
      rw [h2, List.length_take]
      omega
    refine ⟨d1, p1, _, _, _, h1, hpos, h3, ?_⟩
    rw [h2, ← List.append_assoc, List.take_append_drop]

/-- Reading until end of stream over `textSource` delivers the pending
bytes followed by the bytes whose text the source holds. -/
theorem readAll_textSource (a : List Nat) (ha : Alphabet a) (size : Nat) (hsize : 0 < size) :
    ∀ (calls : Nat) (d : decoder (List Nat)) (R P : List Nat), DecInv a d R P →
      P.length + R.length < calls →
      readAll textSource size calls d = .ok (P ++ R, some .eof) := by
  intro calls
  induction calls with
  | zero => intro d R P _ h; omega
  | succ calls ih =>
    intro d R P hinv hcalls
    rcases Read_textSource a ha d R P (List.replicate size 0) (by simpa using hsize) hinv with
      ⟨hP, hR, d1, p1, h1⟩ | ⟨d1, p1, n, R1, P1, h1, hn, hinv1, hcat⟩
    · subst hP hR
      simp only [readAll, h1, List.take_zero, List.append_nil]
    · have hlen := congrArg List.length hcat
      simp only [List.length_append] at hlen
      simp only [readAll, h1]
      rw [ih d1 R1 P1 hinv1 (by omega)]
      simp only []
      rw [hcat]

/-- C7: Streaming Decoder equivalence under chunked reads.  For every handle
built from 32 distinct bytes, every byte buffer `b` and every request size of
at least 1, when the source holds the text `EncodeToString b` and hands over
as many bytes as each source read asks for until it is exhausted, reading
from a fresh decoder with requests of that size until it reports end of
stream (at most `len(b) + 1` calls are needed) delivers exactly `b`, and the
only error reported is the final end of stream. -/
theorem C7_streaming_decoder_equivalence (a : List Nat) (b : List Nat) (size : Nat)
    (ha : Alphabet a) (hb : ∀ x ∈ b, x < 256) (hsize : 1 ≤ size) :
    ∃ s, EncodeToString (NewEncoding a) b = .ok s ∧
      readAll textSource size (b.length + 1) (NewDecoder (NewEncoding a) s) =
        .ok (b, some .eof) := by
  refine ⟨_, EncodeToString_eq _ b (NewEncoding_encoder_length a ha), ?_⟩
  have hinv : DecInv a (NewDecoder (NewEncoding a)
      (symbols (NewEncoding a) b (-1) ((8 * b.length + 4) / 5))) b [] :=
    ⟨rfl, rfl, List.length_replicate _ _, rfl, by decide, rfl, rfl, hb⟩
  have h := readAll_textSource a ha size (by omega) (b.length + 1) _ b [] hinv
    (by simp)
  rw [List.nil_append] at h
  exact h

theorem C7_streaming_decoder_equivalence_witness :
    Alphabet encodeStd ∧ (∀ x ∈ [0x34, 0x5A], x < 256) ∧ 1 ≤ 1 ∧
    ∃ s, EncodeToString (NewEncoding encodeStd) [0x34, 0x5A] = .ok s ∧
      readAll textSource 1 ([0x34, 0x5A].length + 1) (NewDecoder (NewEncoding encodeStd) s) =
        .ok ([0x34, 0x5A], some .eof) :=
  ⟨by decide, by decide, by decide,
    C7_streaming_decoder_equivalence encodeStd [0x34, 0x5A] 1 (by decide) (by decide)
      (by decide)⟩

/-! ## Bit-count mode of `decode` -/

set_option maxRecDepth 1000000 in
/-- C11 (the code at the failing input): with bit count 0, `DecodeBits`
returns the count 1 for nine valid symbols and the count 5 for sixteen, though
both inputs span two groups of eight symbols: after the first group the
remaining-bit counter is negative and the second group is counted by the
symbol-count table. -/
theorem C11_bit_count_falls_back_to_table :
    (ascii "YYYYYYYYY").length = 9 ∧ (ascii "YYYYYYYYYYYYYYYY").length = 16 ∧
    (9 + 7) / 8 = (16 + 7) / 8 ∧
    DecodeBits StdEncoding (List.replicate 10 0) (ascii "YYYYYYYYY") 0 =
      .ok (List.replicate 10 0, 1, none) ∧
    DecodeBits StdEncoding (List.replicate 10 0) (ascii "YYYYYYYYYYYYYYYY") 0 =
      .ok (List.replicate 10 0, 5, none) := by
  decide

/-- C12: A negative bit count is rejected before any input is inspected.  For
every handle, every `bits < 0`, every destination and every input, `DecodeBits`
returns the destination unchanged, the count 0 and the negative-bit-count
error, which is not a `CorruptInputError`; `DecodeBitsString` returns no bytes
and the same error. -/
theorem C12_negative_bit_count_rejected (e : Encoding) (dst src : List Nat) (bits : Int)
    (hbits : bits < 0) :
    DecodeBits e dst src bits = .ok (dst, 0, some .negativeBitCount) ∧
    (∀ k : Int, Error.negativeBitCount ≠ Error.corruptInput k) ∧
    DecodeBitsString e src bits = .ok ([], some .negativeBitCount) := by
  refine ⟨?_, ?_, ?_⟩
  · unfold DecodeBits; rw [if_pos hbits]
  · intro k h; cases h
  · unfold DecodeBitsString; rw [if_pos hbits]

theorem C12_negative_bit_count_rejected_witness :
    (-1 : Int) < 0 ∧
    (DecodeBits StdEncoding [7, 7] (ascii "F00!BAR") (-1) = .ok ([7, 7], 0, some .negativeBitCount) ∧
    (∀ k : Int, Error.negativeBitCount ≠ Error.corruptInput k) ∧
    DecodeBitsString StdEncoding (ascii "F00!BAR") (-1) = .ok ([], some .negativeBitCount)) :=
  ⟨by decide, C12_negative_bit_count_rejected StdEncoding [7, 7] (ascii "F00!BAR") (-1) (by decide)⟩

/-! ## The two shipped alphabets -/

theorem encodeLwr_lower : ∀ v, v < 32 → encodeLwr.getD v 0 = asciiLower (encodeStd.getD v 0) := by
  decide

theorem symbols_lower (src : List Nat) (bits : Int) (m : Nat) :
    symbols LwrEncoding src bits m = (symbols StdEncoding src bits m).map asciiLower := by
  unfold symbols
  rw [List.map_map]
  apply List.map_congr_left
  intro k _
  exact encodeLwr_lower _ (charAt_lt src bits k)

/-- C14: The two handles produce case-foldings of each other.  For every byte
sequence `src`, `EncodeToString` with `LwrEncoding` returns the text of
`StdEncoding` with every symbol ASCII-lower-cased (so the same number of
symbols), and so does `EncodeBitsToString` for every bit count that `src`
holds. -/
theorem C14_handles_are_case_foldings (src : List Nat) :
    (∃ s, EncodeToString StdEncoding src = .ok s ∧
      EncodeToString LwrEncoding src = .ok (s.map asciiLower)) ∧
    (∀ bits : Nat, (bits + 7) / 8 ≤ src.length →
      ∃ s, EncodeBitsToString StdEncoding src (bits : Int) = .ok s ∧
        EncodeBitsToString LwrEncoding src (bits : Int) = .ok (s.map asciiLower)) := by
  have hs : 32 ≤ StdEncoding.encoder.length := by decide
  have hl : 32 ≤ LwrEncoding.encoder.length := by decide
  constructor
  · refine ⟨_, EncodeToString_eq _ src hs, ?_⟩
    rw [EncodeToString_eq _ src hl, symbols_lower]
  · intro bits hbits
    refine ⟨_, EncodeBitsToString_eq _ src bits hs hbits, ?_⟩
    rw [EncodeBitsToString_eq _ src bits hl hbits, symbols_lower]

theorem C14_handles_are_case_foldings_witness :
    (∃ s, EncodeToString StdEncoding [0x34, 0x5A] = .ok s ∧
      EncodeToString LwrEncoding [0x34, 0x5A] = .ok (s.map asciiLower)) ∧
    ((11 + 7) / 8 ≤ [0x34, 0x5A].length ∧
      ∃ s, EncodeBitsToString StdEncoding [0x34, 0x5A] ((11 : Nat) : Int) = .ok s ∧
        EncodeBitsToString LwrEncoding [0x34, 0x5A] ((11 : Nat) : Int) = .ok (s.map asciiLower)) :=
  ⟨(C14_handles_are_case_foldings [0x34, 0x5A]).1,
    by decide, (C14_handles_are_case_foldings [0x34, 0x5A]).2 11 (by decide)⟩

/-! ## The decode table -/

theorem load_ok_iff (t : List Nat) (i v : Nat) : load t i = .ok v ↔ t[i]? = some v := by
  unfold load
  cases h : t[i]? with
  | none => simp
  | some w => simp

/-- C16: Decode table invariant.  For every alphabet of exactly 32 distinct
bytes, the table built by `NewEncoding` has 256 entries, maps `alphabet[i]`
to `i` for every `i` in `0..31`, maps every other byte value to `0xFF`, and
so holds a value in `0..31` at exactly 32 of its entries; and both shipped
alphabets are such alphabets. -/
theorem C16_decode_table_invariant (a : List Nat) (ha : Alphabet a) :
    (NewEncoding a).decodeMap.length = 256 ∧
    (∀ i, i < 32 → (NewEncoding a).decodeMap[a.getD i 0]? = some i) ∧
    (∀ c, c < 256 → c ∉ a → (NewEncoding a).decodeMap[c]? = some 0xFF) ∧
    (NewEncoding a).decodeMap.countP (fun v => v < 32) = 32 ∧
    Alphabet encodeStd ∧ Alphabet encodeLwr := by
  have hlen := NewEncoding_length a
  have hsym : ∀ i, i < 32 → (NewEncoding a).decodeMap[a.getD i 0]? = some i :=
    fun i hi => (load_ok_iff _ _ _).1 (load_sym a ha i hi)
  have hoth : ∀ c, c < 256 → c ∉ a → (NewEncoding a).decodeMap[c]? = some 0xFF :=
    fun c hc hn => (load_ok_iff _ _ _).1 (load_other a c hc hn)
  refine ⟨hlen, hsym, hoth, ?_, encodeStd_alphabet, encodeLwr_alphabet⟩
  generalize ht : (NewEncoding a).decodeMap = t at hlen hsym hoth
  have hmap : t = (List.range 256).map (fun c => t.getD c 0) := by
    apply List.ext_getElem
    · simp [hlen]
    · intro i h1 h2
      simp [List.getD, List.getElem?_eq_getElem h1]
  have hiff : ∀ c ∈ List.range 256, (decide (t.getD c 0 < 32) = true ↔ decide (c ∈ a) = true) := by
    intro c hc
    have hc256 : c < 256 := List.mem_range.1 hc
    simp only [decide_eq_true_eq]
    constructor
    · intro h
      by_contra hn
      have := hoth c hc256 hn
      simp [List.getD, this] at h
    · intro hm
      obtain ⟨i, hi, hEq⟩ := List.getElem_of_mem hm
      have hi32 : i < 32 := by rw [← ha.1]; exact hi
      have hg : a.getD i 0 = c := by simp [List.getD, List.getElem?_eq_getElem hi, hEq]
      have := hsym i hi32
      rw [hg] at this
      simp [List.getD, this, hi32]
  have hperm : ((List.range 256).filter (fun c => decide (c ∈ a))).Perm a := by
    apply (List.perm_ext_iff_of_nodup ((List.nodup_range 256).filter _) ha.2.1).2
    intro x
    simp only [List.mem_filter, List.mem_range, decide_eq_true_eq]
    exact ⟨fun h => h.2, fun h => ⟨ha.2.2 x h, h⟩⟩
  rw [hmap, List.countP_map]
  rw [List.countP_congr (l := List.range 256) (p := (fun v => decide (v < 32)) ∘ fun c => t.getD c 0)
    (q := fun c => decide (c ∈ a)) hiff]
  rw [List.countP_eq_length_filter, hperm.length_eq, ha.1]

theorem C16_decode_table_invariant_witness :
    Alphabet encodeStd ∧
    ((NewEncoding encodeStd).decodeMap.length = 256 ∧
    (∀ i, i < 32 → (NewEncoding encodeStd).decodeMap[encodeStd.getD i 0]? = some i) ∧
    (∀ c, c < 256 → c ∉ encodeStd → (NewEncoding encodeStd).decodeMap[c]? = some 0xFF) ∧
    (NewEncoding encodeStd).decodeMap.countP (fun v => v < 32) = 32 ∧
    Alphabet encodeStd ∧ Alphabet encodeLwr) :=
  ⟨by decide, C16_decode_table_invariant encodeStd (by decide)⟩

/-! ## `encode` over a source that is too short -/

/-- The passes `k .. k+m-1` of the loop of `encode`, when each of them is
made and finds its first byte: the loop goes on from pass `k+m`. -/
theorem encodeLoop_prefix (e : Encoding) (bits : Int) (full : List Nat)
    (henc : 32 ≤ e.encoder.length) :
    ∀ (m fuel k : Nat) (dst : List Nat) (off : Nat),
      (∀ j, k ≤ j → j < k + m → ((5 * j : Nat) : Int) < bits ∧ 5 * j / 8 < full.length) →
      m ≤ fuel → off + m ≤ dst.length →
      encodeLoop e bits fuel dst (full.drop (5 * k / 8)) (5 * k) off =
        encodeLoop e bits (fuel - m)
          (splice dst off ((List.range' k m).map (fun j => e.encoder.getD (charAt full bits j) 0)))
          (full.drop (5 * (k + m) / 8)) (5 * (k + m)) (off + m) := by
  intro m
  induction m with
  | zero =>
    intro fuel k dst off _ _ _
    simp [splice_nil]
  | succ m ih =>
    intro fuel k dst off hpass hfuel hroom
    obtain ⟨fuel, rfl⟩ : ∃ f, fuel = f + 1 := ⟨fuel - 1, by omega⟩
    obtain ⟨hc, hlen⟩ := hpass k (Nat.le_refl _) (by omega)
    have hnext : (if 2 < 5 * k % 8 then full.drop (5 * k / 8 + 1)
        else full.getD (5 * k / 8) 0 :: full.drop (5 * k / 8 + 1)) = full.drop (5 * (k + 1) / 8) := by
      split
      · congr 1; omega
      · rw [← drop_eq_getD_cons full _ hlen]; congr 1; omega
    rw [drop_eq_getD_cons full _ hlen]
    simp only [encodeLoop]
    rw [if_pos (Or.inl hc)]
    simp only [head_drop_getD]
    have hchar : encodeChar (full.getD (5 * k / 8) 0) (full.getD (5 * k / 8 + 1) 0) (5 * k) bits
        < e.encoder.length :=
      Nat.lt_of_lt_of_le (encodeChar_lt _ _ _ _) henc
    rw [load_of_lt _ _ hchar]
    simp only []
    rw [store_of_lt _ _ _ (show off < dst.length by omega)]
    simp only []
    rw [hnext, show 5 * k + 5 = 5 * (k + 1) by ring,
      ih fuel (k + 1) _ (off + 1) (fun j h1 h2 => hpass j (by omega) (by omega)) (by omega)
        (by simp; omega)]
    rw [splice_set _ _ _ _ (by omega)]
    have e1 : fuel + 1 - (m + 1) = fuel - m := by omega
    have e2 : k + 1 + m = k + (m + 1) := by omega
    have e3 : off + 1 + m = off + (m + 1) := by omega
    rw [e1, e2, e3]
    simp [List.range', charAt]

/-- Bit-count `encode` over a source that ends before the last pass: the
pass that finds no byte panics. -/
theorem encode_bits_short (e : Encoding) (dst src : List Nat) (bits : Nat)
    (henc : 32 ≤ e.encoder.length) (hshort : (8 * src.length + 4) / 5 < (bits + 4) / 5)
    (hroom : (8 * src.length + 4) / 5 ≤ dst.length) :
    encode e dst src (bits : Int) = .error .indexOutOfRange := by
  have h := encodeLoop_prefix e (bits : Int) src henc ((8 * src.length + 4) / 5)
    (bits + 8 * src.length) 0 dst 0
    (fun j _ h2 => ⟨by omega, by omega⟩) (by omega) (by omega)
  simp only [Nat.mul_zero, Nat.zero_div, List.drop_zero, Nat.zero_add] at h
  unfold encode
  rw [Int.toNat_ofNat, h, List.drop_eq_nil_of_le (by omega)]
  obtain ⟨f, hf⟩ : ∃ f, bits + 8 * src.length - (8 * src.length + 4) / 5 = f + 1 :=
    ⟨bits + 8 * src.length - (8 * src.length + 4) / 5 - 1, by omega⟩
  rw [hf]
  simp only [encodeLoop]
  rw [if_pos (Or.inl (by omega))]

/-- Bit-count `encode` over a source that holds the first byte of every
pass. -/
theorem encode_bits_enough (e : Encoding) (dst src : List Nat) (bits : Nat)
    (henc : 32 ≤ e.encoder.length) (hsrc : (bits + 4) / 5 ≤ (8 * src.length + 4) / 5)
    (hroom : (bits + 4) / 5 ≤ dst.length) :
    encode e dst src (bits : Int) =
      .ok (splice dst 0 (symbols e src (bits : Int) ((bits + 4) / 5)), (bits + 4) / 5) := by
  have h := encodeLoop_run e (bits : Int) src ((bits + 4) / 5) henc
    (by intro k; simp only [List.length_drop]; omega) (by intro k hk; omega)
    ((bits + 4) / 5) (bits + 8 * src.length) 0 dst 0 (by omega) (by omega) (by omega)
  simp only [Nat.mul_zero, Nat.zero_div, List.drop_zero, Nat.zero_add] at h
  unfold encode symbols
  rw [List.range_eq_range']
  simpa using h

set_option maxRecDepth 1000000 in
/-- C13 fails as stated: 16 bits of the one-byte source `FF` make the third
pass read `src[0]` of an empty slice, and the call panics. -/
theorem C13_encode_bits_short_source_counterexample :
    (0 : Int) ≤ 16 ∧ EncodeBitsToString StdEncoding [0xFF] 16 = .error .indexOutOfRange := by
  decide

/-- C13 (amended): for every handle with at least 32 alphabet symbols and
every source `src`: with a negative bit count `EncodeBitsToString` returns the
empty result; with a bit count `bits >= 0` it completes normally, returning
`ceil(bits/5)` symbols, when `ceil(bits/5) <= ceil(8*len(src)/5)`, which holds
whenever `len(src) >= ceil(bits/8)`; and otherwise it panics on an
out-of-range read of `src`. -/
theorem C13_encode_bits_completes (e : Encoding) (src : List Nat)
    (henc : 32 ≤ e.encoder.length) :
    (∀ bits : Int, bits < 0 → EncodeBitsToString e src bits = .ok []) ∧
    (∀ bits : Nat, (bits + 4) / 5 ≤ (8 * src.length + 4) / 5 →
      ∃ s, EncodeBitsToString e src (bits : Int) = .ok s ∧ s.length = (bits + 4) / 5) ∧
    (∀ bits : Nat, (bits + 7) / 8 ≤ src.length → (bits + 4) / 5 ≤ (8 * src.length + 4) / 5) ∧
    (∀ bits : Nat, (8 * src.length + 4) / 5 < (bits + 4) / 5 →
      EncodeBitsToString e src (bits : Int) = .error .indexOutOfRange) := by
  refine ⟨?_, ?_, ?_, ?_⟩
  · intro bits hbits
    unfold EncodeBitsToString EncodeBits
    rw [if_pos hbits]
    rfl
  · intro bits hbits
    refine ⟨symbols e src (bits : Int) ((bits + 4) / 5), ?_, symbols_length _ _ _ _⟩
    unfold EncodeBitsToString EncodeBits
    rw [if_neg (by omega), encode_bits_enough e _ src bits henc hbits
      (by simp [EncodedLen]; omega)]
    simp only []
    have h := take_splice_zero (List.replicate (EncodedLen src.length) 0)
      (symbols e src (bits : Int) ((bits + 4) / 5))
    rw [symbols_length] at h
    rw [h]
  · intro bits h
    omega
  · intro bits hbits
    unfold EncodeBitsToString EncodeBits
    rw [if_neg (by omega), encode_bits_short e _ src bits henc hbits
      (by simp [EncodedLen]; omega)]

theorem C13_encode_bits_completes_witness :
    32 ≤ StdEncoding.encoder.length ∧
    ((∀ bits : Int, bits < 0 → EncodeBitsToString StdEncoding [0xFF] bits = .ok []) ∧
    (∀ bits : Nat, (bits + 4) / 5 ≤ (8 * [0xFF].length + 4) / 5 →
      ∃ s, EncodeBitsToString StdEncoding [0xFF] (bits : Int) = .ok s ∧
        s.length = (bits + 4) / 5) ∧
    (∀ bits : Nat, (bits + 7) / 8 ≤ [0xFF].length →
      (bits + 4) / 5 ≤ (8 * [0xFF].length + 4) / 5) ∧
    (∀ bits : Nat, (8 * [0xFF].length + 4) / 5 < (bits + 4) / 5 →
      EncodeBitsToString StdEncoding [0xFF] (bits : Int) = .error .indexOutOfRange)) :=
  ⟨by decide, C13_encode_bits_completes StdEncoding [0xFF] (by decide)⟩

/-! ## The two shipped tables under case change -/

theorem asciiSwapCase_big (c : Nat) (h : 256 ≤ c) : asciiSwapCase c = c := by
  unfold asciiSwapCase
  rw [if_neg (by omega), if_neg (by omega)]

theorem asciiSwapCase_lt (c : Nat) (h : c < 256) : asciiSwapCase c < 256 := by
  unfold asciiSwapCase
  split
  · omega
  · split <;> omega

set_option maxRecDepth 1000000 in
theorem swap_std_sym : ∀ i, i < 32 → asciiSwapCase (encodeStd.getD i 0) = encodeLwr.getD i 0 := by
  decide

set_option maxRecDepth 1000000 in
theorem swap_lwr_sym : ∀ i, i < 32 → asciiSwapCase (encodeLwr.getD i 0) = encodeStd.getD i 0 := by
  decide

set_option maxRecDepth 1000000 in
theorem swap_std_other : ∀ c, c < 256 → c ∉ encodeStd → asciiSwapCase c ∉ encodeLwr := by
  decide

set_option maxRecDepth 1000000 in
theorem swap_lwr_other : ∀ c, c < 256 → c ∉ encodeLwr → asciiSwapCase c ∉ encodeStd := by
  decide

theorem load_past (t : List Nat) (c : Nat) (h : t.length ≤ c) :
    load t c = .error .indexOutOfRange := by
  unfold load
  rw [List.getElem?_eq_none h]

/-- Two well-formed alphabets of which the second is the first under a map
of bytes that keeps what is past 255: the table of the second reads at `f c`
what the table of the first reads at `c`. -/
theorem table_mirror (a1 a2 : List Nat) (f : Nat → Nat) (h1 : Alphabet a1) (h2 : Alphabet a2)
    (hlt : ∀ c, c < 256 → f c < 256) (hbig : ∀ c, 256 ≤ c → f c = c)
    (hsym : ∀ i, i < 32 → f (a1.getD i 0) = a2.getD i 0)
    (hoth : ∀ c, c < 256 → c ∉ a1 → f c ∉ a2) (c : Nat) :
    load (NewEncoding a1).decodeMap c = load (NewEncoding a2).decodeMap (f c) := by
  by_cases h : c < 256
  · by_cases hm : c ∈ a1
    · obtain ⟨i, hi, hEq⟩ := List.getElem_of_mem hm
      have hi32 : i < 32 := by rw [← h1.1]; exact hi
      have hg : a1.getD i 0 = c := by simp [List.getD, List.getElem?_eq_getElem hi, hEq]
      rw [← hg, load_sym a1 h1 i hi32, hsym i hi32, load_sym a2 h2 i hi32]
    · rw [load_other a1 c h hm, load_other a2 (f c) (hlt c h) (hoth c h hm)]
  · have h256 : 256 ≤ c := by omega
    have e1 : (NewEncoding a1).decodeMap.length ≤ c := by rw [NewEncoding_length]; exact h256
    have e2 : (NewEncoding a2).decodeMap.length ≤ c := by rw [NewEncoding_length]; exact h256
    rw [hbig c h256, load_past _ _ e1, load_past _ _ e2]

theorem std_table_mirror (c : Nat) :
    load StdEncoding.decodeMap c = load LwrEncoding.decodeMap (asciiSwapCase c) :=
  table_mirror encodeStd encodeLwr asciiSwapCase encodeStd_alphabet encodeLwr_alphabet
    asciiSwapCase_lt asciiSwapCase_big swap_std_sym swap_std_other c

theorem lwr_table_mirror (c : Nat) :
    load LwrEncoding.decodeMap c = load StdEncoding.decodeMap (asciiSwapCase c) :=
  table_mirror encodeLwr encodeStd asciiSwapCase encodeLwr_alphabet encodeStd_alphabet
    asciiSwapCase_lt asciiSwapCase_big swap_lwr_sym swap_lwr_other c

/-- The inner loop of `decode` with a table that reads, at `f c`, what
another table reads at `c`. -/
theorem decodeScan_map (e1 e2 : Encoding) (f : Nat → Nat)
    (h : ∀ c, load e1.decodeMap c = load e2.decodeMap (f c)) (offlen : Nat) :
    ∀ (src : List Nat) (j : Nat) (db : List Nat),
      decodeScan e2 offlen (src.map f) j db =
        match decodeScan e1 offlen src j db with
        | .error fault => .error fault
        | .ok r => .ok (scanMap f r) := by
  intro src
  induction src with
  | nil => intro j db; rfl
  | cons c cs ih =>
    intro j db
    simp only [List.map_cons, decodeScan]
    by_cases hj : j < 8
    · rw [if_pos hj, if_pos hj, ← h c]
      cases hl : load e1.decodeMap c with
      | error fault => rfl
      | ok v =>
        simp only []
        by_cases hv : v = 0xFF
        · rw [if_pos hv, if_pos hv]
          simp [scanMap]
        · rw [if_neg hv, if_neg hv]
          exact ih (j + 1) _
    · rw [if_neg hj, if_neg hj]
      rfl

/-- The outer loop of `decode` with a table that reads, at `f c`, what
another table reads at `c`: it returns for the mapped input what the other
table gives for the input. -/
theorem decodeLoop_map (e1 e2 : Encoding) (f : Nat → Nat)
    (h : ∀ c, load e1.decodeMap c = load e2.decodeMap (f c)) (offlen : Nat) :
    ∀ (fuel : Nat) (dst src : List Nat) (bits : Int) (off : Nat),
      decodeLoop e2 offlen fuel dst (src.map f) bits off =
        decodeLoop e1 offlen fuel dst src bits off := by
  intro fuel
  induction fuel with
  | zero =>
    intro dst src bits off
    cases src with
    | nil => rfl
    | cons c cs => rfl
  | succ fuel ih =>
    intro dst src bits off
    cases src with
    | nil => rfl
    | cons c cs =>
      have hs := decodeScan_map e1 e2 f h offlen (c :: cs) 0 (List.replicate 8 0)
      rw [List.map_cons] at hs ⊢
      simp only [decodeLoop]
      rw [hs]
      cases hr : decodeScan e1 offlen (c :: cs) 0 (List.replicate 8 0) with
      | error fault => rfl
      | ok r =>
        cases r with
        | corrupt k => rfl
        | group j rest db =>
          simp only [scanMap]
          cases hst : decodeStore dst off db with
          | error fault => rfl
          | ok dst1 =>
            simp only []
            by_cases hb : bits < 0
            · rw [if_pos hb, if_pos hb]
              cases hl : load lookup j with
              | error fault => rfl
              | ok l => exact ih _ _ _ _
            · rw [if_neg hb, if_neg hb]
              exact ih _ _ _ _

theorem decodeString_map (e1 e2 : Encoding) (f : Nat → Nat)
    (h : ∀ c, load e1.decodeMap c = load e2.decodeMap (f c)) (s : List Nat) (bits : Int) :
    decodeString e2 (s.map f) bits = decodeString e1 s bits := by
  unfold decodeString decode
  rw [List.length_map, decodeLoop_map e1 e2 f h]

set_option maxRecDepth 1000000 in
/-- C15 fails as stated: `StdEncoding` decodes "GTPY" to `34 5A` and rejects
"gtpy" at its first byte. -/
theorem C15_decode_is_case_sensitive_counterexample :
    DecodeString StdEncoding (ascii "GTPY") = .ok ([0x34, 0x5A], none) ∧
    DecodeString StdEncoding (ascii "gtpy") = .ok ([], some (.corruptInput 0)) := by
  decide

/-- C15 (amended): decoding is case-sensitive and the two shipped handles
mirror each other under case change: for every text `s`, `StdEncoding`
decodes `s` to the same result (the same bytes, or the same error) as
`LwrEncoding` decodes `s` with the case of every ASCII letter swapped, and
`LwrEncoding` decodes `s` to the same result as `StdEncoding` decodes `s`
with the case of every ASCII letter swapped. -/
theorem C15_handles_mirror_under_case_swap (s : List Nat) :
    DecodeString LwrEncoding (s.map asciiSwapCase) = DecodeString StdEncoding s ∧
    DecodeString StdEncoding (s.map asciiSwapCase) = DecodeString LwrEncoding s :=
  ⟨decodeString_map StdEncoding LwrEncoding asciiSwapCase std_table_mirror s (-1),
    decodeString_map LwrEncoding StdEncoding asciiSwapCase lwr_table_mirror s (-1)⟩

/-! ## Partial output of `decode` on corrupt input -/

theorem drop_splice_add (dst : List Nat) (off : Nat) (syms : List Nat) (n : Nat)
    (h : off ≤ dst.length) :
    (splice dst off syms).drop (off + syms.length + n) = dst.drop (off + syms.length + n) := by
  unfold splice
  have hl : (dst.take off ++ syms).length = off + syms.length := by
    rw [List.length_append, List.length_take]; omega
  rw [List.drop_append_eq_append_drop, hl, List.drop_eq_nil_of_le (by omega), List.nil_append,
    List.drop_drop]
  congr 1
  omega

/-- Byte-aligned decoding of an input whose first rejected byte follows the
accepted bytes `good`: the loop returns the error with the count of the whole
groups of `good`, having written what it writes for these groups alone and
nothing past them. -/
theorem decodeLoop_partial (e : Encoding) (offlen : Nat) (htab : e.decodeMap.length = 256)
    (fuel : Nat) (dst src : List Nat) (bits : Int) (off : Nat) (hf : src.length ≤ fuel)
    (hb : ∀ c ∈ src, c < 256) (hroom : off + DecodedLen src.length ≤ dst.length)
    (hbits : bits < 0) (good : List Nat) (bad : Nat) (rest : List Nat)
    (hsrc : src = good ++ bad :: rest) (hgood : ∀ c ∈ good, Valid e c) (hbad : ¬ Valid e bad) :
    ∃ dst1, decodeLoop e offlen fuel dst src bits off =
        .ok (dst1, off + 5 * (good.length / 8),
          some (.corruptInput ((offlen : Int) - (rest.length : Int) - 1))) ∧
      dst1.drop (off + 5 * (good.length / 8)) = dst.drop (off + 5 * (good.length / 8)) ∧
      ∀ offlen2 fuel2, (good.take (8 * (good.length / 8))).length ≤ fuel2 →
        decodeLoop e offlen2 fuel2 dst (good.take (8 * (good.length / 8))) bits off =
          .ok (dst1, off + 5 * (good.length / 8), none) := by
  refine decodeLoop_induct e offlen htab
    (fun dst src bits off r => bits < 0 → ∀ good bad rest, src = good ++ bad :: rest →
      (∀ c ∈ good, Valid e c) → ¬ Valid e bad →
      ∃ dst1, r = .ok (dst1, off + 5 * (good.length / 8),
          some (.corruptInput ((offlen : Int) - (rest.length : Int) - 1))) ∧
        dst1.drop (off + 5 * (good.length / 8)) = dst.drop (off + 5 * (good.length / 8)) ∧
        ∀ offlen2 fuel2, (good.take (8 * (good.length / 8))).length ≤ fuel2 →
          decodeLoop e offlen2 fuel2 dst (good.take (8 * (good.length / 8))) bits off =
            .ok (dst1, off + 5 * (good.length / 8), none))
    ?_ ?_ ?_ fuel dst src bits off hf hb hroom hbits good bad rest hsrc hgood hbad
  · intro dst bits off _ good bad rest h
    simp at h
  · intro dst good0 bad0 rest0 bits off hv0 hlen0 _ hbad0 _ good bad rest h hv hbad
    obtain ⟨g2, h1, h2⟩ := valid_head_split e good0 (bad0 :: rest0) good bad rest h hv0 hbad
    cases g2 with
    | nil =>
      simp only [List.nil_append, List.cons.injEq] at h2
      rw [List.append_nil] at h1
      have hq : good.length / 8 = 0 := by rw [h1]; omega
      refine ⟨dst, ?_, rfl, ?_⟩
      · rw [hq, h2.2, Nat.mul_zero, Nat.add_zero]
      · intro offlen2 fuel2 _
        rw [hq, Nat.mul_zero, List.take_zero, decodeLoop_nil, Nat.add_zero]
    | cons c g2 =>
      simp only [List.cons_append, List.cons.injEq] at h2
      have : Valid e bad0 := h2.1 ▸ hv c (by rw [h1]; simp)
      exact absurd hbad0 this.2
  · intro dst g rest1 bits off r hne hv hg hroom5 ih hbits good bad rest h hvg hbad
    obtain ⟨good1, h1, h2⟩ := valid_head_split e g rest1 good bad rest h hv hbad
    have hg8 : g.length = 8 := by
      rcases hg with h8 | ⟨_, hnil⟩
      · exact h8
      · rw [hnil] at h2
        simp at h2
    have hnb : nextBits bits = bits := by simp [nextBits, hbits]
    have hgc : groupCount bits g.length = 5 := by
      rw [hg8]; simp [groupCount, hbits, lookup]
    rw [hnb, hgc] at ih
    obtain ⟨dst1, hr, hd, hp⟩ := ih hbits good1 bad rest h2
      (fun c hc => hvg c (by rw [h1]; exact List.mem_append_right _ hc)) hbad
    have hq : good.length / 8 = 1 + good1.length / 8 := by
      rw [h1, List.length_append, hg8]; omega
    have hoff : off + 5 * (good.length / 8) = off + 5 + 5 * (good1.length / 8) := by
      rw [hq]; omega
    have htake : good.take (8 * (good.length / 8)) = g ++ good1.take (8 * (good1.length / 8)) := by
      rw [hq, h1, Nat.mul_add, Nat.mul_one, ← hg8, List.take_append]
    have hb5 : (bytes5 (groupBuffer e g)).length = 5 := rfl
    refine ⟨dst1, ?_, ?_, ?_⟩
    · rw [hr, hoff]
    · rw [hoff, hd]
      have := drop_splice_add dst off (bytes5 (groupBuffer e g)) (5 * (good1.length / 8))
        (by omega)
      rw [hb5] at this
      exact this
    · intro offlen2 fuel2 hf2
      rw [htake] at hf2 ⊢
      rw [List.length_append, hg8] at hf2
      obtain ⟨f, rfl⟩ : ∃ f, fuel2 = f + 1 := ⟨fuel2 - 1, by omega⟩
      rw [decodeLoop_step e offlen2 f dst g _ bits off hne hv (Or.inl hg8) hroom5, hnb, hgc, hoff]
      exact hp offlen2 f (by omega)

/-- C17: Partial output on corruption.  For every handle (any 256-entry
table), every input `src` whose first byte that the table rejects is at
index `k`, and every destination of at least `DecodedLen(len(src))` bytes,
`Decode` returns the count `5*floor(k/8)` with `CorruptInputError(k)`; the
destination it leaves is the one `Decode` leaves for the first
`8*floor(k/8)` symbols of `src` alone, which decode to that same count
without error; and the destination is unchanged from position
`5*floor(k/8)` on, so nothing is written for the group of the rejected
byte. -/
theorem C17_partial_output_on_corruption (e : Encoding) (dst src : List Nat) (k : Nat)
    (htab : e.decodeMap.length = 256) (hb : ∀ c ∈ src, c < 256)
    (hroom : DecodedLen src.length ≤ dst.length) (hk : k < src.length)
    (hbad : ¬ Valid e (src.getD k 0)) (hgood : ∀ i, i < k → Valid e (src.getD i 0)) :
    ∃ dst1, Decode e dst src = .ok (dst1, 5 * (k / 8), some (.corruptInput (k : Int))) ∧
      Decode e dst (src.take (8 * (k / 8))) = .ok (dst1, 5 * (k / 8), none) ∧
      dst1.drop (5 * (k / 8)) = dst.drop (5 * (k / 8)) := by
  have hs : src = src.take k ++ src.getD k 0 :: src.drop (k + 1) := by
    rw [← drop_eq_getD_cons src k hk, List.take_append_drop]
  have hlk : (src.take k).length = k := by rw [List.length_take]; omega
  have hg : ∀ c ∈ src.take k, Valid e c := by
    intro c hc
    obtain ⟨i, hi, rfl⟩ := List.getElem_of_mem hc
    rw [hlk] at hi
    have hil : i < src.length := by omega
    have e1 : (src.take k)[i] = src.getD i 0 := by
      rw [List.getElem_take]
      simp [List.getD, List.getElem?_eq_getElem hil]
    rw [e1]
    exact hgood i hi
  obtain ⟨dst1, h1, h2, h3⟩ := decodeLoop_partial e src.length htab src.length dst src (-1) 0
    (Nat.le_refl _) hb (by omega) (by omega) (src.take k) (src.getD k 0) (src.drop (k + 1))
    hs hg hbad
  rw [hlk] at h1 h2 h3
  simp only [Nat.zero_add] at h1 h2 h3
  have htt : (src.take k).take (8 * (k / 8)) = src.take (8 * (k / 8)) := by
    rw [List.take_take, Nat.min_eq_left (by omega)]
  rw [htt] at h3
  have hoff : (src.length : Int) - ((src.drop (k + 1)).length : Int) - 1 = (k : Int) := by
    rw [List.length_drop]; omega
  rw [hoff] at h1
  refine ⟨dst1, ?_, ?_, h2⟩
  · unfold Decode decode
    exact h1
  · unfold Decode decode
    exact h3 _ _ (Nat.le_refl _)

set_option maxRecDepth 1000000 in
theorem C17_partial_output_on_corruption_witness :
    StdEncoding.decodeMap.length = 256 ∧ (∀ c ∈ ascii "GTPYGTPYF0!", c < 256) ∧
    DecodedLen (ascii "GTPYGTPYF0!").length ≤ (List.replicate 10 0).length ∧
    10 < (ascii "GTPYGTPYF0!").length ∧
    ¬ Valid StdEncoding ((ascii "GTPYGTPYF0!").getD 10 0) ∧
    (∀ i, i < 10 → Valid StdEncoding ((ascii "GTPYGTPYF0!").getD i 0)) ∧
    ∃ dst1, Decode StdEncoding (List.replicate 10 0) (ascii "GTPYGTPYF0!") =
        .ok (dst1, 5 * (10 / 8), some (.corruptInput ((10 : Nat) : Int))) ∧
      Decode StdEncoding (List.replicate 10 0) ((ascii "GTPYGTPYF0!").take (8 * (10 / 8))) =
        .ok (dst1, 5 * (10 / 8), none) ∧
      dst1.drop (5 * (10 / 8)) = (List.replicate 10 0).drop (5 * (10 / 8)) :=
  ⟨NewEncoding_length encodeStd, by decide, by decide, by decide, by decide, by decide,
    C17_partial_output_on_corruption StdEncoding (List.replicate 10 0) (ascii "GTPYGTPYF0!") 10
      (NewEncoding_length encodeStd) (by decide) (by decide) (by decide) (by decide) (by decide)⟩

/-! ## The stored error of the streaming encoder -/

/-- An error with which the interior loop of `Write` returns is the stored
error of the encoder it returns. -/
theorem interiorLoop_stores_error {σ : Type} (w : Writer σ) :
    ∀ (fuel : Nat) (e : encoder σ) (p : List Nat) (n : Nat) (e1 : encoder σ) (n1 : Nat)
      (p1 : List Nat) (err : Error),
      interiorLoop w fuel e p n = .ok (e1, n1, p1, some err) → e1.err = some err := by
  intro fuel
  induction fuel with
  | zero =>
    intro e p n e1 n1 p1 err h
    simp only [interiorLoop] at h
    split at h <;> simp at h
  | succ fuel ih =>
    intro e p n e1 n1 p1 err h
    simp only [interiorLoop] at h
    split at h
    · split at h
      · simp at h
      · split at h
        · simp at h
        · rename_i e2 _
          split at h
          · rename_i err2 herr2
            simp only [Except.ok.injEq, Prod.mk.injEq, Option.some.injEq] at h
            rw [← h.1, ← h.2.2.2]
            exact herr2
          · split at h
            · simp at h
            · exact ih _ _ _ _ _ _ _ h
    · simp at h

theorem writeTail_stores_error {σ : Type} (w : Writer σ) (e : encoder σ) (p : List Nat)
    (n : Nat) (e1 : encoder σ) (n1 : Nat) (err : Error)
    (h : writeTail w e p n = .ok (e1, n1, some err)) : e1.err = some err := by
  unfold writeTail at h
  split at h
  · simp at h
  · rename_i e2 n2 p2 err2 hint
    simp only [Except.ok.injEq, Prod.mk.injEq, Option.some.injEq] at h
    rw [← h.1, ← h.2.2]
    exact interiorLoop_stores_error w _ _ _ _ _ _ _ _ hint
  · split at h <;> simp at h

/-- An error that `Write` returns is the stored error of the encoder it
leaves. -/
theorem Write_stores_error {σ : Type} (w : Writer σ) (e : encoder σ) (p : List Nat)
    (e1 : encoder σ) (n : Nat) (err : Error)
    (h : encoder.Write w e p = .ok (e1, n, some err)) : e1.err = some err := by
  unfold encoder.Write at h
  split at h
  · rename_i err0 herr0
    simp only [Except.ok.injEq, Prod.mk.injEq, Option.some.injEq] at h
    rw [← h.1, ← h.2.2]
    exact herr0
  · split at h
    · split at h
      · simp at h
      · simp only at h
        split at h
        · simp at h
        · split at h
          · simp at h
          · rename_i e2 _
            split at h
            · rename_i err2 herr2
              simp only [Except.ok.injEq, Prod.mk.injEq, Option.some.injEq] at h
              rw [← h.1, ← h.2.2]
              exact herr2
            · exact writeTail_stores_error w _ _ _ _ _ _ h
    · exact writeTail_stores_error w _ _ _ _ _ _ h

/-- An error that `Close` returns is the stored error of the encoder it
leaves. -/
theorem Close_stores_error {σ : Type} (w : Writer σ) (e : encoder σ) (e1 : encoder σ)
    (err : Error) (h : encoder.Close w e = .ok (e1, some err)) : e1.err = some err := by
  unfold encoder.Close at h
  split at h
  · split at h
    · simp at h
    · split at h
      · simp at h
      · rename_i e2 _
        simp only [Except.ok.injEq, Prod.mk.injEq] at h
        rw [← h.1]
        exact h.2
  · simp only [Except.ok.injEq, Prod.mk.injEq] at h
    rw [← h.1]
    exact h.2

theorem Write_sticky {σ : Type} (w : Writer σ) (e : encoder σ) (err : Error)
    (herr : e.err = some err) (p : List Nat) : encoder.Write w e p = .ok (e, 0, some err) := by
  unfold encoder.Write
  rw [herr]

theorem Close_sticky {σ : Type} (w : Writer σ) (e : encoder σ) (err : Error)
    (herr : e.err = some err) : encoder.Close w e = .ok (e, some err) := by
  unfold encoder.Close
  rw [if_neg (by rw [herr]; simp), herr]

theorem writeChunks_sticky {σ : Type} (w : Writer σ) (e : encoder σ) (err : Error)
    (herr : e.err = some err) :
    ∀ chunks : List (List Nat),
      writeChunks w e chunks = .ok (e, chunks.map (fun _ => (0, some err))) := by
  intro chunks
  induction chunks with
  | nil => rfl
  | cons p ps ih =>
    simp only [writeChunks, Write_sticky w e err herr p, ih, List.map_cons]

/-- A failed flush stores the error of the sink. -/
theorem flush_stores_error {σ : Type} (w : Writer σ) (e e1 : encoder σ) (src : List Nat)
    (h : flush w e src = .ok e1) :
    ∃ syms, e1.err = (w.write e.writer syms).2 ∧ e1.writer = (w.write e.writer syms).1 := by
  unfold flush at h
  split at h
  · simp at h
  · split at h
    · simp at h
    · rename_i syms _
      simp only [Except.ok.injEq] at h
      exact ⟨syms, by rw [← h], by rw [← h]⟩

/-! ## The streaming decoder and the way the source splits the text -/

set_option maxRecDepth 1000000 in
/-- C19 (the code at the failing input): the text of the bytes `34 5A` is
"GTPY"; a decoder whose source hands the text over one byte per read
delivers `30 88 68 00`, and one whose source hands over three bytes per read
delivers `34 5A 00`, while a source that hands over eight bytes per read
gives `34 5A`: every piece the source hands over is decoded on its own. -/
theorem C19_decoder_depends_on_source_split :
    EncodeToString StdEncoding [0x34, 0x5A] = .ok (ascii "GTPY") ∧
    readAll (chunkedSource 1) 1 10 (NewDecoder StdEncoding (ascii "GTPY")) =
      .ok ([0x30, 0x88, 0x68, 0x00], some .eof) ∧
    readAll (chunkedSource 3) 3 10 (NewDecoder StdEncoding (ascii "GTPY")) =
      .ok ([0x34, 0x5A, 0x00], some .eof) ∧
    readAll (chunkedSource 8) 8 10 (NewDecoder StdEncoding (ascii "GTPY")) =
      .ok ([0x34, 0x5A], some .eof) := by
  decide

/-! ## End of stream in the streaming decoder -/

/-- An error that the inner loop of `decode` leads to is a corrupt-input
error: the loop of `decode` returns no other. -/
theorem decodeLoop_error_kind (e : Encoding) (offlen : Nat) :
    ∀ (fuel : Nat) (dst src : List Nat) (bits : Int) (off : Nat) (dst1 : List Nat) (n : Nat)
      (err : Error),
      decodeLoop e offlen fuel dst src bits off = .ok (dst1, n, some err) →
      ∃ k, err = .corruptInput k := by
  intro fuel
  induction fuel with
  | zero =>
    intro dst src bits off dst1 n err h
    cases src with
    | nil => simp [decodeLoop] at h
    | cons c cs => simp [decodeLoop] at h
  | succ fuel ih =>
    intro dst src bits off dst1 n err h
    cases src with
    | nil => simp [decodeLoop] at h
    | cons c cs =>
      simp only [decodeLoop] at h
      split at h
      · simp at h
      · rename_i k _
        simp only [Except.ok.injEq, Prod.mk.injEq, Option.some.injEq] at h
        exact ⟨k, h.2.2.symm⟩
      · split at h
        · simp at h
        · split at h
          · split at h
            · simp at h
            · exact ih _ _ _ _ _ _ _ h
          · exact ih _ _ _ _ _ _ _ h

/-- An error with which the refill block of `Read` returns is not
`io.EOF`. -/
theorem fill_error_kind {σ : Type} (r : Reader σ) (d d1 : decoder σ) (err : Error)
    (h : decoder.fill r d = .ok (d1, some err)) : err ≠ .eof := by
  have hdec : ∀ (d2 d3 : decoder σ),
      (if (r.read d.reader 640).2.1.length ≤ 640 then
        match Decode d2.encoding d2.buffer (r.read d.reader 640).2.1 with
        | .error f => (.error f : Except Fault (decoder σ × Option Error))
        | .ok (buffer, count, err) => .ok ({ d2 with buffer := buffer, nbuffer := count }, err)
      else .error .indexOutOfRange) = .ok (d3, some err) → err ≠ .eof := by
    intro d2 d3 h2
    split at h2
    · split at h2
      · simp at h2
      · rename_i buffer count err2 hd
        simp only [Except.ok.injEq, Prod.mk.injEq] at h2
        unfold Decode decode at hd
        rw [h2.2] at hd
        obtain ⟨k, hk⟩ := decodeLoop_error_kind _ _ _ _ _ _ _ _ _ _ hd
        rw [hk]
        intro hc
        cases hc
    · simp at h2
  unfold decoder.fill at h
  simp only at h
  split at h
  · exact hdec { d with reader := (r.read d.reader 640).1, eof := true } _ h
  · rename_i err2 hne _
    simp only [Except.ok.injEq, Prod.mk.injEq, Option.some.injEq] at h
    rw [← h.2]
    intro hc
    exact hne (by rw [hc])
  · exact hdec { d with reader := (r.read d.reader 640).1 } _ h

/-- `Read` reports end of stream exactly when it leaves the end-of-source
flag set and no decoded byte pending, unless it returns another error. -/
theorem Read_eof_iff {σ : Type} (r : Reader σ) (d : decoder σ) (p : List Nat) (d1 : decoder σ)
    (p1 : List Nat) (n : Nat) (err : Option Error)
    (h : decoder.Read r d p = .ok (d1, p1, n, err)) (hne : err = none ∨ err = some .eof) :
    err = some .eof ↔ (d1.eof = true ∧ d1.nbuffer = 0) := by
  unfold decoder.Read at h
  split at h
  · simp at h
  · rename_i d2 err2 hfill
    simp only [Except.ok.injEq, Prod.mk.injEq] at h
    have herr : err = some err2 := h.2.2.2.symm
    have hk : err2 ≠ .eof := by
      split at hfill
      · exact fill_error_kind r d d2 err2 hfill
      · simp at hfill
    rcases hne with h0 | h0
    · rw [h0] at herr; cases herr
    · rw [h0] at herr
      simp only [Option.some.injEq] at herr
      exact absurd herr.symm hk
  · split at h
    · simp at h
    · rename_i d3 p3 n3 _
      split at h
      · rename_i hc
        simp only [Except.ok.injEq, Prod.mk.injEq] at h
        rw [← h.1, ← h.2.2.2]
        exact ⟨fun _ => hc, fun _ => rfl⟩
      · rename_i hc
        simp only [Except.ok.injEq, Prod.mk.injEq] at h
        rw [← h.1, ← h.2.2.2]
        exact ⟨fun h2 => (by cases h2), fun h2 => absurd h2 hc⟩

/-- `Read` when nothing is pending, the end of the source has not been seen
and the source answers with zero bytes and no error: it returns zero bytes
and no end of stream. -/
theorem Read_source_idle {σ : Type} (r : Reader σ) (d : decoder σ) (p : List Nat) (s1 : σ)
    (hnb : d.nbuffer = 0) (heof : d.eof = false) (hread : r.read d.reader 640 = (s1, [], none)) :
    decoder.Read r d p =
      .ok ({ d with reader := s1, nbuffer := 0 }, p, 0, none) := by
  have hfill : decoder.fill r d = .ok ({ d with reader := s1, nbuffer := 0 }, none) := by
    unfold decoder.fill
    simp only [hread, List.length_nil, Nat.zero_le, if_true, Decode, decode, decodeLoop]
  unfold decoder.Read
  rw [if_pos ⟨by omega, heof⟩, hfill]
  simp only []
  rw [drainLoop_stop _ _ _ _ (by simp)]
  simp only []
  rw [if_neg (by simp [heof])]

theorem drainLoop_returns {σ : Type} (d : decoder σ) (p : List Nat)
    (h : d.nbuffer ≤ d.buffer.length) :
    ∃ d1 p1 n, drainLoop d.nbuffer d p 0 = .ok (d1, p1, n) := by
  have hl : (d.buffer.take d.nbuffer).length = d.nbuffer := by
    rw [List.length_take]; omega
  obtain ⟨d1, p1, h1, _⟩ := drainLoop_eq d p (d.buffer.take d.nbuffer) hl.symm
    (by rw [hl]; exact h) (by rw [hl])
  exact ⟨d1, p1, _, h1⟩

/-- The refill block of `Read` returns when the table has 256 entries, the
buffer is the 1024-byte array and the source hands over at most the 640
bytes asked for. -/
theorem fill_returns {σ : Type} (r : Reader σ) (d : decoder σ)
    (htab : d.encoding.decodeMap.length = 256) (hbuf : d.buffer.length = 1024)
    (hlen : (r.read d.reader 640).2.1.length ≤ 640)
    (hb : ∀ c ∈ (r.read d.reader 640).2.1, c < 256) :
    ∃ d1 err, decoder.fill r d = .ok (d1, err) ∧
      (err = none → d1.nbuffer ≤ d1.buffer.length) := by
  have hdec : ∀ d2 : decoder σ, d2.encoding = d.encoding → d2.buffer = d.buffer →
      ∃ d1 err,
        (if (r.read d.reader 640).2.1.length ≤ 640 then
          match Decode d2.encoding d2.buffer (r.read d.reader 640).2.1 with
          | .error f => (.error f : Except Fault (decoder σ × Option Error))
          | .ok (buffer, count, err) => .ok ({ d2 with buffer := buffer, nbuffer := count }, err)
        else .error .indexOutOfRange) = .ok (d1, err) ∧
        (err = none → d1.nbuffer ≤ d1.buffer.length) := by
    intro d2 he hbf
    obtain ⟨dst1, n, err, h1, h2, _, h3, _⟩ := decodeLoop_basic d.encoding
      (r.read d.reader 640).2.1.length htab (r.read d.reader 640).2.1.length d.buffer
      (r.read d.reader 640).2.1 (-1) 0 (Nat.le_refl _) hb
      (by rw [hbuf]; unfold DecodedLen; omega)
    refine ⟨{ d2 with buffer := dst1, nbuffer := n }, err, ?_, ?_⟩
    · rw [if_pos hlen, he, hbf]
      unfold Decode decode
      rw [h1]
    · intro _
      show n ≤ dst1.length
      rw [h2, hbuf]
      unfold DecodedLen at h3
      omega
  unfold decoder.fill
  simp only
  split
  · exact hdec { d with reader := (r.read d.reader 640).1, eof := true } rfl rfl
  · exact ⟨_, _, rfl, fun h => by cases h⟩
  · exact hdec { d with reader := (r.read d.reader 640).1 } rfl rfl

/-- `Read` returns when the table has 256 entries, the buffer is the
1024-byte array holding the pending bytes, and the source hands over at most
the 640 bytes asked for. -/
theorem Read_returns {σ : Type} (r : Reader σ) (d : decoder σ) (p : List Nat)
    (htab : d.encoding.decodeMap.length = 256) (hbuf : d.buffer.length = 1024)
    (hnb : d.nbuffer ≤ 1024) (hlen : (r.read d.reader 640).2.1.length ≤ 640)
    (hb : ∀ c ∈ (r.read d.reader 640).2.1, c < 256) :
    ∃ d1 p1 n err, decoder.Read r d p = .ok (d1, p1, n, err) := by
  have hfin : ∀ d1 : decoder σ, d1.nbuffer ≤ d1.buffer.length →
      ∃ d2 p1 n err,
        (match drainLoop d1.nbuffer d1 p 0 with
          | .error f => (.error f : Except Fault (decoder σ × List Nat × Nat × Option Error))
          | .ok (d2, p1, n) =>
            if d2.eof = true ∧ d2.nbuffer = 0 then .ok (d2, p1, n, some .eof)
            else .ok (d2, p1, n, none)) = .ok (d2, p1, n, err) := by
    intro d1 h1
    obtain ⟨d2, p1, n, h2⟩ := drainLoop_returns d1 p h1
    rw [h2]
    simp only []
    split
    · exact ⟨_, _, _, _, rfl⟩
    · exact ⟨_, _, _, _, rfl⟩
  unfold decoder.Read
  by_cases hc : d.nbuffer < 1 ∧ d.eof = false
  · rw [if_pos hc]
    obtain ⟨d1, err, h1, h2⟩ := fill_returns r d htab hbuf hlen hb
    rw [h1]
    cases err with
    | some err => exact ⟨_, _, _, _, rfl⟩
    | none => exact hfin d1 (h2 rfl)
  · rw [if_neg hc]
    exact hfin d (by rw [hbuf]; exact hnb)

/-- C20: End of stream is reported exactly when the source is exhausted and
the internal buffer is drained.  For every source, every decoder state and
every request: a `Read` that returns no decode or I/O error returns end of
stream if and only if it leaves the end-of-source flag set and the count of
undelivered decoded bytes at 0; when nothing is pending, the end of the
source has not been seen and the source answers with zero bytes and no
end-of-source signal, `Read` returns 0 bytes and no end of stream; and `Read`
does return when the table has 256 entries, the buffer is the 1024-byte array
and the source hands over at most the 640 bytes asked for. -/
theorem C20_end_of_stream_exactly {σ : Type} (r : Reader σ) (d : decoder σ) (p : List Nat) :
    (∀ d1 p1 n err, decoder.Read r d p = .ok (d1, p1, n, err) →
      (err = none ∨ err = some .eof) →
      (err = some .eof ↔ (d1.eof = true ∧ d1.nbuffer = 0))) ∧
    (∀ s1, d.nbuffer = 0 → d.eof = false → r.read d.reader 640 = (s1, [], none) →
      decoder.Read r d p = .ok ({ d with reader := s1, nbuffer := 0 }, p, 0, none)) ∧
    (d.encoding.decodeMap.length = 256 → d.buffer.length = 1024 → d.nbuffer ≤ 1024 →
      (r.read d.reader 640).2.1.length ≤ 640 → (∀ c ∈ (r.read d.reader 640).2.1, c < 256) →
      ∃ d1 p1 n err, decoder.Read r d p = .ok (d1, p1, n, err)) :=
  ⟨fun d1 p1 n err h hne => Read_eof_iff r d p d1 p1 n err h hne,
    fun s1 hnb heof hread => Read_source_idle r d p s1 hnb heof hread,
    fun htab hbuf hnb hlen hb => Read_returns r d p htab hbuf hnb hlen hb⟩

set_option maxRecDepth 1000000 in
theorem C20_end_of_stream_exactly_witness :
    (decoder.Read textSource (NewDecoder StdEncoding []) [0] =
        .ok ({ NewDecoder StdEncoding [] with eof := true }, [0], 0, some .eof) ∧
      ((some Error.eof = some .eof) ↔
        (({ NewDecoder StdEncoding ([] : List Nat) with eof := true } : decoder (List Nat)).eof = true ∧
          ({ NewDecoder StdEncoding ([] : List Nat) with eof := true } : decoder (List Nat)).nbuffer = 0))) ∧
    ((NewDecoder StdEncoding (0 : Nat)).nbuffer = 0 ∧ (NewDecoder StdEncoding (0 : Nat)).eof = false ∧
      idleSource.read (NewDecoder StdEncoding (0 : Nat)).reader 640 = (1, [], none) ∧
      decoder.Read idleSource (NewDecoder StdEncoding 0) [0] =
        .ok ({ NewDecoder StdEncoding 0 with reader := 1, nbuffer := 0 }, [0], 0, none)) :=
  ⟨⟨by rfl, (C20_end_of_stream_exactly textSource (NewDecoder StdEncoding []) [0]).1 _ _ _ _
      (by rfl) (Or.inr rfl)⟩,
    rfl, rfl, rfl,
    (C20_end_of_stream_exactly idleSource (NewDecoder StdEncoding 0) [0]).2.1 1 rfl rfl rfl⟩

/-! ## Byte-aligned encoding as bit-count encoding -/

set_option maxRecDepth 1000000 in
theorem mask_last : ∀ o < 8, 4 ≤ o → ∀ x < 32,
    (shl8 x (o - 3) ||| ((0 &&& shl8 255 (11 - o)) >>> (11 - o))) &&& shl8 255 (o - 3) =
      shl8 x (o - 3) ||| ((0 &&& shl8 255 (11 - o)) >>> (11 - o)) := by decide

/-- The mask of the last pass changes nothing when the source ends inside
the symbol: the bits it clears come from the absent next byte. -/
theorem encodeChar_last (b0 i n : Nat) (h1 : i / 8 + 1 = n) (h2 : 8 * n < i + 5) :
    encodeChar b0 0 i ((8 * n : Nat) : Int) = encodeChar b0 0 i (-1) := by
  rw [encodeChar_eq, encodeChar_eq]
  rw [if_pos ⟨by omega, by omega⟩, if_neg (by omega)]
  have ht : ((i : Int) + 5 - ((8 * n : Nat) : Int)).toNat = i % 8 - 3 := by omega
  rw [ht]
  unfold rawChar
  rw [if_neg (by omega)]
  have hc : 31 >>> (i % 8 - 3) ≤ 31 := by
    rw [Nat.shiftRight_eq_div_pow]; exact Nat.div_le_self _ _
  have hx : b0 &&& (31 >>> (i % 8 - 3)) < 32 :=
    Nat.lt_of_le_of_lt Nat.and_le_right (by omega)
  exact mask_last (i % 8) (by omega) (by omega) _ hx

/-- One pass of the loop of `encode` over a source that is not empty. -/
theorem encodeLoop_cons (e : Encoding) (bits : Int) (fuel : Nat) (dst : List Nat) (b0 : Nat)
    (rest : List Nat) (i off : Nat) :
    encodeLoop e bits (fuel + 1) dst (b0 :: rest) i off =
      if (i : Int) < bits ∨ (bits < 0 ∧ 0 < (b0 :: rest).length) then
        match load e.encoder (encodeChar b0 (rest.headD 0) i bits) with
        | .error f => .error f
        | .ok c =>
          match store dst off c with
          | .error f => .error f
          | .ok dst1 =>
            encodeLoop e bits fuel dst1 (if 2 < i % 8 then rest else b0 :: rest) (i + 5) (off + 1)
      else .ok (dst, off) := by
  cases rest <;> rfl

/-- The loop of `encode` makes the same passes in byte-aligned mode and in
bit-count mode with the bit count `8 * n`, `n` the length of the source. -/
theorem encodeLoop_bytes_bits (e : Encoding) (n : Nat) :
    ∀ (fuel1 fuel2 : Nat) (dst src : List Nat) (i off : Nat),
      src.length + i / 8 = n → 8 * n ≤ i + fuel1 → 8 * n ≤ i + fuel2 →
      encodeLoop e (-1) fuel1 dst src i off =
        encodeLoop e ((8 * n : Nat) : Int) fuel2 dst src i off := by
  intro fuel1
  induction fuel1 with
  | zero =>
    intro fuel2 dst src i off hs h1 h2
    have hc1 : ¬ ((i : Int) < -1 ∨ ((-1 : Int) < 0 ∧ 0 < src.length)) := by omega
    have hc2 : ¬ ((i : Int) < ((8 * n : Nat) : Int) ∨
        (((8 * n : Nat) : Int) < 0 ∧ 0 < src.length)) := by omega
    cases fuel2 <;> simp only [encodeLoop, if_neg hc1, if_neg hc2]
  | succ f ih =>
    intro fuel2 dst src i off hs h1 h2
    cases src with
    | nil =>
      simp only [List.length_nil] at hs
      have hc1 : ¬ ((i : Int) < -1 ∨ ((-1 : Int) < 0 ∧ 0 < ([] : List Nat).length)) := by
        simp only [List.length_nil]; omega
      have hc2 : ¬ ((i : Int) < ((8 * n : Nat) : Int) ∨
          (((8 * n : Nat) : Int) < 0 ∧ 0 < ([] : List Nat).length)) := by
        simp only [List.length_nil]; omega
      cases fuel2 <;> simp only [encodeLoop, if_neg hc1, if_neg hc2]
    | cons b0 rest =>
      simp only [List.length_cons] at hs
      have hc1 : (i : Int) < -1 ∨ ((-1 : Int) < 0 ∧ 0 < (b0 :: rest).length) :=
        Or.inr ⟨by omega, by simp⟩
      have hc2 : (i : Int) < ((8 * n : Nat) : Int) ∨
          (((8 * n : Nat) : Int) < 0 ∧ 0 < (b0 :: rest).length) := Or.inl (by omega)
      cases fuel2 with
      | zero => omega
      | succ g =>
        have hch : encodeChar b0 (rest.headD 0) i (-1) =
            encodeChar b0 (rest.headD 0) i ((8 * n : Nat) : Int) := by
          by_cases hlast : 8 * n < i + 5
          · have hr : rest = [] := List.eq_nil_of_length_eq_zero (by omega)
            subst hr
            exact (encodeChar_last b0 i n (by omega) hlast).symm
          · rw [encodeChar_eq, encodeChar_eq, if_neg (by omega), if_neg (by omega)]
        rw [encodeLoop_cons, encodeLoop_cons, if_pos hc1, if_pos hc2, hch]
        cases load e.encoder (encodeChar b0 (rest.headD 0) i ((8 * n : Nat) : Int)) with
        | error f => rfl
        | ok c =>
          simp only []
          cases store dst off c with
          | error f => rfl
          | ok dst1 =>
            simp only []
            apply ih
            · split
              · omega
              · simp only [List.length_cons]; omega
            · omega
            · omega

theorem Encode_eq_EncodeBits (e : Encoding) (dst src : List Nat) :
    Encode e dst src = EncodeBits e dst src ((8 * src.length : Nat) : Int) := by
  unfold Encode EncodeBits encode
  rw [if_neg (by omega)]
  exact encodeLoop_bytes_bits e src.length _ _ dst src 0 0 (by simp) (by omega) (by omega)

/-- C21: Byte-aligned encoding is bit-count encoding with bit count `8*len`.
For every handle, every source `src` and every destination, `Encode` gives
the result of `EncodeBits` with the bit count `8 * len(src)` (the same symbols
written, the same count, or the same panic), and so do the two string forms;
and for every sink and every encoder state, `Close` does what finalizing in
bit-count mode with bit count fringe-length × 8 would do. -/
theorem C21_byte_encoding_is_bit_count_encoding (e : Encoding) (src : List Nat) :
    (∀ dst, Encode e dst src = EncodeBits e dst src ((8 * src.length : Nat) : Int)) ∧
    EncodeToString e src = EncodeBitsToString e src ((8 * src.length : Nat) : Int) ∧
    (∀ (σ : Type) (w : Writer σ) (enc : encoder σ),
      encoder.Close w enc = closeBitCount w enc) := by
  refine ⟨fun dst => Encode_eq_EncodeBits e dst src, ?_, ?_⟩
  · unfold EncodeToString EncodeBitsToString
    rw [Encode_eq_EncodeBits]
  · intro σ w enc
    unfold encoder.Close closeBitCount flush
    split
    · cases hs : slice enc.buffer 0 enc.nbuffer with
      | error f => rfl
      | ok fringe =>
        simp only []
        rw [Encode_eq_EncodeBits]
        cases EncodeBits enc.encoding enc.output fringe ((8 * fringe.length : Nat) : Int) with
        | error f => rfl
        | ok r =>
          obtain ⟨output, m⟩ := r
          simp only []
          cases slice output 0 m with
          | error f => rfl
          | ok syms => rfl
    · rfl

/-! ## Symbol counts of `encode` and the room of the destination -/

theorem encodeLoop_length (e : Encoding) (bits : Int) :
    ∀ (fuel : Nat) (dst src : List Nat) (i off : Nat) (dst1 : List Nat) (n : Nat),
      encodeLoop e bits fuel dst src i off = .ok (dst1, n) → dst1.length = dst.length := by
  intro fuel
  induction fuel with
  | zero =>
    intro dst src i off dst1 n h
    simp only [encodeLoop] at h
    split at h
    · cases h
    · simp only [Except.ok.injEq, Prod.mk.injEq] at h
      rw [← h.1]
  | succ f ih =>
    intro dst src i off dst1 n h
    cases src with
    | nil =>
      simp only [encodeLoop] at h
      split at h
      · cases h
      · simp only [Except.ok.injEq, Prod.mk.injEq] at h
        rw [← h.1]
    | cons b0 rest =>
      rw [encodeLoop_cons] at h
      split at h
      · cases hl : load e.encoder (encodeChar b0 (rest.headD 0) i bits) with
        | error f => rw [hl] at h; cases h
        | ok c =>
          rw [hl] at h
          simp only [] at h
          cases hst : store dst off c with
          | error f => rw [hst] at h; cases h
          | ok dst2 =>
            rw [hst] at h
            simp only [] at h
            have h2 := ih _ _ _ _ _ _ h
            unfold store at hst
            split at hst
            · simp only [Except.ok.injEq] at hst
              rw [h2, ← hst, List.length_set]
            · cases hst
      · simp only [Except.ok.injEq, Prod.mk.injEq] at h
        rw [← h.1]

/-- C23: Exact symbol count of the encoder.  For every handle with at least 32
alphabet symbols, every source `src` of `n` bytes and every destination of at
least `EncodedLen(n)` bytes: `Encode` returns the count `ceil(8*n/5)`, and for
every `bits` with `0 <= bits <= 8*n` `EncodeBits` returns the count
`ceil(bits/5)`; both counts are at most `EncodedLen(n)`; the destination keeps
its length and neither call panics. -/
theorem C23_exact_symbol_count (e : Encoding) (dst src : List Nat)
    (henc : 32 ≤ e.encoder.length) (hroom : EncodedLen src.length ≤ dst.length) :
    (∃ dst1, Encode e dst src = .ok (dst1, (8 * src.length + 4) / 5) ∧
      dst1.length = dst.length) ∧
    (∀ bits : Nat, bits ≤ 8 * src.length →
      ∃ dst1, EncodeBits e dst src (bits : Int) = .ok (dst1, (bits + 4) / 5) ∧
        dst1.length = dst.length ∧ (bits + 4) / 5 ≤ EncodedLen src.length) ∧
    (8 * src.length + 4) / 5 ≤ EncodedLen src.length ∧
    (∃ s, EncodeToString e src = .ok s ∧ s.length = (8 * src.length + 4) / 5) ∧
    (∀ bits : Nat, bits ≤ 8 * src.length →
      ∃ s, EncodeBitsToString e src (bits : Int) = .ok s ∧ s.length = (bits + 4) / 5) := by
  have hcap : (8 * src.length + 4) / 5 ≤ EncodedLen src.length := by
    unfold EncodedLen; omega
  refine ⟨?_, ?_, hcap, ?_, ?_⟩
  · refine ⟨splice dst 0 (symbols e src (-1) ((8 * src.length + 4) / 5)), ?_, ?_⟩
    · unfold Encode
      exact encode_bytes e dst src henc (by omega)
    · exact splice_length _ _ _ (by rw [symbols_length]; omega)
  · intro bits hbits
    have hle : (bits + 4) / 5 ≤ EncodedLen src.length := by omega
    refine ⟨splice dst 0 (symbols e src (bits : Int) ((bits + 4) / 5)), ?_, ?_, hle⟩
    · unfold EncodeBits
      rw [if_neg (by omega)]
      exact encode_bits e dst src bits henc (by omega) (by omega)
    · exact splice_length _ _ _ (by rw [symbols_length]; omega)
  · exact ⟨_, EncodeToString_eq e src henc, symbols_length _ _ _ _⟩
  · intro bits hbits
    exact ⟨_, EncodeBitsToString_eq e src bits henc (by omega), symbols_length _ _ _ _⟩

set_option maxRecDepth 1000000 in
theorem C23_exact_symbol_count_witness :
    32 ≤ StdEncoding.encoder.length ∧
    EncodedLen [0x34, 0x5A].length ≤ (List.replicate 8 0).length ∧
    ((∃ dst1, Encode StdEncoding (List.replicate 8 0) [0x34, 0x5A] =
        .ok (dst1, (8 * [0x34, 0x5A].length + 4) / 5) ∧
      dst1.length = (List.replicate 8 0).length) ∧
    (∀ bits : Nat, bits ≤ 8 * [0x34, 0x5A].length →
      ∃ dst1, EncodeBits StdEncoding (List.replicate 8 0) [0x34, 0x5A] (bits : Int) =
          .ok (dst1, (bits + 4) / 5) ∧
        dst1.length = (List.replicate 8 0).length ∧
        (bits + 4) / 5 ≤ EncodedLen [0x34, 0x5A].length) ∧
    (8 * [0x34, 0x5A].length + 4) / 5 ≤ EncodedLen [0x34, 0x5A].length ∧
    (∃ s, EncodeToString StdEncoding [0x34, 0x5A] = .ok s ∧
      s.length = (8 * [0x34, 0x5A].length + 4) / 5) ∧
    (∀ bits : Nat, bits ≤ 8 * [0x34, 0x5A].length →
      ∃ s, EncodeBitsToString StdEncoding [0x34, 0x5A] (bits : Int) = .ok s ∧
        s.length = (bits + 4) / 5)) :=
  ⟨by decide, by decide,
    C23_exact_symbol_count StdEncoding (List.replicate 8 0) [0x34, 0x5A] (by decide) (by decide)⟩

/-! ## `decode` and the room of the destination -/

set_option maxRecDepth 1000000 in
/-- A short final group is written as five bytes: two symbols count one
byte, and a destination of four bytes is overrun. -/
theorem decode_short_group_writes_five :
    Decode StdEncoding (List.replicate 5 0) (ascii "YY") = .ok (List.replicate 5 0, 1, none) ∧
    Decode StdEncoding (List.replicate 4 0) (ascii "YY") = .error .indexOutOfRange := by
  decide

/-- C24: Decode stays inside its destination.  For every handle (a table of
256 entries), every input `src` and every destination of at least
`DecodedLen(len(src))` bytes, `Decode`, and `DecodeBits` with every
`bits >= 0`, return without an out-of-range access: every write to `dst` and
every table and `lookup` index is in range, the destination keeps its length
and the count is within it; and `decodeString`, which makes the destination
`DecodedLen(len(src))` bytes long, returns for every bit count. -/
theorem C24_decode_stays_in_destination (e : Encoding) (dst src : List Nat)
    (htab : e.decodeMap.length = 256) (hb : ∀ c ∈ src, c < 256)
    (hroom : DecodedLen src.length ≤ dst.length) :
    (∃ dst1 n err, Decode e dst src = .ok (dst1, n, err) ∧ dst1.length = dst.length ∧
      n ≤ dst1.length) ∧
    (∀ bits : Int, 0 ≤ bits →
      ∃ dst1 n err, DecodeBits e dst src bits = .ok (dst1, n, err) ∧
        dst1.length = dst.length ∧ n ≤ dst1.length) ∧
    (∀ bits : Int, ∃ out err, decodeString e src bits = .ok (out, err)) := by
  refine ⟨?_, ?_, ?_⟩
  · obtain ⟨dst1, n, err, h, hl, _, hn, _⟩ := decodeLoop_basic e src.length htab src.length dst
      src (-1) 0 (Nat.le_refl _) hb (by omega)
    exact ⟨dst1, n, err, h, hl, by omega⟩
  · intro bits hbits
    obtain ⟨dst1, n, err, h, hl, _, hn, _⟩ := decodeLoop_basic e src.length htab src.length dst
      src bits 0 (Nat.le_refl _) hb (by omega)
    refine ⟨dst1, n, err, ?_, hl, by omega⟩
    unfold DecodeBits
    rw [if_neg (by omega)]
    exact h
  · intro bits
    obtain ⟨dst1, n, err, h, _, _, _, _⟩ := decodeLoop_basic e src.length htab src.length
      (List.replicate (DecodedLen src.length) 0) src bits 0 (Nat.le_refl _) hb (by simp)
    unfold decodeString decode
    rw [h]
    cases err with
    | none => exact ⟨_, _, rfl⟩
    | some err => exact ⟨_, _, rfl⟩

set_option maxRecDepth 1000000 in
theorem C24_decode_stays_in_destination_witness :
    StdEncoding.decodeMap.length = 256 ∧ (∀ c ∈ ascii "GTPYF0", c < 256) ∧
    DecodedLen (ascii "GTPYF0").length ≤ (List.replicate 5 0).length ∧
    ((∃ dst1 n err, Decode StdEncoding (List.replicate 5 0) (ascii "GTPYF0") =
        .ok (dst1, n, err) ∧ dst1.length = (List.replicate 5 0).length ∧ n ≤ dst1.length) ∧
    (∀ bits : Int, 0 ≤ bits →
      ∃ dst1 n err, DecodeBits StdEncoding (List.replicate 5 0) (ascii "GTPYF0") bits =
          .ok (dst1, n, err) ∧
        dst1.length = (List.replicate 5 0).length ∧ n ≤ dst1.length) ∧
    (∀ bits : Int, ∃ out err, decodeString StdEncoding (ascii "GTPYF0") bits = .ok (out, err))) ∧
    Decode StdEncoding (List.replicate 5 0) (ascii "GTPYF0") =
      .ok ([0x34, 0x5A, 0x02, 0xC0, 0x00], 4, none) ∧
    Decode StdEncoding (List.replicate 4 0) (ascii "GTPYF0") = .error .indexOutOfRange :=
  ⟨NewEncoding_length encodeStd, by decide, by decide,
    C24_decode_stays_in_destination StdEncoding (List.replicate 5 0) (ascii "GTPYF0")
      (NewEncoding_length encodeStd) (by decide) (by decide), by decide, by decide⟩

/-! ## The fringe invariant of the streaming encoder -/

/-- What a returning `flush` leaves of the encoder. -/
theorem flush_fields {σ : Type} (w : Writer σ) (e e1 : encoder σ) (src : List Nat)
    (h : flush w e src = .ok e1) :
    e1.encoding = e.encoding ∧ e1.buffer = e.buffer ∧ e1.nbuffer = e.nbuffer ∧
      e1.output.length = e.output.length ∧ ∃ syms, e1.err = (w.write e.writer syms).2 := by
  unfold flush at h
  split at h
  · cases h
  · rename_i output m henc
    split at h
    · cases h
    · rename_i syms _
      simp only [Except.ok.injEq] at h
      subst h
      refine ⟨rfl, rfl, rfl, ?_, syms, rfl⟩
      unfold Encode encode at henc
      exact encodeLoop_length _ _ _ _ _ _ _ _ _ henc

/-- What a returning interior loop of `Write` leaves of the encoder. -/
theorem interiorLoop_fields {σ : Type} (w : Writer σ) :
    ∀ (fuel : Nat) (e : encoder σ) (p : List Nat) (n : Nat) (e1 : encoder σ) (n1 : Nat)
      (p1 : List Nat) (err : Option Error),
      interiorLoop w fuel e p n = .ok (e1, n1, p1, err) →
      e1.encoding = e.encoding ∧ e1.buffer = e.buffer ∧ e1.nbuffer = e.nbuffer ∧
        e1.output.length = e.output.length ∧ (err = none → p1.length < 5) ∧
        (e1.err = e.err ∨ ∃ s syms, e1.err = (w.write s syms).2) := by
  intro fuel
  induction fuel with
  | zero =>
    intro e p n e1 n1 p1 err h
    simp only [interiorLoop] at h
    split at h
    · cases h
    · simp only [Except.ok.injEq, Prod.mk.injEq] at h
      obtain ⟨rfl, _, rfl, _⟩ := h
      exact ⟨rfl, rfl, rfl, rfl, (fun _ => by omega), Or.inl rfl⟩
  | succ fuel ih =>
    intro e p n e1 n1 p1 err h
    simp only [interiorLoop] at h
    split at h
    · split at h
      · cases h
      · split at h
        · cases h
        · rename_i e2 hfl
          obtain ⟨f1, f2, f3, f4, syms, f5⟩ := flush_fields w _ _ _ hfl
          split at h
          · rename_i err2 herr2
            simp only [Except.ok.injEq, Prod.mk.injEq] at h
            obtain ⟨rfl, _, _, rfl⟩ := h
            exact ⟨f1, f2, f3, f4, (fun hc => by cases hc), Or.inr ⟨_, syms, f5⟩⟩
          · split at h
            · cases h
            · obtain ⟨g1, g2, g3, g4, g5, g6⟩ := ih _ _ _ _ _ _ _ h
              refine ⟨g1.trans f1, g2.trans f2, g3.trans f3, g4.trans f4, g5, ?_⟩
              rcases g6 with g6 | g6
              · exact Or.inr ⟨_, syms, g6.trans f5⟩
              · exact Or.inr g6
    · simp only [Except.ok.injEq, Prod.mk.injEq] at h
      obtain ⟨rfl, _, rfl, _⟩ := h
      exact ⟨rfl, rfl, rfl, rfl, (fun _ => by omega), Or.inl rfl⟩

/-- The part of `Write` after the leading fringe, entered with nothing held,
leaves at most four bytes held. -/
theorem writeTail_fields {σ : Type} (w : Writer σ) (e : encoder σ) (p : List Nat) (n : Nat)
    (e1 : encoder σ) (n1 : Nat) (err : Option Error)
    (h : writeTail w e p n = .ok (e1, n1, err)) (hb : e.buffer.length = 5)
    (hnb : e.nbuffer = 0) :
    e1.encoding = e.encoding ∧ e1.buffer.length = 5 ∧ e1.output.length = e.output.length ∧
      e1.nbuffer ≤ 4 ∧ (e1.err = e.err ∨ ∃ s syms, e1.err = (w.write s syms).2) := by
  unfold writeTail at h
  split at h
  · cases h
  · rename_i e2 n2 p2 err2 hint
    simp only [Except.ok.injEq, Prod.mk.injEq] at h
    obtain ⟨rfl, _, _⟩ := h
    obtain ⟨g1, g2, g3, g4, _, g6⟩ := interiorLoop_fields w _ _ _ _ _ _ _ _ hint
    exact ⟨g1, (by rw [g2, hb]), g4, (by omega), g6⟩
  · rename_i e2 n2 p2 hint
    obtain ⟨g1, g2, g3, g4, g5, g6⟩ := interiorLoop_fields w _ _ _ _ _ _ _ _ hint
    have hp2 := g5 rfl
    rw [trailLoop_eq p2 e2.buffer 0 (by rw [g2, hb]; omega)] at h
    simp only [Except.ok.injEq, Prod.mk.injEq] at h
    obtain ⟨rfl, _, _⟩ := h
    refine ⟨g1, ?_, g4, ?_, g6⟩
    · show (splice e2.buffer 0 p2).length = 5
      rw [splice_length _ _ _ (by rw [g2, hb]; omega), g2, hb]
    · show p2.length ≤ 4
      omega

/-- `Write` keeps the fringe invariant. -/
theorem Write_inv {σ : Type} (w : Writer σ) (enc : Encoding) (e : encoder σ) (p : List Nat)
    (e1 : encoder σ) (n : Nat) (err : Option Error) (hi : FringeInv w enc e)
    (h : encoder.Write w e p = .ok (e1, n, err)) : FringeInv w enc e1 := by
  obtain ⟨i1, i2, i3, i4, i5, i6⟩ := hi
  unfold encoder.Write at h
  split at h
  · simp only [Except.ok.injEq, Prod.mk.injEq] at h
    obtain ⟨rfl, _, _⟩ := h
    exact ⟨i1, i2, i3, i4, i5, i6⟩
  · rename_i hnone
    have hnb := i5 hnone
    have hsp : (splice e.buffer e.nbuffer (p.take (5 - e.nbuffer))).length = 5 := by
      rw [splice_length _ _ _ (by rw [List.length_take]; omega), i2]
    split at h
    · rw [fringeLoop_eq p e.buffer e.nbuffer 0 i4 i2] at h
      simp only [] at h
      split at h
      · simp only [Except.ok.injEq, Prod.mk.injEq] at h
        obtain ⟨rfl, _, _⟩ := h
        exact ⟨i1, hsp, i3, (by show e.nbuffer + min p.length (5 - e.nbuffer) ≤ 5; omega),
          (fun _ => by show e.nbuffer + min p.length (5 - e.nbuffer) ≤ 4; omega),
          Or.inl hnone⟩
      · split at h
        · cases h
        · rename_i e2 hfl
          obtain ⟨f1, f2, f3, f4, syms, f5⟩ := flush_fields w _ _ _ hfl
          split at h
          · rename_i err2 herr2
            simp only [Except.ok.injEq, Prod.mk.injEq] at h
            obtain ⟨rfl, _, _⟩ := h
            refine ⟨f1.trans i1, (by rw [f2]; exact hsp), f4.trans i3, ?_, ?_,
              Or.inr ⟨_, syms, f5⟩⟩
            · rw [f3]; show e.nbuffer + min p.length (5 - e.nbuffer) ≤ 5; omega
            · intro hc; rw [hc] at herr2; cases herr2
          · rename_i hnone2
            obtain ⟨g1, g2, g3, g4, g5⟩ := writeTail_fields w _ _ _ _ _ _ h
              (by show e2.buffer.length = 5; rw [f2]; exact hsp) rfl
            refine ⟨g1.trans (f1.trans i1), g2, g3.trans (f4.trans i3), by omega,
              fun _ => g4, ?_⟩
            rcases g5 with g5 | g5
            · exact Or.inl (g5.trans hnone2)
            · exact Or.inr g5
    · obtain ⟨g1, g2, g3, g4, g5⟩ := writeTail_fields w _ _ _ _ _ _ h i2 (by omega)
      refine ⟨g1.trans i1, g2, g3.trans i3, by omega, fun _ => g4, ?_⟩
      rcases g5 with g5 | g5
      · exact Or.inl (g5.trans hnone)
      · exact Or.inr g5

/-- `Close` keeps the fringe invariant. -/
theorem Close_inv {σ : Type} (w : Writer σ) (enc : Encoding) (e : encoder σ)
    (e1 : encoder σ) (err : Option Error) (hi : FringeInv w enc e)
    (h : encoder.Close w e = .ok (e1, err)) : FringeInv w enc e1 := by
  obtain ⟨i1, i2, i3, i4, i5, i6⟩ := hi
  unfold encoder.Close at h
  split at h
  · split at h
    · cases h
    · split at h
      · cases h
      · rename_i e2 hfl
        obtain ⟨f1, f2, f3, f4, syms, f5⟩ := flush_fields w _ _ _ hfl
        simp only [Except.ok.injEq, Prod.mk.injEq] at h
        obtain ⟨rfl, _⟩ := h
        exact ⟨f1.trans i1, (by show e2.buffer.length = 5; rw [f2, i2]), f4.trans i3,
          Nat.zero_le _, (fun _ => Nat.zero_le _), Or.inr ⟨_, syms, f5⟩⟩
  · simp only [Except.ok.injEq, Prod.mk.injEq] at h
    obtain ⟨rfl, _⟩ := h
    exact ⟨i1, i2, i3, i4, i5, i6⟩

/-- Every reachable state satisfies the fringe invariant. -/
theorem Reachable_inv {σ : Type} (w : Writer σ) (enc : Encoding) (s0 : σ) (e : encoder σ)
    (hr : Reachable w enc s0 e) : FringeInv w enc e := by
  induction hr with
  | fresh =>
    exact ⟨rfl, List.length_replicate _ _, List.length_replicate _ _, Nat.zero_le _,
      (fun _ => Nat.zero_le _), Or.inl rfl⟩
  | write e e1 p n err _ h ih => exact Write_inv w enc e p e1 n err ih h
  | close e e1 err _ h ih => exact Close_inv w enc e e1 err ih h

/-- `flush` returns when the handle has its 32 symbols and the output array
has room for the symbols of `src`. -/
theorem flush_returns {σ : Type} (w : Writer σ) (e : encoder σ) (src : List Nat)
    (henc : 32 ≤ e.encoding.encoder.length)
    (hout : (8 * src.length + 4) / 5 ≤ e.output.length) :
    ∃ e1, flush w e src = .ok e1 := by
  unfold flush Encode
  rw [encode_bytes e.encoding e.output src henc hout]
  simp only []
  rw [slice_zero _ _ (by
    rw [splice_length _ _ _ (by rw [symbols_length]; omega)]; exact hout)]
  exact ⟨_, rfl⟩

theorem interiorLoop_returns {σ : Type} (w : Writer σ) :
    ∀ (fuel : Nat) (e : encoder σ) (p : List Nat) (n : Nat), p.length ≤ fuel →
      32 ≤ e.encoding.encoder.length → e.output.length = 1024 →
      ∃ r, interiorLoop w fuel e p n = .ok r := by
  intro fuel
  induction fuel with
  | zero =>
    intro e p n hf _ _
    simp only [interiorLoop]
    rw [if_neg (by omega)]
    exact ⟨_, rfl⟩
  | succ fuel ih =>
    intro e p n hf henc hout
    by_cases h5 : 5 ≤ p.length
    · simp only [interiorLoop, if_pos h5, hout]
      generalize hnn : (if 1024 / 8 * 5 > p.length then p.length - p.length % 5 else 1024 / 8 * 5)
        = nn
      have hnn1 : nn ≤ p.length ∧ 5 ≤ nn ∧ nn ≤ 640 := by
        rw [← hnn]; split <;> omega
      rw [slice_zero p nn hnn1.1]
      simp only []
      obtain ⟨e1, hfl⟩ := flush_returns w e (p.take nn) henc
        (by rw [hout, List.length_take]; omega)
      obtain ⟨f1, _, _, f4, _⟩ := flush_fields w _ _ _ hfl
      rw [hfl]
      simp only []
      cases herr : e1.err with
      | some err => exact ⟨_, rfl⟩
      | none =>
        simp only []
        rw [slice_to_end p nn hnn1.1]
        simp only []
        exact ih e1 _ _ (by rw [List.length_drop]; omega) (by rw [f1]; exact henc)
          (by rw [f4]; exact hout)
    · simp only [interiorLoop, if_neg h5]
      exact ⟨_, rfl⟩

theorem writeTail_returns {σ : Type} (w : Writer σ) (e : encoder σ) (p : List Nat) (n : Nat)
    (henc : 32 ≤ e.encoding.encoder.length) (hout : e.output.length = 1024)
    (hb : e.buffer.length = 5) :
    ∃ r, writeTail w e p n = .ok r := by
  obtain ⟨⟨e1, n1, p1, err⟩, hint⟩ := interiorLoop_returns w p.length e p n (Nat.le_refl _)
    henc hout
  obtain ⟨_, g2, _, _, g5, _⟩ := interiorLoop_fields w _ _ _ _ _ _ _ _ hint
  unfold writeTail
  rw [hint]
  cases err with
  | some err => exact ⟨_, rfl⟩
  | none =>
    simp only []
    have hp1 := g5 rfl
    rw [trailLoop_eq p1 e1.buffer 0 (by rw [g2, hb]; omega)]
    exact ⟨_, rfl⟩

/-- `Write` returns on every state that satisfies the fringe invariant, when
the handle has its 32 symbols. -/
theorem Write_returns {σ : Type} (w : Writer σ) (enc : Encoding) (e : encoder σ) (p : List Nat)
    (hi : FringeInv w enc e) (henc : 32 ≤ enc.encoder.length) :
    ∃ e1 n err, encoder.Write w e p = .ok (e1, n, err) := by
  obtain ⟨i1, i2, i3, i4, i5, _⟩ := hi
  have hret : ∀ r : Except Fault (encoder σ × Nat × Option Error), (∃ x, r = .ok x) →
      ∃ e1 n err, r = .ok (e1, n, err) := by
    rintro r ⟨⟨e1, n, err⟩, rfl⟩
    exact ⟨e1, n, err, rfl⟩
  unfold encoder.Write
  split
  · exact ⟨_, _, _, rfl⟩
  · rename_i hnone
    have hnb := i5 hnone
    have hsp : (splice e.buffer e.nbuffer (p.take (5 - e.nbuffer))).length = 5 := by
      rw [splice_length _ _ _ (by rw [List.length_take]; omega), i2]
    split
    · rw [fringeLoop_eq p e.buffer e.nbuffer 0 i4 i2]
      simp only []
      split
      · exact ⟨_, _, _, rfl⟩
      · obtain ⟨e2, hfl⟩ := flush_returns w
          { e with buffer := splice e.buffer e.nbuffer (p.take (5 - e.nbuffer)),
                   nbuffer := e.nbuffer + min p.length (5 - e.nbuffer) }
          (splice e.buffer e.nbuffer (p.take (5 - e.nbuffer)))
          (by rw [i1]; exact henc) (by rw [hsp]; show _ ≤ e.output.length; rw [i3]; decide)
        obtain ⟨f1, f2, _, f4, _⟩ := flush_fields w _ _ _ hfl
        have k1 : 32 ≤ e2.encoding.encoder.length := by
          rw [f1]; show 32 ≤ e.encoding.encoder.length; rw [i1]; exact henc
        have k2 : e2.output.length = 1024 := by rw [f4]; exact i3
        have k3 : e2.buffer.length = 5 := by rw [f2]; exact hsp
        rw [hfl]
        simp only []
        split
        · exact ⟨_, _, _, rfl⟩
        · exact hret _ (writeTail_returns w _ _ _ k1 k2 k3)
    · exact hret _ (writeTail_returns w e p 0 (by rw [i1]; exact henc) i3 i2)

/-- `Close` returns on every state that satisfies the fringe invariant, when
the handle has its 32 symbols. -/
theorem Close_returns {σ : Type} (w : Writer σ) (enc : Encoding) (e : encoder σ)
    (hi : FringeInv w enc e) (henc : 32 ≤ enc.encoder.length) :
    ∃ e1 err, encoder.Close w e = .ok (e1, err) := by
  obtain ⟨i1, i2, i3, i4, _, _⟩ := hi
  unfold encoder.Close
  split
  · rw [slice_zero e.buffer e.nbuffer (by omega)]
    simp only []
    obtain ⟨e2, hfl⟩ := flush_returns w e (e.buffer.take e.nbuffer) (by rw [i1]; exact henc)
      (by rw [List.length_take, i3]; omega)
    rw [hfl]
    exact ⟨_, _, rfl⟩
  · exact ⟨_, _, rfl⟩

/-- C22: Fringe invariant of the Streaming Encoder.  For every sink, every
handle and every state reachable from a fresh encoder by `Write` and `Close`
calls: the held-byte count `nbuffer` is at most 5, and at most 4 whenever no
error is stored; no error is stored when the sink never fails; the holding
buffer has its 5 bytes; and, when the handle has its 32 symbols, every `Write`
and `Close` on the state returns, so that no index into the holding buffer is
out of range. -/
theorem C22_fringe_invariant {σ : Type} (w : Writer σ) (enc : Encoding) (s0 : σ)
    (e : encoder σ) (hr : Reachable w enc s0 e) :
    e.nbuffer ≤ 5 ∧ (e.err = none → e.nbuffer ≤ 4) ∧
    ((∀ s syms, (w.write s syms).2 = none) → e.err = none ∧ e.nbuffer ≤ 4) ∧
    e.buffer.length = 5 ∧
    (32 ≤ enc.encoder.length →
      (∀ p, ∃ e1 n err, encoder.Write w e p = .ok (e1, n, err)) ∧
      ∃ e1 err, encoder.Close w e = .ok (e1, err)) := by
  have hi := Reachable_inv w enc s0 e hr
  obtain ⟨_, i2, _, i4, i5, i6⟩ := hi
  refine ⟨i4, i5, ?_, i2, ?_⟩
  · intro hw
    have hnone : e.err = none := by
      rcases i6 with h | ⟨s, syms, h⟩
      · exact h
      · rw [h]; exact hw s syms
    exact ⟨hnone, i5 hnone⟩
  · intro henc
    exact ⟨fun p => Write_returns w enc e p (Reachable_inv w enc s0 e hr) henc,
      Close_returns w enc e (Reachable_inv w enc s0 e hr) henc⟩

theorem C22_fringe_invariant_witness :
    Reachable bufferSink StdEncoding [] heldEncoder ∧
    (heldEncoder.nbuffer ≤ 5 ∧ (heldEncoder.err = none → heldEncoder.nbuffer ≤ 4) ∧
    ((∀ s syms, (bufferSink.write s syms).2 = none) →
      heldEncoder.err = none ∧ heldEncoder.nbuffer ≤ 4) ∧
    heldEncoder.buffer.length = 5 ∧
    (32 ≤ StdEncoding.encoder.length →
      (∀ p, ∃ e1 n err, encoder.Write bufferSink heldEncoder p = .ok (e1, n, err)) ∧
      ∃ e1 err, encoder.Close bufferSink heldEncoder = .ok (e1, err))) :=
  ⟨Reachable.write (NewEncoder StdEncoding []) heldEncoder [1, 2, 3] 3 none Reachable.fresh
      (by rfl),
    C22_fringe_invariant bufferSink StdEncoding [] heldEncoder
      (Reachable.write (NewEncoder StdEncoding []) heldEncoder [1, 2, 3] 3 none Reachable.fresh
        (by rfl))⟩

set_option maxRecDepth 1000000 in
/-- The bound 5 is attained: a `Write` that fills the holding buffer and
whose flush fails returns with five bytes held and the error stored. -/
theorem Write_failed_flush_holds_five :
    ∃ e1, encoder.Write failingSink fringeEncoder [4, 5] = .ok (e1, 2, some (.other 1)) ∧
      e1.nbuffer = 5 ∧ e1.err = some (.other 1) :=
  ⟨_, by rfl, by rfl, by rfl⟩

/-! ## Failed flushes of the streaming encoder -/

/-- The recording sink answers as the sink it records, moves the state of
that sink as it does, and adds each answer to the record. -/
theorem recordingSink_write {σ : Type} (w : Writer σ) (s : σ × List (Option Error))
    (syms : List Nat) :
    ((recordingSink w).write s syms).2 = (w.write s.1 syms).2 ∧
    ((recordingSink w).write s syms).1.1 = (w.write s.1 syms).1 ∧
    ((recordingSink w).write s syms).1.2 = s.2 ++ [((recordingSink w).write s syms).2] :=
  ⟨rfl, rfl, rfl⟩

/-- A flush adds the answer of the sink, which it stores, to the record of
the sink. -/
theorem flush_log {σ : Type} (w : Writer σ) (log : σ → List (Option Error))
    (hlog : ∀ s syms, log (w.write s syms).1 = log s ++ [(w.write s syms).2])
    (e e1 : encoder σ) (src : List Nat) (h : flush w e src = .ok e1) :
    log e1.writer = log e.writer ++ [e1.err] := by
  obtain ⟨syms, h1, h2⟩ := flush_stores_error w e e1 src h
  rw [h1, h2, hlog]

/-- The flushes of the interior loop of `Write`: either none is made, or all
but the last are answered without error and the answer to the last is stored
and is the error of the loop. -/
theorem interiorLoop_log {σ : Type} (w : Writer σ) (log : σ → List (Option Error))
    (hlog : ∀ s syms, log (w.write s syms).1 = log s ++ [(w.write s syms).2]) :
    ∀ (fuel : Nat) (e : encoder σ) (p : List Nat) (n : Nat) (e1 : encoder σ) (n1 : Nat)
      (p1 : List Nat) (err : Option Error),
      interiorLoop w fuel e p n = .ok (e1, n1, p1, err) →
      (e1.writer = e.writer ∧ e1.err = e.err ∧ err = none) ∨
      (∃ k, log e1.writer = log e.writer ++ (List.replicate k none ++ [e1.err]) ∧
        err = e1.err) := by
  intro fuel
  induction fuel with
  | zero =>
    intro e p n e1 n1 p1 err h
    simp only [interiorLoop] at h
    split at h
    · cases h
    · simp only [Except.ok.injEq, Prod.mk.injEq] at h
      obtain ⟨rfl, _, _, rfl⟩ := h
      exact Or.inl ⟨rfl, rfl, rfl⟩
  | succ fuel ih =>
    intro e p n e1 n1 p1 err h
    simp only [interiorLoop] at h
    split at h
    · split at h
      · cases h
      · split at h
        · cases h
        · rename_i e2 hfl
          have hf := flush_log w log hlog _ _ _ hfl
          split at h
          · rename_i err2 herr2
            simp only [Except.ok.injEq, Prod.mk.injEq] at h
            obtain ⟨rfl, _, _, rfl⟩ := h
            exact Or.inr ⟨0, (by rw [hf]; rfl), herr2.symm⟩
          · rename_i hnone2
            split at h
            · cases h
            · rcases ih _ _ _ _ _ _ _ h with ⟨g1, g2, g3⟩ | ⟨k, g1, g2⟩
              · refine Or.inr ⟨0, ?_, ?_⟩
                · rw [g1, g2, hf]; rfl
                · rw [g3, g2, hnone2]
              · refine Or.inr ⟨k + 1, ?_, g2⟩
                rw [g1, hf, hnone2, List.replicate_succ]
                simp
    · simp only [Except.ok.injEq, Prod.mk.injEq] at h
      obtain ⟨rfl, _, _, rfl⟩ := h
      exact Or.inl ⟨rfl, rfl, rfl⟩

theorem writeTail_log {σ : Type} (w : Writer σ) (log : σ → List (Option Error))
    (hlog : ∀ s syms, log (w.write s syms).1 = log s ++ [(w.write s syms).2])
    (e : encoder σ) (p : List Nat) (n : Nat) (e1 : encoder σ) (n1 : Nat) (res : Option Error)
    (h : writeTail w e p n = .ok (e1, n1, res)) :
    (e1.writer = e.writer ∧ e1.err = e.err ∧ res = none) ∨
    (∃ k, log e1.writer = log e.writer ++ (List.replicate k none ++ [e1.err]) ∧
      res = e1.err) := by
  unfold writeTail at h
  split at h
  · cases h
  · rename_i e2 n2 p2 err2 hint
    simp only [Except.ok.injEq, Prod.mk.injEq] at h
    obtain ⟨rfl, _, rfl⟩ := h
    rcases interiorLoop_log w log hlog _ _ _ _ _ _ _ _ hint with ⟨_, _, g3⟩ | g
    · cases g3
    · exact Or.inr g
  · rename_i e2 n2 p2 hint
    split at h
    · cases h
    · simp only [Except.ok.injEq, Prod.mk.injEq] at h
      obtain ⟨rfl, _, rfl⟩ := h
      rcases interiorLoop_log w log hlog _ _ _ _ _ _ _ _ hint with ⟨g1, g2, _⟩ | ⟨k, g1, g2⟩
      · exact Or.inl ⟨g1, g2, rfl⟩
      · exact Or.inr ⟨k, g1, g2⟩

/-- The flushes of one `Write`: the error returned is the stored one; either
no flush is made, or all flushes but the last are answered without error and
the answer to the last is stored. -/
theorem Write_log {σ : Type} (w : Writer σ) (log : σ → List (Option Error))
    (hlog : ∀ s syms, log (w.write s syms).1 = log s ++ [(w.write s syms).2])
    (e : encoder σ) (p : List Nat) (e1 : encoder σ) (n : Nat) (res : Option Error)
    (h : encoder.Write w e p = .ok (e1, n, res)) :
    res = e1.err ∧
    ((e1.writer = e.writer ∧ e1.err = e.err) ∨
      ∃ k, log e1.writer = log e.writer ++ (List.replicate k none ++ [e1.err])) := by
  unfold encoder.Write at h
  split at h
  · rename_i err0 herr0
    simp only [Except.ok.injEq, Prod.mk.injEq] at h
    obtain ⟨rfl, _, rfl⟩ := h
    exact ⟨herr0.symm, Or.inl ⟨rfl, rfl⟩⟩
  · rename_i hnone
    split at h
    · split at h
      · cases h
      · simp only at h
        split at h
        · simp only [Except.ok.injEq, Prod.mk.injEq] at h
          obtain ⟨rfl, _, rfl⟩ := h
          exact ⟨hnone.symm, Or.inl ⟨rfl, rfl⟩⟩
        · split at h
          · cases h
          · rename_i e2 hfl
            have hf := flush_log w log hlog _ _ _ hfl
            split at h
            · rename_i err2 herr2
              simp only [Except.ok.injEq, Prod.mk.injEq] at h
              obtain ⟨rfl, _, rfl⟩ := h
              exact ⟨herr2.symm, Or.inr ⟨0, by rw [hf]; rfl⟩⟩
            · rename_i hnone2
              rcases writeTail_log w log hlog _ _ _ _ _ _ h with ⟨g1, g2, g3⟩ | ⟨k, g1, g2⟩
              · have g2' : e1.err = e2.err := g2
                have g1' : e1.writer = e2.writer := g1
                refine ⟨by rw [g3, g2', hnone2], Or.inr ⟨0, ?_⟩⟩
                rw [g1', g2', hf]; rfl
              · have g1' : log e1.writer =
                    log e2.writer ++ (List.replicate k none ++ [e1.err]) := g1
                refine ⟨g2, Or.inr ⟨k + 1, ?_⟩⟩
                rw [g1', hf, hnone2, List.replicate_succ]
                simp
    · rcases writeTail_log w log hlog _ _ _ _ _ _ h with ⟨g1, g2, g3⟩ | ⟨k, g1, g2⟩
      · exact ⟨by rw [g3, g2, hnone], Or.inl ⟨g1, g2⟩⟩
      · exact ⟨g2, Or.inr ⟨k, g1⟩⟩

/-- The flush of one `Close`: the error returned is the stored one; either no
flush is made, or one is made and the answer to it is stored. -/
theorem Close_log {σ : Type} (w : Writer σ) (log : σ → List (Option Error))
    (hlog : ∀ s syms, log (w.write s syms).1 = log s ++ [(w.write s syms).2])
    (e e1 : encoder σ) (res : Option Error) (h : encoder.Close w e = .ok (e1, res)) :
    res = e1.err ∧
    ((e1.writer = e.writer ∧ e1.err = e.err) ∨
      ∃ k, log e1.writer = log e.writer ++ (List.replicate k none ++ [e1.err])) := by
  unfold encoder.Close at h
  split at h
  · split at h
    · cases h
    · split at h
      · cases h
      · rename_i e2 hfl
        have hf := flush_log w log hlog _ _ _ hfl
        simp only [Except.ok.injEq, Prod.mk.injEq] at h
        obtain ⟨rfl, rfl⟩ := h
        exact ⟨rfl, Or.inr ⟨0, hf⟩⟩
  · simp only [Except.ok.injEq, Prod.mk.injEq] at h
    obtain ⟨rfl, rfl⟩ := h
    exact ⟨rfl, Or.inl ⟨rfl, rfl⟩⟩

/-- C18: Sticky error in the Streaming Encoder.  For every sink `w` of which
`log` is the record of the answers it has given, every encoder state `e0` and
every `Write` or `Close` on `e0`, returning `res` and leaving the state `e`:
the error returned is the error stored; the answers `answers` of the sink to
the flushes made by the call are such that a flush that failed with `err` is
the last flush of the call and `err` is what the call returns and stores; and
once the call has returned `err`, every later `Write`, whatever the data and
the sink, returns `(0, err)` and every later `Close` returns `err`, and they
leave the state `e`, the state of the sink with its record included, as it
is: no sink write is made. -/
theorem C18_sticky_error {σ : Type} (w : Writer σ) (log : σ → List (Option Error))
    (hlog : ∀ s syms, log (w.write s syms).1 = log s ++ [(w.write s syms).2])
    (e0 e : encoder σ) (res : Option Error)
    (hcall : (∃ p n, encoder.Write w e0 p = .ok (e, n, res)) ∨
      encoder.Close w e0 = .ok (e, res)) :
    res = e.err ∧
    (∃ answers, log e.writer = log e0.writer ++ answers ∧
      ∀ err, some err ∈ answers →
        res = some err ∧ e.err = some err ∧
          ∃ k, answers = List.replicate k none ++ [some err]) ∧
    (∀ err, res = some err →
      (∀ (w2 : Writer σ) (p : List Nat), encoder.Write w2 e p = .ok (e, 0, some err)) ∧
      (∀ w2 : Writer σ, encoder.Close w2 e = .ok (e, some err)) ∧
      (∀ (w2 : Writer σ) (chunks : List (List Nat)),
        writeChunks w2 e chunks = .ok (e, chunks.map (fun _ => (0, some err))))) := by
  have hrec : res = e.err ∧
      ((e.writer = e0.writer ∧ e.err = e0.err) ∨
        ∃ k, log e.writer = log e0.writer ++ (List.replicate k none ++ [e.err])) := by
    rcases hcall with ⟨p, n, h⟩ | h
    · exact Write_log w log hlog e0 p e n res h
    · exact Close_log w log hlog e0 e res h
  obtain ⟨hres, hflushes⟩ := hrec
  refine ⟨hres, ?_, ?_⟩
  · rcases hflushes with ⟨h1, _⟩ | ⟨k, hk⟩
    · refine ⟨[], by rw [h1, List.append_nil], ?_⟩
      intro err herr
      cases herr
    · refine ⟨List.replicate k none ++ [e.err], hk, ?_⟩
      intro err herr
      have hlast : some err = e.err := by
        rcases List.mem_append.1 herr with h | h
        · cases (List.eq_of_mem_replicate h)
        · exact List.mem_singleton.1 h
      exact ⟨by rw [hres, hlast], hlast.symm, k, by rw [hlast]⟩
  · intro err herr
    have hst : e.err = some err := by rw [← hres, herr]
    exact ⟨fun w2 p => Write_sticky w2 e err hst p, fun w2 => Close_sticky w2 e err hst,
      fun w2 chunks => writeChunks_sticky w2 e err hst chunks⟩

set_option maxRecDepth 1000000 in
theorem C18_sticky_error_witness :
    (∀ (s : Nat × List (Option Error)) (syms : List Nat),
      Prod.snd ((recordingSink failingSink).write s syms).1 =
        Prod.snd s ++ [((recordingSink failingSink).write s syms).2]) ∧
    ((∃ p n, encoder.Write (recordingSink failingSink) (NewEncoder StdEncoding (0, [])) p =
        .ok (failedRecorder, n, some (.other 1))) ∨
      encoder.Close (recordingSink failingSink) (NewEncoder StdEncoding (0, [])) =
        .ok (failedRecorder, some (.other 1))) ∧
    (some (Error.other 1) = failedRecorder.err ∧
    (∃ answers, Prod.snd failedRecorder.writer =
        Prod.snd (NewEncoder StdEncoding ((0 : Nat), ([] : List (Option Error)))).writer ++
          answers ∧
      ∀ err, some err ∈ answers →
        some (Error.other 1) = some err ∧ failedRecorder.err = some err ∧
          ∃ k, answers = List.replicate k none ++ [some err]) ∧
    (∀ err, some (Error.other 1) = some err →
      (∀ (w2 : Writer (Nat × List (Option Error))) (p : List Nat),
        encoder.Write w2 failedRecorder p = .ok (failedRecorder, 0, some err)) ∧
      (∀ w2 : Writer (Nat × List (Option Error)),
        encoder.Close w2 failedRecorder = .ok (failedRecorder, some err)) ∧
      (∀ (w2 : Writer (Nat × List (Option Error))) (chunks : List (List Nat)),
        writeChunks w2 failedRecorder chunks =
          .ok (failedRecorder, chunks.map (fun _ => (0, some err)))))) ∧
    Prod.snd failedRecorder.writer = [some (.other 1)] :=
  ⟨fun _ _ => rfl, Or.inl ⟨[1, 2, 3, 4, 5], 0, by rfl⟩,
    C18_sticky_error (recordingSink failingSink) Prod.snd (fun _ _ => rfl)
      (NewEncoder StdEncoding (0, [])) failedRecorder (some (.other 1))
      (Or.inl ⟨[1, 2, 3, 4, 5], 0, by rfl⟩),
    rfl⟩

end Zrockford32
